import Mathlib

/-!
# Stale-file purge of the pacoloco package cache (`purge.go`)

A shallow embedding of `purgeStaleFiles` and of the library calls it is built
from, followed by theorems about it.

Conventions of the embedding:

* instants (`time.Time`) are integers, nanoseconds on the wall clock;
  `time.Duration` is a Go `int64`, so the product on line 64 is wrapped;
* file sizes and the two running totals are integers (no real directory makes
  an `int64` total overflow); a gauge is represented by the integer handed to
  `float64(..)`;
* `filepath.Walk` is represented by the sequence of `(path, info, err)` triples
  it hands to the walk function;
* the Go map `packages` is an association list in insertion order; Go ranges
  over a map in an unspecified order, which changes neither the set of
  `os.Remove` calls nor the totals;
* `slices.SortFunc` is Go's pattern-defeating quicksort (`zsortanyfunc.go`),
  embedded routine by routine with the slice as a list;
* `keep` and the index of line 114 are integers: for `keep ≥ 0` the difference
  `len(pkg.files)-keep` cannot leave the range of a Go `int`;
* file names and paths are Unicode strings (Go decodes the bytes of a name as UTF-8 when it
  matches the pattern);
* `log` output is not represented, `log.Fatalf` is the outcome `fatal`.
-/

namespace Pacoloco

/-! ## Machine integers and time -/

/-- Two's complement wrap-around of an integer into the range of a Go `int64`. -/
def wrapInt64 (x : Int) : Int := (x + 2 ^ 63) % 2 ^ 64 - 2 ^ 63

/-- The constant `time.Second`, a `time.Duration` counted in nanoseconds. -/
def Second : Int := 1000000000

/-- The value `time.Duration(-purgeFilesAfter) * time.Second` (line 64), computed in `int64`. -/
def purgeDuration (purgeFilesAfter : Int) : Int :=
  wrapInt64 (wrapInt64 (-purgeFilesAfter) * Second)

/-- The threshold `removeIfOlder := time.Now().Add(time.Duration(-purgeFilesAfter) * time.Second)`. -/
def removeIfOlder (now purgeFilesAfter : Int) : Int := now + purgeDuration purgeFilesAfter

/-! ## The regular expression of line 59 -/

/-- Character class `[a-zA-Z0-9-_+]` of the group `pkgname`. -/
def pkgnameClass (c : Char) : Bool :=
  ('a' ≤ c && c ≤ 'z') || ('A' ≤ c && c ≤ 'Z') || ('0' ≤ c && c ≤ '9') ||
    c == '-' || c == '_' || c == '+'

/-- Character class `[0-9.:a-zA-Z+]` of the group `pkgver`. -/
def pkgverClass (c : Char) : Bool :=
  ('0' ≤ c && c ≤ '9') || c == '.' || c == ':' || ('a' ≤ c && c ≤ 'z') ||
    ('A' ≤ c && c ≤ 'Z') || c == '+'

/-- Character class `[0-9]` of the group `pkgrel`. -/
def pkgrelClass (c : Char) : Bool := '0' ≤ c && c ≤ '9'

/-- Character class `[a-zA-Z0-9_]` of the group `arch`. -/
def archClass (c : Char) : Bool :=
  ('a' ≤ c && c ≤ 'z') || ('A' ≤ c && c ≤ 'Z') || ('0' ≤ c && c ≤ '9') || c == '_'

/-- The pieces a pattern such as the one of line 59 is a sequence of. -/
inductive Regexp where
  /-- A literal character. -/
  | literal (c : Char)
  /-- The pattern `.`: any character except a newline. -/
  | dot
  /-- A capturing group `([class]+)`: one or more characters of the class, greedy. -/
  | group (cls : Char → Bool)
  /-- A non-capturing alternation `(?:a|b)` of literal strings, tried left to right. -/
  | alternate (alts : List (List Char))

/-- Greedy `[class]+` followed by the continuation `k`: the longest run of class characters is
tried first, then shorter ones, down to a single character. `acc` is the text consumed so far. -/
def matchPlus {β : Type} (cls : Char → Bool) (k : List Char → List Char → Option β)
    (acc : List Char) : List Char → Option β
  | [] => none
  | c :: cs =>
    if cls c then
      match matchPlus cls k (acc ++ [c]) cs with
      | some r => some r
      | none => k (acc ++ [c]) cs
    else none

/-- Backtracking match of a sequence of pieces against the whole remaining text (the pattern ends
with `$`); returns the texts of the capturing groups. This is the leftmost-first match Go's
`regexp` package reports. -/
def matchSeq : List Regexp → List Char → List (List Char) → Option (List (List Char))
  | [], s, caps => if s = [] then some caps else none
  | Regexp.literal c :: rest, s, caps =>
    match s with
    | [] => none
    | d :: t => if d = c then matchSeq rest t caps else none
  | Regexp.dot :: rest, s, caps =>
    match s with
    | [] => none
    | d :: t => if d = '\n' then none else matchSeq rest t caps
  | Regexp.group cls :: rest, s, caps =>
    matchPlus cls (fun text t => matchSeq rest t (caps ++ [text])) [] s
  | Regexp.alternate alts :: rest, s, caps =>
    alts.findSome? (fun a => if a.isPrefixOf s then matchSeq rest (s.drop a.length) caps else none)

/-- The compiled pattern
`^(?P<pkgname>[a-zA-Z0-9-_+]+)-(?P<pkgver>[0-9.:a-zA-Z+]+)-(?P<pkgrel>[0-9]+)-(?P<arch>[a-zA-Z0-9_]+).pkg.tar.(?:zst|xz)$`
between its anchors. -/
def re : List Regexp :=
  [Regexp.group pkgnameClass, Regexp.literal '-', Regexp.group pkgverClass, Regexp.literal '-',
   Regexp.group pkgrelClass, Regexp.literal '-', Regexp.group archClass,
   Regexp.dot, Regexp.literal 'p', Regexp.literal 'k', Regexp.literal 'g',
   Regexp.dot, Regexp.literal 't', Regexp.literal 'a', Regexp.literal 'r',
   Regexp.dot, Regexp.alternate [['z', 's', 't'], ['x', 'z']]]

/-- The call `re.FindStringSubmatch(s)`: the whole match followed by the four captured groups, or
the empty slice when `s` does not match. The pattern starts with `^`, so a match starts at
offset 0. -/
def FindStringSubmatch (s : String) : List String :=
  match matchSeq re s.data [] with
  | some caps => s :: caps.map String.mk
  | none => []

/-- The call `filepath.Base(path)`: the last element of the path, trailing slashes removed. -/
def Base (path : String) : String :=
  if path.data = [] then "."
  else
    let stripped := path.data.reverse.dropWhile (fun c => c == '/')
    let last := (stripped.takeWhile (fun c => c != '/')).reverse
    if last = [] then "/" else String.mk last

/-! ## Data model -/

/-- The struct `packageFile`. -/
structure packageFile where
  path : String
  atime : Int
  mtime : Int
  size : Int
  deriving DecidableEq, Repr

/-- The struct `archPackage`. -/
structure archPackage where
  name : String
  repo : String
  count : Int
  files : List packageFile
  deriving DecidableEq, Repr

/-- One call of the walk function by `filepath.Walk`: the path, whether `err != nil`, and the
fields of `info` the walk function reads. -/
structure WalkEntry where
  path : String
  err : Bool
  regular : Bool
  modTime : Int
  accessTime : Int
  size : Int
  deriving DecidableEq, Repr

/-- The record `p` built on lines 78-83. -/
def toPackageFile (e : WalkEntry) : packageFile :=
  { path := e.path, mtime := e.modTime, atime := e.accessTime, size := e.size }

/-- Assignment `packages[mapName] = val` to a key that is present. -/
def mapSet (packages : List (String × archPackage)) (mapName : String) (val : archPackage) :
    List (String × archPackage) :=
  packages.map (fun kv => if kv.1 = mapName then (mapName, val) else kv)

/-- The closure `walkfn` (lines 69-103) as a function of the map `packages`; `none` stands for
returning a non-nil error, which makes `filepath.Walk` stop. -/
def walkfn (repoName : String) (packages : List (String × archPackage)) (e : WalkEntry) :
    Option (List (String × archPackage)) :=
  if e.err then none
  else if !e.regular then some packages
  else
    let p := toPackageFile e
    let parsedFile := FindStringSubmatch (Base e.path)
    if parsedFile.length = 0 then some packages
    else
      let mapName := repoName ++ "/" ++ parsedFile.getD 1 ""
      match packages.find? (fun kv => kv.1 = mapName) with
      | some (_, val) =>
        some (mapSet packages mapName { val with count := val.count + 1, files := val.files ++ [p] })
      | none =>
        some (packages ++
          [(mapName, { name := parsedFile.getD 1 "", repo := repoName, count := 1, files := [p] })])

/-- The call `filepath.Walk(pkgDir, walkfn)` run over the triples Walk produces: the walk ends at
the first call that returns an error (line 104 only logs it). -/
def Walk (repoName : String) :
    List WalkEntry → List (String × archPackage) → List (String × archPackage)
  | [], packages => packages
  | e :: es, packages =>
    match walkfn repoName packages e with
    | none => packages
    | some packages' => Walk repoName es packages'

/-! ## Sorting

`slices.SortFunc(x, cmp)` is `pdqsortCmpFunc(x, 0, len(x), bits.Len(uint(len(x))), cmp)`. The
routines below follow `zsortanyfunc.go`. A slice is a list, an index a natural number. A `for`
loop is a recursive function; where the loop has no counter to recurse on, the function takes a
first argument that bounds the number of turns, and it is called with a bound that the loop does
not reach (the length of the slice, or of the range). -/

/-- The comparison `a.mtime.Compare(b.mtime)` of line 109. -/
def cmpMtime (a b : packageFile) : Int :=
  if a.mtime < b.mtime then -1 else if b.mtime < a.mtime then 1 else 0

/-- Inner loop of Go's `insertionSortCmpFunc`: the new element `x` moves left while
`cmp(x, predecessor) < 0`. The sorted prefix is held reversed (its last element first). -/
def sink (x : packageFile) : List packageFile → List packageFile
  | [] => [x]
  | y :: ys => if cmpMtime x y < 0 then y :: sink x ys else x :: y :: ys

/-- Insertion sort of a list: every element in turn moves left past the elements that compare
greater (the two loops of Go's `insertionSortCmpFunc`). -/
def insertionSort (files : List packageFile) : List packageFile :=
  (files.foldl (fun sortedRev x => sink x sortedRev) []).reverse

/-- The test `cmp(data[i], data[j]) < 0` of the sorting routines. -/
def less (data : List packageFile) (i j : Nat) : Bool :=
  match data[i]?, data[j]? with
  | some x, some y => decide (cmpMtime x y < 0)
  | _, _ => false

/-- The assignment `data[i], data[j] = data[j], data[i]`. -/
def swap (data : List packageFile) (i j : Nat) : List packageFile :=
  match data[i]?, data[j]? with
  | some x, some y => (data.set i y).set j x
  | _, _ => data

/-- Go's `insertionSortCmpFunc(data, a, b, cmp)`: insertion sort of `data[a:b]`, the rest of the
slice untouched. -/
def insertionSortCmpFunc (data : List packageFile) (a b : Nat) : List packageFile :=
  data.take a ++ insertionSort ((data.take b).drop a) ++ data.drop b

/-- Go's `siftDownCmpFunc(data, lo, hi, first, cmp)`; `root` starts at `lo`. -/
def siftDownCmpFunc (hi first : Nat) : Nat → Nat → List packageFile → List packageFile
  | 0, _, data => data
  | fuel + 1, root, data =>
    let child := 2 * root + 1
    if child ≥ hi then data
    else
      let child := if child + 1 < hi ∧ less data (first + child) (first + child + 1) = true
        then child + 1 else child
      if less data (first + root) (first + child) = false then data
      else siftDownCmpFunc hi first fuel child (swap data (first + root) (first + child))

/-- First loop of Go's `heapSortCmpFunc`: `siftDown` for `i`, `i - 1`, .., `0`. -/
def heapBuild (hi first : Nat) : Nat → List packageFile → List packageFile
  | 0, data => siftDownCmpFunc hi first hi 0 data
  | i + 1, data => heapBuild hi first i (siftDownCmpFunc hi first hi (i + 1) data)

/-- Second loop of Go's `heapSortCmpFunc`: the greatest element is popped to the end, for `i`,
`i - 1`, .., `0`. -/
def heapPop (first : Nat) : Nat → List packageFile → List packageFile
  | 0, data => siftDownCmpFunc 0 first 0 0 (swap data first first)
  | i + 1, data =>
    heapPop first i (siftDownCmpFunc (i + 1) first (i + 1) 0 (swap data first (first + (i + 1))))

/-- Go's `heapSortCmpFunc(data, a, b, cmp)`. -/
def heapSortCmpFunc (data : List packageFile) (a b : Nat) : List packageFile :=
  let first := a
  let hi := b - a
  heapPop first (hi - 1) (heapBuild hi first ((hi - 1) / 2) data)

/-- A loop `for cond(i) { i++ }`: the first index from `i` on at which `cond` fails. -/
def scanUp (cond : Nat → Bool) : Nat → Nat → Nat
  | 0, i => i
  | fuel + 1, i => if cond i = true then scanUp cond fuel (i + 1) else i

/-- A loop `for cond(j) { j-- }`: the first index from `j` down at which `cond` fails. -/
def scanDown (cond : Nat → Bool) : Nat → Nat → Nat
  | 0, j => j
  | fuel + 1, j => if cond j = true then scanDown cond fuel (j - 1) else j

/-- The loop `for i <= j && cmp(data[i], data[a]) < 0 { i++ }` of `partitionCmpFunc`. -/
def partitionUp (data : List packageFile) (a j i : Nat) : Nat :=
  scanUp (fun i => decide (i ≤ j) && less data i a) data.length i

/-- The loop `for i <= j && !(cmp(data[j], data[a]) < 0) { j-- }` of `partitionCmpFunc`. -/
def partitionDown (data : List packageFile) (a i j : Nat) : Nat :=
  scanDown (fun j => decide (i ≤ j) && !less data j a) data.length j

/-- The unconditional `for` loop of `partitionCmpFunc`; returns the slice and the final `j`. -/
def partitionLoop (a : Nat) :
    Nat → List packageFile → Nat → Nat → List packageFile × Nat
  | 0, data, _, j => (data, j)
  | fuel + 1, data, i, j =>
    let i1 := partitionUp data a j i
    let j1 := partitionDown data a i1 j
    if i1 > j1 then (data, j1)
    else partitionLoop a fuel (swap data i1 j1) (i1 + 1) (j1 - 1)

/-- Go's `partitionCmpFunc(data, a, b, pivot, cmp)`: the slice, the new index of the pivot and
whether the slice was already partitioned. -/
def partitionCmpFunc (data : List packageFile) (a b pivot : Nat) :
    List packageFile × Nat × Bool :=
  let data1 := swap data a pivot
  let i := partitionUp data1 a (b - 1) (a + 1)
  let j := partitionDown data1 a i (b - 1)
  if i > j then (swap data1 j a, j, true)
  else
    let r := partitionLoop a data1.length (swap data1 i j) (i + 1) (j - 1)
    (swap r.1 r.2 a, r.2, false)

/-- The loop `for i <= j && !(cmp(data[a], data[i]) < 0) { i++ }` of `partitionEqualCmpFunc`. -/
def partitionEqualUp (data : List packageFile) (a j i : Nat) : Nat :=
  scanUp (fun i => decide (i ≤ j) && !less data a i) data.length i

/-- The loop `for i <= j && cmp(data[a], data[j]) < 0 { j-- }` of `partitionEqualCmpFunc`. -/
def partitionEqualDown (data : List packageFile) (a i j : Nat) : Nat :=
  scanDown (fun j => decide (i ≤ j) && less data a j) data.length j

/-- The `for` loop of `partitionEqualCmpFunc`; returns the slice and the final `i`. -/
def partitionEqualLoop (a : Nat) :
    Nat → List packageFile → Nat → Nat → List packageFile × Nat
  | 0, data, i, _ => (data, i)
  | fuel + 1, data, i, j =>
    let i1 := partitionEqualUp data a j i
    let j1 := partitionEqualDown data a i1 j
    if i1 > j1 then (data, i1)
    else partitionEqualLoop a fuel (swap data i1 j1) (i1 + 1) (j1 - 1)

/-- Go's `partitionEqualCmpFunc(data, a, b, pivot, cmp)`. -/
def partitionEqualCmpFunc (data : List packageFile) (a b pivot : Nat) :
    List packageFile × Nat :=
  let data1 := swap data a pivot
  partitionEqualLoop a data1.length data1 (a + 1) (b - 1)

/-- The loop `for i < b && !(cmp(data[i], data[i-1]) < 0) { i++ }` of
`partialInsertionSortCmpFunc`. -/
def partialUp (data : List packageFile) (b i : Nat) : Nat :=
  scanUp (fun i => decide (i < b) && !less data i (i - 1)) data.length i

/-- The loop `for j := i - 1; j >= 1; j--` of `partialInsertionSortCmpFunc` (shift the smaller
element to the left). -/
def shiftLeft : Nat → Nat → List packageFile → List packageFile
  | 0, _, data => data
  | fuel + 1, j, data =>
    if j ≥ 1 then
      if less data j (j - 1) = false then data
      else shiftLeft fuel (j - 1) (swap data j (j - 1))
    else data

/-- The loop `for j := i + 1; j < b; j++` of `partialInsertionSortCmpFunc` (shift the greater
element to the right). -/
def shiftRight (b : Nat) : Nat → Nat → List packageFile → List packageFile
  | 0, _, data => data
  | fuel + 1, j, data =>
    if j < b then
      if less data j (j - 1) = false then data
      else shiftRight b fuel (j + 1) (swap data j (j - 1))
    else data

/-- The loop `for j := 0; j < maxSteps; j++` of `partialInsertionSortCmpFunc`. -/
def partialSteps (a b : Nat) : Nat → List packageFile → Nat → List packageFile × Bool
  | 0, data, _ => (data, false)
  | steps + 1, data, i =>
    let i1 := partialUp data b i
    if i1 = b then (data, true)
    else if b - a < 50 then (data, false)
    else
      let data1 := swap data i1 (i1 - 1)
      let data2 := if i1 - a ≥ 2 then shiftLeft data1.length (i1 - 1) data1 else data1
      let data3 := if b - i1 ≥ 2 then shiftRight b data2.length (i1 + 1) data2 else data2
      partialSteps a b steps data3 i1

/-- Go's `partialInsertionSortCmpFunc(data, a, b, cmp)` (`maxSteps = 5`,
`shortestShifting = 50`). -/
def partialInsertionSortCmpFunc (data : List packageFile) (a b : Nat) :
    List packageFile × Bool :=
  partialSteps a b 5 data (a + 1)

/-- The method `(*xorshift).Next` on a `uint64`: `r ^= r << 13`, `r ^= r >> 17`,
`r ^= r << 5`. -/
def xorshiftNext (r : Nat) : Nat :=
  let r1 := r ^^^ (r * 2 ^ 13 % 2 ^ 64)
  let r2 := r1 ^^^ (r1 / 2 ^ 17)
  r2 ^^^ (r2 * 2 ^ 5 % 2 ^ 64)

/-- The call `bits.Len(uint(n))`: the number of bits of `n`. -/
def bitsLen (n : Nat) : Nat := if n = 0 then 0 else Nat.log2 n + 1

/-- The loop `for i := 0; i < 3; i++` of `breakPatternsCmpFunc`. -/
def breakPatternsLoop (a length idx : Nat) :
    List Nat → Nat → List packageFile → List packageFile
  | [], _, data => data
  | i :: is, random, data =>
    let random1 := xorshiftNext random
    let other0 := random1 &&& (2 ^ bitsLen length - 1)
    let other := if other0 ≥ length then other0 - length else other0
    breakPatternsLoop a length idx is random1 (swap data (idx - 1 + i) (a + other))

/-- Go's `breakPatternsCmpFunc(data, a, b, cmp)`. -/
def breakPatternsCmpFunc (data : List packageFile) (a b : Nat) : List packageFile :=
  let length := b - a
  if length ≥ 8 then breakPatternsLoop a length (a + (length / 4) * 2 - 1) [0, 1, 2] length data
  else data

/-- Go's `sortedHint`. -/
inductive sortedHint where
  | unknownHint
  | increasingHint
  | decreasingHint
  deriving DecidableEq, Repr

/-- Go's `order2CmpFunc(data, a, b, &swaps, cmp)`; the third component is the new `swaps`. -/
def order2CmpFunc (data : List packageFile) (a b swaps : Nat) : Nat × Nat × Nat :=
  if less data b a = true then (b, a, swaps + 1) else (a, b, swaps)

/-- Go's `medianCmpFunc(data, a, b, c, &swaps, cmp)`; the second component is the new `swaps`. -/
def medianCmpFunc (data : List packageFile) (a b c swaps : Nat) : Nat × Nat :=
  let r1 := order2CmpFunc data a b swaps
  let r2 := order2CmpFunc data r1.2.1 c r1.2.2
  let r3 := order2CmpFunc data r1.1 r2.1 r2.2.2
  (r3.2.1, r3.2.2)

/-- Go's `medianAdjacentCmpFunc(data, a, &swaps, cmp)`. -/
def medianAdjacentCmpFunc (data : List packageFile) (a swaps : Nat) : Nat × Nat :=
  medianCmpFunc data (a - 1) a (a + 1) swaps

/-- Go's `choosePivotCmpFunc(data, a, b, cmp)` (`shortestNinther = 50`, `maxSwaps = 12`). -/
def choosePivotCmpFunc (data : List packageFile) (a b : Nat) : Nat × sortedHint :=
  let l := b - a
  let i := a + l / 4 * 1
  let j := a + l / 4 * 2
  let k := a + l / 4 * 3
  let r : Nat × Nat :=
    if l ≥ 8 then
      if l ≥ 50 then
        let ri := medianAdjacentCmpFunc data i 0
        let rj := medianAdjacentCmpFunc data j ri.2
        let rk := medianAdjacentCmpFunc data k rj.2
        medianCmpFunc data ri.1 rj.1 rk.1 rk.2
      else medianCmpFunc data i j k 0
    else (j, 0)
  if r.2 = 0 then (r.1, sortedHint.increasingHint)
  else if r.2 = 12 then (r.1, sortedHint.decreasingHint)
  else (r.1, sortedHint.unknownHint)

/-- Go's `reverseRangeCmpFunc(data, a, b, cmp)`: `data[a:b]` is reversed. -/
def reverseRangeCmpFunc (data : List packageFile) (a b : Nat) : List packageFile :=
  data.take a ++ ((data.take b).drop a).reverse ++ data.drop b

/-- Go's `pdqsortCmpFunc(data, a, b, limit, cmp)` (`maxInsertion = 12`). The first argument bounds
the number of turns of the `for` loop and the depth of the recursion; the range `data[a:b]`
loses at least one element with every turn and every recursive call, so `b - a + 1` is enough. -/
def pdqsortCmpFunc : Nat → List packageFile → Nat → Nat → Nat → Bool → Bool → List packageFile
  | 0, data, _, _, _, _, _ => data
  | fuel + 1, data, a, b, limit, wasBalanced, wasPartitioned =>
    let length := b - a
    if length ≤ 12 then insertionSortCmpFunc data a b
    else if limit = 0 then heapSortCmpFunc data a b
    else
      let data1 := if wasBalanced then data else breakPatternsCmpFunc data a b
      let limit1 := if wasBalanced then limit else limit - 1
      let ph := choosePivotCmpFunc data1 a b
      let data2 :=
        if ph.2 = sortedHint.decreasingHint then reverseRangeCmpFunc data1 a b else data1
      let pivot := if ph.2 = sortedHint.decreasingHint then (b - 1) - (ph.1 - a) else ph.1
      let hint :=
        if ph.2 = sortedHint.decreasingHint then sortedHint.increasingHint else ph.2
      let pi : List packageFile × Bool :=
        if wasBalanced ∧ wasPartitioned ∧ hint = sortedHint.increasingHint
        then partialInsertionSortCmpFunc data2 a b else (data2, false)
      if pi.2 = true then pi.1
      else if a > 0 ∧ less pi.1 (a - 1) pivot = false then
        let pe := partitionEqualCmpFunc pi.1 a b pivot
        pdqsortCmpFunc fuel pe.1 pe.2 b limit1 wasBalanced wasPartitioned
      else
        let p := partitionCmpFunc pi.1 a b pivot
        let mid := p.2.1
        let leftLen := mid - a
        let rightLen := b - mid
        let balanceThreshold := length / 8
        if leftLen < rightLen then
          pdqsortCmpFunc fuel (pdqsortCmpFunc fuel p.1 a mid limit1 true true)
            (mid + 1) b limit1 (decide (leftLen ≥ balanceThreshold)) p.2.2
        else
          pdqsortCmpFunc fuel (pdqsortCmpFunc fuel p.1 (mid + 1) b limit1 true true)
            a mid limit1 (decide (rightLen ≥ balanceThreshold)) p.2.2

/-- The call `slices.SortFunc(files, cmp)` of line 109:
`pdqsortCmpFunc(x, 0, n, bits.Len(uint(n)), cmp)` with `n = len(x)`. A slice of at most 12
elements is sorted by insertion, which keeps files of equal modification time in their order;
a longer slice goes through the quicksort, which does not. -/
def SortFunc (files : List packageFile) : List packageFile :=
  pdqsortCmpFunc (files.length + 1) files 0 files.length (bitsLen files.length) true true

/-! ## The purge loop -/

/-- The variables the loops of lines 108-130 update: the two running totals and the arguments of
the `os.Remove` calls made so far, in call order. -/
structure PassState where
  packageSize : Int
  packageNum : Int
  removeCalls : List String
  deriving DecidableEq, Repr

/-- The loop `for index, val := range pkg.files` (lines 111-129); `len` is `len(pkg.files)`.
The difference `len(pkg.files)-keep` is taken in the integers, which is what Go computes unless
`keep` is so negative that the difference exceeds the greatest `int`. -/
def rangeFiles (keep threshold : Int) (len : Nat) :
    Nat → List packageFile → PassState → PassState
  | _, [], st => st
  | index, val :: rest, st =>
    let st1 : PassState :=
      { st with packageSize := st.packageSize + val.size, packageNum := st.packageNum + 1 }
    if (index : Int) ≥ (len : Int) - keep then
      rangeFiles keep threshold len (index + 1) rest st1
    else if val.atime < threshold then
      rangeFiles keep threshold len (index + 1) rest
        { packageSize := st1.packageSize - val.size,
          packageNum := st1.packageNum - 1,
          removeCalls := st1.removeCalls ++ [val.path, val.path ++ ".sig"] }
    else
      rangeFiles keep threshold len (index + 1) rest st1

/-- The loop `for _, pkg := range packages` (lines 108-130). -/
def rangePackages (keep threshold : Int) :
    List (String × archPackage) → PassState → PassState
  | [], st => st
  | (_, pkg) :: rest, st =>
    let files := SortFunc pkg.files
    rangePackages keep threshold rest (rangeFiles keep threshold files.length 0 files st)

/-- What a call of `purgeStaleFiles` does: it either stops the process in `log.Fatalf`, or it
returns after the `os.Remove` calls listed (in order) and after setting the two gauges of the
repository to `packageNum` and `packageSize`. -/
inductive Outcome where
  | fatal
  | done (removeCalls : List String) (packageNum packageSize : Int)
  deriving DecidableEq, Repr

/-- The elements of a path: the pieces between its slashes. -/
def splitSlash : List Char → List (List Char)
  | [] => [[]]
  | c :: cs =>
    if c = '/' then [] :: splitSlash cs
    else
      match splitSlash cs with
      | [] => [[c]]
      | e :: es => (c :: e) :: es

/-- The elements `filepath.Clean` keeps, in reverse order in `kept`: empty elements and `.` are
dropped, `..` removes the element before it, is dropped at the root and is kept at the start of
a path that is not rooted. -/
def cleanElems (rooted : Bool) : List (List Char) → List (List Char) → List (List Char)
  | [], kept => kept.reverse
  | e :: es, kept =>
    if e = [] ∨ e = ['.'] then cleanElems rooted es kept
    else if e = ['.', '.'] then
      match kept with
      | [] => if rooted then cleanElems rooted es [] else cleanElems rooted es [e]
      | top :: below =>
        if top = ['.', '.'] then cleanElems rooted es (e :: kept)
        else cleanElems rooted es below
    else cleanElems rooted es (e :: kept)

/-- The elements of a path put together again, with a slash between two of them. -/
def joinSlash : List (List Char) → List Char
  | [] => []
  | [e] => e
  | e :: es => e ++ '/' :: joinSlash es

/-- The call `filepath.Clean(path)` (separator `/`). -/
def Clean (path : String) : String :=
  let rooted := decide (path.data.head? = some '/')
  let elems := cleanElems rooted (splitSlash path.data) []
  if rooted then String.mk ('/' :: joinSlash elems)
  else if elems = [] then "." else String.mk (joinSlash elems)

/-- The call `filepath.Join(elem...)`: the elements from the first non-empty one on, joined by
slashes and cleaned; the empty string when every element is empty. -/
def Join (elem : List String) : String :=
  match elem.dropWhile (fun e => e == "") with
  | [] => ""
  | es => Clean (String.intercalate "/" es)

/-- The directory `pkgDir := filepath.Join(cacheDir, "pkgs", repoName)` of line 65. -/
def pkgDir (cacheDir repoName : String) : String := Join [cacheDir, "pkgs", repoName]

/-- The function `purgeStaleFiles` (lines 52-134). `now` is the value of `time.Now()` and
`walk dir` the sequence of calls `filepath.Walk(dir, ..)` makes on the current disk. -/
def purgeStaleFiles (now : Int) (walk : String → List WalkEntry)
    (cacheDir : String) (purgeFilesAfter keep : Int) (repoName : String) : Outcome :=
  if purgeFilesAfter = 0 then Outcome.fatal
  else
    let threshold := removeIfOlder now purgeFilesAfter
    let packages := Walk repoName (walk (pkgDir cacheDir repoName)) []
    let st := rangePackages keep threshold packages
      { packageSize := 0, packageNum := 0, removeCalls := [] }
    Outcome.done st.removeCalls st.packageNum st.packageSize

/-! ## Notions used to state the properties -/

/-- The texts the pattern of line 59 accepts, split into the four captured parts; `c1`, `c2` and
`c3` are the characters the three unescaped dots of the pattern stand for. -/
def Parses (s n v r a : List Char) : Prop :=
  ∃ c1 c2 c3 ext,
    n ≠ [] ∧ (∀ c ∈ n, pkgnameClass c = true) ∧
    v ≠ [] ∧ (∀ c ∈ v, pkgverClass c = true) ∧
    r ≠ [] ∧ (∀ c ∈ r, pkgrelClass c = true) ∧
    a ≠ [] ∧ (∀ c ∈ a, archClass c = true) ∧
    c1 ≠ '\n' ∧ c2 ≠ '\n' ∧ c3 ≠ '\n' ∧
    (ext = ['z', 's', 't'] ∨ ext = ['x', 'z']) ∧
    s = n ++ '-' :: (v ++ '-' :: (r ++ '-' :: (a ++
      c1 :: 'p' :: 'k' :: 'g' :: c2 :: 't' :: 'a' :: 'r' :: c3 :: ext)))

/-- Whether the walk function files the entry under a package: a regular file whose base name
matches the pattern (lines 73 and 86). -/
def isPackage (e : WalkEntry) : Bool :=
  e.regular && (FindStringSubmatch (Base e.path)).length != 0

/-- The key `mapName` the walk function computes for an entry (line 89). -/
def mapNameOf (repoName : String) (e : WalkEntry) : String :=
  repoName ++ "/" ++ (FindStringSubmatch (Base e.path)).getD 1 ""

/-- The entries the walk function files: those handed to it before the first error that are
regular files with a matching base name. -/
def scanned (entries : List WalkEntry) : List WalkEntry :=
  (entries.takeWhile (fun e => !e.err)).filter isPackage

/-- The records of the filed entries that have the key `mapName`, in walk order. -/
def groupFiles (repoName : String) (filed : List WalkEntry) (mapName : String) :
    List packageFile :=
  (filed.filter (fun e => mapNameOf repoName e = mapName)).map toPackageFile

/-- What the map `packages` holds once the entries `filed` have been filed. -/
def WalkInv (repoName : String) (filed : List WalkEntry)
    (packages : List (String × archPackage)) : Prop :=
  (packages.map Prod.fst).Nodup ∧
  (∀ e ∈ filed, mapNameOf repoName e ∈ packages.map Prod.fst) ∧
  (∀ kv ∈ packages, kv.2.files = groupFiles repoName filed kv.1 ∧
    kv.2.count = kv.2.files.length ∧ kv.1 = repoName ++ "/" ++ kv.2.name ∧
    kv.2.repo = repoName ∧ ∃ e ∈ filed, mapNameOf repoName e = kv.1)

/-- The two `os.Remove` calls of lines 119 and 123 for one file. -/
def removeCallsOf (f : packageFile) : List String := [f.path, f.path ++ ".sig"]

/-- The deletion candidates of a group: the files at the sorted positions strictly before the
last `keep` ones. -/
def candidates (keep : Int) (files : List packageFile) : List packageFile :=
  (SortFunc files).take ((files.length : Int) - keep).toNat

/-- The deletion candidates of a group whose access time is before the threshold. -/
def staleOf (keep threshold : Int) (files : List packageFile) : List packageFile :=
  (candidates keep files).filter (fun f => decide (f.atime < threshold))

/-- One call `os.Remove(path)` on the files present: the file of that path is gone afterwards
unless the call fails. -/
def osRemove (removeFails : String → Bool) (disk : List WalkEntry) (path : String) :
    List WalkEntry :=
  if removeFails path then disk else disk.filter (fun e => e.path != path)

/-- The files present after a sequence of `os.Remove` calls. -/
def diskAfter (removeFails : String → Bool) (calls : List String) (disk : List WalkEntry) :
    List WalkEntry :=
  calls.foldl (osRemove removeFails) disk

/-- All records of the map `packages`. -/
def allFiles (packages : List (String × archPackage)) : List packageFile :=
  packages.flatMap (fun kv => kv.2.files)

/-- The records for which the pass calls `os.Remove`: the stale deletion candidates of every
package, in the order the loops visit them. -/
def removedFiles (keep threshold : Int) (packages : List (String × archPackage)) :
    List packageFile :=
  packages.flatMap (fun kv => staleOf keep threshold kv.2.files)

/-! ## Notions used to reason about the sort -/

/-- The modification time of `data[i]` (0 outside the slice). -/
def keyAt (data : List packageFile) (i : Nat) : Int :=
  match data[i]? with
  | some x => x.mtime
  | none => 0

/-- What a sorting routine working on `data[a:b]` does to the slice: the elements are permuted,
the positions outside the range keep their modification times, and every modification time in
the range was in the range before. -/
def Step (a b : Nat) (d d' : List packageFile) : Prop :=
  d'.Perm d ∧ (∀ m, m < a ∨ b ≤ m → keyAt d' m = keyAt d m) ∧
    (∀ m, a ≤ m → m < b → ∃ m', a ≤ m' ∧ m' < b ∧ keyAt d' m = keyAt d m')

/-- The range `data[a:b]` is in ascending order of modification time. -/
def SortedRange (d : List packageFile) (a b : Nat) : Prop :=
  ∀ i j, a ≤ i → i ≤ j → j < b → keyAt d i ≤ keyAt d j

/-- The element before the range `d[a:b]`, when there is one, was modified no later than the
elements of the range. -/
def Guarded (a b : Nat) (d : List packageFile) : Prop :=
  0 < a → ∀ m, a ≤ m → m < b → keyAt d (a - 1) ≤ keyAt d m

/-- The heap condition at node `r` of the heap `d[first : first + hi]`: the children of `r`
were modified no later than `r`. -/
def HeapAt (first : Nat) (d : List packageFile) (hi r : Nat) : Prop :=
  (2 * r + 1 < hi → keyAt d (first + (2 * r + 1)) ≤ keyAt d (first + r)) ∧
    (2 * r + 2 < hi → keyAt d (first + (2 * r + 2)) ≤ keyAt d (first + r))

/-- One turn of the loop of `pdqsortCmpFunc` up to the partition: `breakPatterns` after an
unbalanced partition, the choice of the pivot, the reversal of a decreasing range and the
attempt of a partial insertion sort. The result is the slice with the answer of the partial
insertion sort, the index of the pivot, and the new `limit`. -/
def pdqsortPrepare (data : List packageFile) (a b limit : Nat)
    (wasBalanced wasPartitioned : Bool) : (List packageFile × Bool) × Nat × Nat :=
  let data1 := if wasBalanced then data else breakPatternsCmpFunc data a b
  let limit1 := if wasBalanced then limit else limit - 1
  let ph := choosePivotCmpFunc data1 a b
  let data2 :=
    if ph.2 = sortedHint.decreasingHint then reverseRangeCmpFunc data1 a b else data1
  let pivot := if ph.2 = sortedHint.decreasingHint then (b - 1) - (ph.1 - a) else ph.1
  let hint :=
    if ph.2 = sortedHint.decreasingHint then sortedHint.increasingHint else ph.2
  let pi : List packageFile × Bool :=
    if wasBalanced ∧ wasPartitioned ∧ hint = sortedHint.increasingHint
    then partialInsertionSortCmpFunc data2 a b else (data2, false)
  (pi, pivot, limit1)

/-! ## Paths and the order of the walk -/

/-- Directory `dir` spelled with its closing slash: every path inside `dir` starts with it. -/
def dirSlash (dir : String) : String :=
  if dir.data.getLast? = some '/' then dir else dir ++ "/"

/-- The first element of a path: what stands before its first slash. -/
def firstElem (path : String) : List Char := path.data.takeWhile (fun c => c != '/')

/-- The path lies inside the directory `dir` (a clean path, as `filepath.Join` returns it): it
starts with `dir` and a slash; for the directory `.` it is a relative path whose first element
is a name (not empty, not `.` and not `..`). -/
def isBelow (dir path : String) : Prop :=
  if dir = "." then
    firstElem path ≠ [] ∧ firstElem path ≠ ['.'] ∧ firstElem path ≠ ['.', '.']
  else (dirSlash dir).data <+: path.data

instance (dir path : String) : Decidable (isBelow dir path) :=
  inferInstanceAs (Decidable (if dir = "." then
    firstElem path ≠ [] ∧ firstElem path ≠ ['.'] ∧ firstElem path ≠ ['.', '.']
  else (dirSlash dir).data <+: path.data))

/-- Go's order `a < b` on strings (the order of the bytes, which for UTF-8 is the order of the
characters). -/
def nameLess : List Char → List Char → Bool
  | _, [] => false
  | [], _ :: _ => true
  | a :: as, b :: bs => decide (a < b) || (decide (a = b) && nameLess as bs)

/-- The order in which `filepath.Walk` visits two paths given by their elements: a directory
before what it holds, and the names of one directory in increasing order (`sort.Strings`), each
with all it holds before the next name. -/
def elemsBefore : List (List Char) → List (List Char) → Bool
  | _, [] => false
  | [], _ :: _ => true
  | a :: as, b :: bs => if a = b then elemsBefore as bs else nameLess a b

/-- Path `p` is visited before path `q` by `filepath.Walk`. -/
def walkBefore (p q : String) : Bool := elemsBefore (splitSlash p.data) (splitSlash q.data)

/-- The calls of the walk function come in the order of `filepath.Walk`. -/
def WalkOrdered (entries : List WalkEntry) : Prop :=
  entries.Pairwise (fun e f => walkBefore e.path f.path = true)

instance (entries : List WalkEntry) : Decidable (WalkOrdered entries) :=
  inferInstanceAs
    (Decidable (entries.Pairwise (fun (e f : WalkEntry) => walkBefore e.path f.path = true)))

/-- A name as the listing of a directory gives it: not empty, without a slash, and neither `.`
nor `..`. -/
def isName (n : List Char) : Bool :=
  decide (n ≠ []) && decide ('/' ∉ n) && decide (n ≠ ['.']) && decide (n ≠ ['.', '.'])

/-- The calls after the first are made as `filepath.Walk` makes them: each is for
`filepath.Join(dir, name)`, where `dir` is a path handed over before without error and not as a
regular file, and `name` is a name of its listing. `seen` holds the calls made so far. -/
def walkPathsFrom : List WalkEntry → List WalkEntry → Bool
  | _, [] => true
  | seen, e :: rest =>
    seen.any (fun q => !q.regular && !q.err && isName (Base e.path).data &&
        decide (e.path = Join [q.path, Base e.path])) &&
      walkPathsFrom (e :: seen) rest

/-- The walk is the one `filepath.Walk(root, ..)` makes of a directory: the first call is for
`root`, which is not a regular file, and every other call is for a name in a directory handed
over before. -/
def walkPaths (root : String) : List WalkEntry → Bool
  | [] => false
  | e :: rest => decide (e.path = root) && !e.regular && walkPathsFrom [e] rest

/-! ## Example data -/

/-- An example walk of a repository directory: the directory itself, three versions of the
package `file` and an index file. With `now = 1000 s` and `purgeFilesAfter = 100` the threshold is
`900 s`; the access times of the first two versions are before it. -/
def exampleWalk (dir : String) : List WalkEntry :=
  [ { path := dir, err := false, regular := false, modTime := 0, accessTime := 0, size := 0 },
    { path := dir ++ "/file-1.00-1-any.pkg.tar.zst", err := false, regular := true,
      modTime := 100000000000, accessTime := 100000000000, size := 9 },
    { path := dir ++ "/file-1.01-1-any.pkg.tar.zst", err := false, regular := true,
      modTime := 200000000000, accessTime := 200000000000, size := 8 },
    { path := dir ++ "/file-1.02-1-any.pkg.tar.zst", err := false, regular := true,
      modTime := 300000000000, accessTime := 950000000000, size := 16 },
    { path := dir ++ "/myrepo.db", err := false, regular := true,
      modTime := 300000000000, accessTime := 100000000000, size := 5 } ]

/-- A walk of a repository directory that holds thirteen versions `1.00` .. `1.12` of the package
`file`: version `1.09` was modified at `100 s`, the twelve others at `200 s`; the versions listed
in `stale` were last accessed at `100 s`, the others at `950 s`; every file has size 1. -/
def tiedWalk (stale : List String) (dir : String) : List WalkEntry :=
  { path := dir, err := false, regular := false, modTime := 0, accessTime := 0, size := 0 } ::
    ["00", "01", "02", "03", "04", "05", "06", "07", "08", "09", "10", "11", "12"].map
      (fun v =>
        { path := dir ++ "/file-1." ++ v ++ "-1-any.pkg.tar.zst", err := false, regular := true,
          modTime := if v = "09" then 100000000000 else 200000000000,
          accessTime := if v ∈ stale then 100000000000 else 950000000000,
          size := 1 })

/-- A walk of a root that is itself a regular file of 9 bytes, last accessed at `100 s`: the
only call of the walk function is for the root. -/
def fileWalk (dir : String) : List WalkEntry :=
  [ { path := dir, err := false, regular := true, modTime := 100000000000,
      accessTime := 100000000000, size := 9 } ]

/-- A walk that meets a directory it cannot read before a package file of 5 bytes: the directory
itself, the unreadable subdirectory `aaa` (`err != nil`), and the file, which `filepath.Walk`
would hand over next. -/
def brokenWalk (dir : String) : List WalkEntry :=
  [ { path := dir, err := false, regular := false, modTime := 0, accessTime := 0, size := 0 },
    { path := dir ++ "/aaa", err := true, regular := false, modTime := 0, accessTime := 0,
      size := 0 },
    { path := dir ++ "/file-1.00-1-any.pkg.tar.zst", err := false, regular := true,
      modTime := 100000000000, accessTime := 950000000000, size := 5 } ]

/-! ## Gauges -/

/-- The call `gauge.WithLabelValues(label).Set(v)` on a gauge vector: the value of that label is
overwritten, the other labels keep theirs. -/
def gaugeSet (gauge : String → Int) (label : String) (v : Int) : String → Int :=
  fun l => if l = label then v else gauge l

/-- The gauge vectors `cachePackageGauge` and `cacheSizeGauge` after a call of `purgeStaleFiles`
for `repoName` with the given outcome (lines 132-133), from their values before the call. -/
def gaugesAfter (cachePackageGauge cacheSizeGauge : String → Int) (repoName : String) :
    Outcome → (String → Int) × (String → Int)
  | Outcome.fatal => (cachePackageGauge, cacheSizeGauge)
  | Outcome.done _ packageNum packageSize =>
    (gaugeSet cachePackageGauge repoName packageNum, gaugeSet cacheSizeGauge repoName packageSize)

/-! ## The pass with the results of `os.Remove` -/

/-- The call `os.Remove(path)` with its result: the files present afterwards and whether the call
returned an error, which it does when the removal is refused or when no such file exists. -/
def osRemoveErr (removeFails : String → Bool) (disk : List WalkEntry) (path : String) :
    List WalkEntry × Bool :=
  if removeFails path then (disk, true)
  else if disk.any (fun e => e.path == path) then (disk.filter (fun e => e.path != path), false)
  else (disk, true)

/-- The variables of the loops together with the files present and the paths of the errors
that `log.Print(err)` has logged (lines 120 and 124). -/
structure RunState where
  st : PassState
  disk : List WalkEntry
  errors : List String
  deriving DecidableEq, Repr

/-- The loop `for index, val := range pkg.files` (lines 111-129) with the `os.Remove` calls
carried out: an error of either call is logged and nothing else depends on it. -/
def rangeFilesRun (removeFails : String → Bool) (keep threshold : Int) (len : Nat) :
    Nat → List packageFile → RunState → RunState
  | _, [], rs => rs
  | index, val :: rest, rs =>
    let st1 : PassState :=
      { rs.st with packageSize := rs.st.packageSize + val.size,
                   packageNum := rs.st.packageNum + 1 }
    if (index : Int) ≥ (len : Int) - keep then
      rangeFilesRun removeFails keep threshold len (index + 1) rest { rs with st := st1 }
    else if val.atime < threshold then
      let r1 := osRemoveErr removeFails rs.disk val.path
      let r2 := osRemoveErr removeFails r1.1 (val.path ++ ".sig")
      rangeFilesRun removeFails keep threshold len (index + 1) rest
        { st := { packageSize := st1.packageSize - val.size,
                  packageNum := st1.packageNum - 1,
                  removeCalls := st1.removeCalls ++ [val.path, val.path ++ ".sig"] },
          disk := r2.1,
          errors := rs.errors ++ (if r1.2 then [val.path] else []) ++
            (if r2.2 then [val.path ++ ".sig"] else []) }
    else
      rangeFilesRun removeFails keep threshold len (index + 1) rest { rs with st := st1 }

/-- The loop `for _, pkg := range packages` (lines 108-130) with the `os.Remove` calls carried
out. -/
def rangePackagesRun (removeFails : String → Bool) (keep threshold : Int) :
    List (String × archPackage) → RunState → RunState
  | [], rs => rs
  | (_, pkg) :: rest, rs =>
    let files := SortFunc pkg.files
    rangePackagesRun removeFails keep threshold rest
      (rangeFilesRun removeFails keep threshold files.length 0 files rs)

/-- A call of `purgeStaleFiles` carried out on the files of the repository directory: its
outcome, the files present afterwards and the logged removal errors. `removeFails` tells on which
paths `os.Remove` is refused. -/
def purgeStaleFilesRun (removeFails : String → Bool) (now : Int)
    (walk : String → List WalkEntry) (cacheDir : String) (purgeFilesAfter keep : Int)
    (repoName : String) : Outcome × List WalkEntry × List String :=
  if purgeFilesAfter = 0 then (Outcome.fatal, walk (pkgDir cacheDir repoName), [])
  else
    let threshold := removeIfOlder now purgeFilesAfter
    let packages := Walk repoName (walk (pkgDir cacheDir repoName)) []
    let rs := rangePackagesRun removeFails keep threshold packages
      { st := { packageSize := 0, packageNum := 0, removeCalls := [] },
        disk := walk (pkgDir cacheDir repoName), errors := [] }
    (Outcome.done rs.st.removeCalls rs.st.packageNum rs.st.packageSize, rs.disk, rs.errors)

/-! ## The regular expression: what it accepts -/


theorem matchPlus_sound {β : Type} (cls : Char → Bool) (k : List Char → List Char → Option β) :
    ∀ (s acc : List Char) (r : β), matchPlus cls k acc s = some r →
      ∃ pre rest, pre ≠ [] ∧ (∀ c ∈ pre, cls c = true) ∧ s = pre ++ rest ∧
        k (acc ++ pre) rest = some r := by
  intro s
  induction s with
  | nil => intro acc r h; simp [matchPlus] at h
  | cons c cs ih =>
    intro acc r h
    unfold matchPlus at h
    by_cases hc : cls c = true
    · simp only [hc, if_true] at h
      cases hrec : matchPlus cls k (acc ++ [c]) cs with
      | some r' =>
        rw [hrec] at h
        obtain ⟨pre, rest, _, hall, hs, hk⟩ := ih (acc ++ [c]) r' hrec
        refine ⟨c :: pre, rest, by simp, ?_, by simp [hs], ?_⟩
        · intro d hd
          rcases List.mem_cons.1 hd with rfl | hd
          · exact hc
          · exact hall d hd
        · simp only [Option.some.injEq] at h
          subst h
          simpa using hk
      | none =>
        rw [hrec] at h
        exact ⟨[c], cs, by simp, by simpa using hc, by simp, h⟩
    · simp [hc] at h

theorem matchPlus_complete {β : Type} (cls : Char → Bool) (k : List Char → List Char → Option β) :
    ∀ (pre rest acc : List Char), pre ≠ [] → (∀ c ∈ pre, cls c = true) →
      (k (acc ++ pre) rest).isSome = true →
      (matchPlus cls k acc (pre ++ rest)).isSome = true := by
  intro pre
  induction pre with
  | nil => intro rest acc h; exact absurd rfl h
  | cons c pre ih =>
    intro rest acc _ hall hk
    have hc : cls c = true := hall c (List.mem_cons_self _ _)
    simp only [List.cons_append]
    unfold matchPlus
    simp only [hc, if_true]
    by_cases hp : pre = []
    · subst hp
      cases hrec : matchPlus cls k (acc ++ [c]) ([] ++ rest) with
      | some r' => simp
      | none => simpa using hk
    · have := ih rest (acc ++ [c]) hp (fun d hd => hall d (List.mem_cons_of_mem _ hd))
        (by simpa using hk)
      cases hrec : matchPlus cls k (acc ++ [c]) (pre ++ rest) with
      | some r' => simp
      | none => rw [hrec] at this; simp at this

theorem matchSeq_literal (c : Char) (rest : List Regexp) (s : List Char)
    (caps out : List (List Char)) :
    matchSeq (Regexp.literal c :: rest) s caps = some out ↔
      ∃ t, s = c :: t ∧ matchSeq rest t caps = some out := by
  cases s with
  | nil => simp [matchSeq]
  | cons d t =>
    by_cases h : d = c
    · subst h; simp [matchSeq]
    · simp [matchSeq, h]

theorem matchSeq_dot (rest : List Regexp) (s : List Char) (caps out : List (List Char)) :
    matchSeq (Regexp.dot :: rest) s caps = some out ↔
      ∃ d t, s = d :: t ∧ d ≠ '\n' ∧ matchSeq rest t caps = some out := by
  cases s with
  | nil => simp [matchSeq]
  | cons d t =>
    by_cases h : d = '\n'
    · subst h; simp [matchSeq]
    · simp only [matchSeq, h, if_false]
      constructor
      · intro hm; exact ⟨d, t, rfl, h, hm⟩
      · rintro ⟨d', t', heq, _, hm⟩
        cases heq
        exact hm

theorem matchSeq_ext (s : List Char) (caps out : List (List Char)) :
    matchSeq [Regexp.alternate [['z', 's', 't'], ['x', 'z']]] s caps = some out ↔
      (s = ['z', 's', 't'] ∨ s = ['x', 'z']) ∧ out = caps := by
  rcases s with _ | ⟨a, _ | ⟨b, _ | ⟨c, _ | ⟨d, t⟩⟩⟩⟩ <;>
    simp [matchSeq, List.findSome?, List.isPrefixOf]
  · by_cases h : 'x' = a ∧ 'z' = b
    · obtain ⟨rfl, rfl⟩ := h
      simp [eq_comm]
    · simp only [h, if_false]
      constructor
      · intro h'; cases h'
      · rintro ⟨⟨rfl, rfl⟩, _⟩
        exact absurd ⟨rfl, rfl⟩ h
  · by_cases h : 'z' = a ∧ 's' = b ∧ 't' = c
    · obtain ⟨rfl, rfl, rfl⟩ := h
      simp [eq_comm]
    · simp only [h, if_false]
      constructor
      · intro h'; cases h'
      · rintro ⟨⟨rfl, rfl, rfl⟩, _⟩
        exact absurd ⟨rfl, rfl, rfl⟩ h

theorem matchSeq_group_sound (cls : Char → Bool) (rest : List Regexp) (s : List Char)
    (caps out : List (List Char))
    (h : matchSeq (Regexp.group cls :: rest) s caps = some out) :
    ∃ text t, text ≠ [] ∧ (∀ c ∈ text, cls c = true) ∧ s = text ++ t ∧
      matchSeq rest t (caps ++ [text]) = some out := by
  simp only [matchSeq] at h
  obtain ⟨pre, t, h1, h2, h3, h4⟩ := matchPlus_sound cls _ s [] out h
  exact ⟨pre, t, h1, h2, h3, by simpa using h4⟩

theorem matchSeq_group_complete (cls : Char → Bool) (rest : List Regexp) (text t : List Char)
    (caps : List (List Char)) (h1 : text ≠ []) (h2 : ∀ c ∈ text, cls c = true)
    (h : (matchSeq rest t (caps ++ [text])).isSome = true) :
    (matchSeq (Regexp.group cls :: rest) (text ++ t) caps).isSome = true := by
  simp only [matchSeq]
  exact matchPlus_complete cls _ text t [] h1 h2 (by simpa using h)

theorem re_sound (s : List Char) (out : List (List Char)) (h : matchSeq re s [] = some out) :
    ∃ n v r a, out = [n, v, r, a] ∧ Parses s n v r a := by
  unfold re at h
  obtain ⟨n, t1, hn1, hn2, hs1, h⟩ := matchSeq_group_sound _ _ _ _ _ h
  obtain ⟨t2, hs2, h⟩ := (matchSeq_literal _ _ _ _ _).1 h
  obtain ⟨v, t3, hv1, hv2, hs3, h⟩ := matchSeq_group_sound _ _ _ _ _ h
  obtain ⟨t4, hs4, h⟩ := (matchSeq_literal _ _ _ _ _).1 h
  obtain ⟨r, t5, hr1, hr2, hs5, h⟩ := matchSeq_group_sound _ _ _ _ _ h
  obtain ⟨t6, hs6, h⟩ := (matchSeq_literal _ _ _ _ _).1 h
  obtain ⟨a, t7, ha1, ha2, hs7, h⟩ := matchSeq_group_sound _ _ _ _ _ h
  obtain ⟨c1, t8, hs8, hc1, h⟩ := (matchSeq_dot _ _ _ _).1 h
  obtain ⟨t9, hs9, h⟩ := (matchSeq_literal _ _ _ _ _).1 h
  obtain ⟨t10, hs10, h⟩ := (matchSeq_literal _ _ _ _ _).1 h
  obtain ⟨t11, hs11, h⟩ := (matchSeq_literal _ _ _ _ _).1 h
  obtain ⟨c2, t12, hs12, hc2, h⟩ := (matchSeq_dot _ _ _ _).1 h
  obtain ⟨t13, hs13, h⟩ := (matchSeq_literal _ _ _ _ _).1 h
  obtain ⟨t14, hs14, h⟩ := (matchSeq_literal _ _ _ _ _).1 h
  obtain ⟨t15, hs15, h⟩ := (matchSeq_literal _ _ _ _ _).1 h
  obtain ⟨c3, ext, hs16, hc3, h⟩ := (matchSeq_dot _ _ _ _).1 h
  obtain ⟨hext, hout⟩ := (matchSeq_ext _ _ _).1 h
  subst hs16 hs15 hs14 hs13 hs12 hs11 hs10 hs9 hs8 hs7 hs6 hs5 hs4 hs3 hs2 hs1
  exact ⟨n, v, r, a, by simpa using hout,
    c1, c2, c3, ext, hn1, hn2, hv1, hv2, hr1, hr2, ha1, ha2, hc1, hc2, hc3, hext, rfl⟩

theorem re_complete (s n v r a : List Char) (h : Parses s n v r a) :
    (matchSeq re s []).isSome = true := by
  obtain ⟨c1, c2, c3, ext, hn1, hn2, hv1, hv2, hr1, hr2, ha1, ha2, hc1, hc2, hc3, hext, rfl⟩ := h
  unfold re
  apply matchSeq_group_complete _ _ _ _ _ hn1 hn2
  have lit : ∀ (c : Char) (rest : List Regexp) (t : List Char) (caps : List (List Char)),
      (matchSeq rest t caps).isSome = true →
      (matchSeq (Regexp.literal c :: rest) (c :: t) caps).isSome = true := by
    intro c rest t caps h
    simpa [matchSeq] using h
  have dot : ∀ (d : Char) (rest : List Regexp) (t : List Char) (caps : List (List Char)),
      d ≠ '\n' → (matchSeq rest t caps).isSome = true →
      (matchSeq (Regexp.dot :: rest) (d :: t) caps).isSome = true := by
    intro d rest t caps hd h
    simpa [matchSeq, hd] using h
  apply lit
  apply matchSeq_group_complete _ _ _ _ _ hv1 hv2
  apply lit
  apply matchSeq_group_complete _ _ _ _ _ hr1 hr2
  apply lit
  apply matchSeq_group_complete _ _ _ _ _ ha1 ha2
  apply dot _ _ _ _ hc1
  apply lit; apply lit; apply lit
  apply dot _ _ _ _ hc2
  apply lit; apply lit; apply lit
  apply dot _ _ _ _ hc3
  have := (matchSeq_ext ext ([] ++ [n] ++ [v] ++ [r] ++ [a]) _).2 ⟨hext, rfl⟩
  rw [this]
  rfl


theorem last_hyphen_unique : ∀ (x x' y y' : List Char),
    '-' ∉ y → '-' ∉ y' → x ++ '-' :: y = x' ++ '-' :: y' → x = x' ∧ y = y' := by
  intro x
  induction x with
  | nil =>
    intro x' y y' hy hy' h
    cases x' with
    | nil => simpa using h
    | cons c x'' =>
      simp only [List.nil_append, List.cons_append, List.cons.injEq] at h
      exact absurd (h.2 ▸ (by simp : '-' ∈ x'' ++ '-' :: y')) hy
  | cons c x ih =>
    intro x' y y' hy hy' h
    cases x' with
    | nil =>
      simp only [List.nil_append, List.cons_append, List.cons.injEq] at h
      exact absurd (h.2 ▸ (by simp : '-' ∈ x ++ '-' :: y)) hy'
    | cons c' x'' =>
      simp only [List.cons_append, List.cons.injEq] at h
      obtain ⟨h1, h2⟩ := ih x'' y y' hy hy' h.2
      exact ⟨by rw [h.1, h1], h2⟩

theorem pkgverClass_ne_hyphen (c : Char) (h : pkgverClass c = true) : c ≠ '-' := by
  rintro rfl; revert h; decide

theorem pkgrelClass_ne_hyphen (c : Char) (h : pkgrelClass c = true) : c ≠ '-' := by
  rintro rfl; revert h; decide

theorem archClass_ne_hyphen (c : Char) (h : archClass c = true) : c ≠ '-' := by
  rintro rfl; revert h; decide

theorem not_mem_hyphen (cls : Char → Bool) (hcls : ∀ c, cls c = true → c ≠ '-') (l : List Char)
    (h : ∀ c ∈ l, cls c = true) : '-' ∉ l :=
  fun hm => hcls _ (h _ hm) rfl

theorem parses_unique (s n v r a n' v' r' a' : List Char)
    (h : Parses s n v r a) (h' : Parses s n' v' r' a') :
    n = n' ∧ v = v' ∧ r = r' ∧ a = a' := by
  obtain ⟨c1, c2, c3, ext, -, -, -, hv, -, hr, -, ha, -, -, -, hext, hs⟩ := h
  obtain ⟨d1, d2, d3, ext', -, -, -, hv', -, hr', -, ha', -, -, -, hext', hs'⟩ := h'
  rw [hs] at hs'
  -- the two suffixes have the same length
  have hlen : (c1 :: 'p' :: 'k' :: 'g' :: c2 :: 't' :: 'a' :: 'r' :: c3 :: ext).length =
      (d1 :: 'p' :: 'k' :: 'g' :: d2 :: 't' :: 'a' :: 'r' :: d3 :: ext').length := by
    rcases hext with rfl | rfl <;> rcases hext' with rfl | rfl
    · rfl
    · exfalso
      have h2 : (n ++ '-' :: (v ++ '-' :: (r ++ '-' :: (a ++
          [c1, 'p', 'k', 'g', c2, 't', 'a', 'r', c3, 'z', 's'])))) ++ ['t'] =
          (n' ++ '-' :: (v' ++ '-' :: (r' ++ '-' :: (a' ++
          [d1, 'p', 'k', 'g', d2, 't', 'a', 'r', d3, 'x'])))) ++ ['z'] := by
        simpa using hs'
      have := (List.append_inj' h2 rfl).2
      simp at this
    · exfalso
      have h2 : (n ++ '-' :: (v ++ '-' :: (r ++ '-' :: (a ++
          [c1, 'p', 'k', 'g', c2, 't', 'a', 'r', c3, 'x'])))) ++ ['z'] =
          (n' ++ '-' :: (v' ++ '-' :: (r' ++ '-' :: (a' ++
          [d1, 'p', 'k', 'g', d2, 't', 'a', 'r', d3, 'z', 's'])))) ++ ['t'] := by
        simpa using hs'
      have := (List.append_inj' h2 rfl).2
      simp at this
    · rfl
  have h3 : (n ++ '-' :: (v ++ '-' :: (r ++ '-' :: a))) ++
        (c1 :: 'p' :: 'k' :: 'g' :: c2 :: 't' :: 'a' :: 'r' :: c3 :: ext) =
      (n' ++ '-' :: (v' ++ '-' :: (r' ++ '-' :: a'))) ++
        (d1 :: 'p' :: 'k' :: 'g' :: d2 :: 't' :: 'a' :: 'r' :: d3 :: ext') := by
    simpa using hs'
  have h4 := (List.append_inj' h3 hlen).1
  have h5 : (n ++ '-' :: (v ++ '-' :: r)) ++ '-' :: a =
      (n' ++ '-' :: (v' ++ '-' :: r')) ++ '-' :: a' := by simpa using h4
  obtain ⟨h6, haa⟩ := last_hyphen_unique _ _ _ _
    (not_mem_hyphen _ archClass_ne_hyphen a ha) (not_mem_hyphen _ archClass_ne_hyphen a' ha') h5
  have h7 : (n ++ '-' :: v) ++ '-' :: r = (n' ++ '-' :: v') ++ '-' :: r' := by simpa using h6
  obtain ⟨h8, hrr⟩ := last_hyphen_unique _ _ _ _
    (not_mem_hyphen _ pkgrelClass_ne_hyphen r hr) (not_mem_hyphen _ pkgrelClass_ne_hyphen r' hr') h7
  obtain ⟨hnn, hvv⟩ := last_hyphen_unique _ _ _ _
    (not_mem_hyphen _ pkgverClass_ne_hyphen v hv) (not_mem_hyphen _ pkgverClass_ne_hyphen v' hv') h8
  exact ⟨hnn, hvv, hrr, haa⟩

theorem re_eq_of_parses (s n v r a : List Char) (h : Parses s n v r a) :
    matchSeq re s [] = some [n, v, r, a] := by
  have hc := re_complete s n v r a h
  cases hm : matchSeq re s [] with
  | none => rw [hm] at hc; cases hc
  | some out =>
    obtain ⟨n', v', r', a', hout, hp⟩ := re_sound s out hm
    obtain ⟨h1, h2, h3, h4⟩ := parses_unique s n v r a n' v' r' a' h hp
    rw [hout, h1, h2, h3, h4]

/-- A matching name ends with the last character of `zst` or of `xz`. -/
theorem parses_getLast (s n v r a : List Char) (h : Parses s n v r a) :
    ∃ init c, s = init ++ [c] ∧ (c = 't' ∨ c = 'z') := by
  obtain ⟨c1, c2, c3, ext, -, -, -, -, -, -, -, -, -, -, -, hext, hs⟩ := h
  rcases hext with rfl | rfl
  · exact ⟨n ++ '-' :: (v ++ '-' :: (r ++ '-' :: (a ++
      [c1, 'p', 'k', 'g', c2, 't', 'a', 'r', c3, 'z', 's']))), 't', by simpa using hs, Or.inl rfl⟩
  · exact ⟨n ++ '-' :: (v ++ '-' :: (r ++ '-' :: (a ++
      [c1, 'p', 'k', 'g', c2, 't', 'a', 'r', c3, 'x']))), 'z', by simpa using hs, Or.inr rfl⟩

/-- The base name of a path that ends in `.sig` ends in `g`. -/
theorem Base_sig (p : String) : ∃ init, (Base (p ++ ".sig")).data = init ++ ['g'] := by
  have hd : (p ++ ".sig").data = (p.data ++ ['.', 's', 'i']) ++ ['g'] := by
    simp [String.data_append]
  unfold Base
  rw [hd]
  simp [List.reverse_append, List.dropWhile, List.takeWhile]
  exact ⟨(List.takeWhile (fun c => c != '/') p.data.reverse).reverse ++ ['.', 's', 'i'], by simp⟩

/-- A path that ends in `.sig` is not filed as a package: its base name does not match. -/
theorem FindStringSubmatch_sig (p : String) : FindStringSubmatch (Base (p ++ ".sig")) = [] := by
  unfold FindStringSubmatch
  cases hm : matchSeq re (Base (p ++ ".sig")).data [] with
  | none => rfl
  | some out =>
    exfalso
    obtain ⟨n, v, r, a, -, hp⟩ := re_sound _ out hm
    obtain ⟨init, c, hs, hc⟩ := parses_getLast _ n v r a hp
    obtain ⟨init', hs'⟩ := Base_sig p
    rw [hs'] at hs
    have := (List.append_inj' hs rfl).2
    rcases hc with rfl | rfl <;> simp at this




/-! ## Sorting lemmas -/

theorem cmpMtime_neg (a b : packageFile) : cmpMtime a b < 0 ↔ a.mtime < b.mtime := by
  unfold cmpMtime
  split_ifs <;> simp_all

theorem sink_perm (x : packageFile) : ∀ l : List packageFile, (sink x l).Perm (x :: l) := by
  intro l
  induction l with
  | nil => exact List.Perm.refl _
  | cons y ys ih =>
    unfold sink
    split_ifs
    · exact (List.Perm.cons y ih).trans (List.Perm.swap x y ys)
    · exact List.Perm.refl _

theorem sink_sorted (x : packageFile) : ∀ l : List packageFile,
    l.Pairwise (fun a b => b.mtime ≤ a.mtime) →
    (sink x l).Pairwise (fun a b => b.mtime ≤ a.mtime) := by
  intro l
  induction l with
  | nil => intro _; simp [sink]
  | cons y ys ih =>
    intro h
    unfold sink
    rw [List.pairwise_cons] at h
    split_ifs with hc
    · rw [List.pairwise_cons]
      refine ⟨?_, ih h.2⟩
      intro z hz
      rcases List.mem_cons.1 ((sink_perm x ys).subset hz) with rfl | hz
      · exact le_of_lt ((cmpMtime_neg _ _).1 hc)
      · exact h.1 z hz
    · have hxy : y.mtime ≤ x.mtime := not_lt.1 (fun hlt => hc ((cmpMtime_neg _ _).2 hlt))
      rw [List.pairwise_cons]
      refine ⟨?_, List.pairwise_cons.2 h⟩
      intro z hz
      rcases List.mem_cons.1 hz with rfl | hz
      · exact hxy
      · exact le_trans (h.1 z hz) hxy

theorem sink_of_le (x : packageFile) : ∀ l : List packageFile,
    (∀ z ∈ l, z.mtime ≤ x.mtime) → sink x l = x :: l := by
  intro l h
  cases l with
  | nil => rfl
  | cons y ys =>
    have hy : ¬ cmpMtime x y < 0 := fun hc =>
      absurd (h y (List.mem_cons_self _ _)) (not_le.2 ((cmpMtime_neg _ _).1 hc))
    simp [sink, hy]

theorem sink_filter (P : packageFile → Bool) (x : packageFile) : ∀ l : List packageFile,
    l.Pairwise (fun a b => b.mtime ≤ a.mtime) →
    (sink x l).filter P = if P x = true then sink x (l.filter P) else l.filter P := by
  intro l
  induction l with
  | nil => intro _; by_cases hx : P x = true <;> simp [sink, hx]
  | cons y ys ih =>
    intro hs
    rw [List.pairwise_cons] at hs
    have ih := ih hs.2
    by_cases hc : cmpMtime x y < 0
    · have e1 : sink x (y :: ys) = y :: sink x ys := by simp [sink, hc]
      rw [e1, List.filter_cons, ih]
      by_cases hy : P y = true
      · have e2 : sink x (y :: List.filter P ys) = y :: sink x (List.filter P ys) := by
          simp [sink, hc]
        by_cases hx : P x = true <;> simp [hx, hy, List.filter_cons, e2]
      · by_cases hx : P x = true <;> simp [hx, hy, List.filter_cons]
    · have e1 : sink x (y :: ys) = x :: y :: ys := by simp [sink, hc]
      have hxy : y.mtime ≤ x.mtime := not_lt.1 (fun hlt => hc ((cmpMtime_neg _ _).2 hlt))
      have e2 : sink x (List.filter P (y :: ys)) = x :: List.filter P (y :: ys) := by
        apply sink_of_le
        intro z hz
        rcases List.mem_cons.1 (List.mem_filter.1 hz).1 with rfl | hz
        · exact hxy
        · exact le_trans (hs.1 z hz) hxy
      rw [e1, e2]
      by_cases hx : P x = true <;> simp [hx, List.filter_cons]

/-- The reversed sorted prefix that the outer loop of the insertion sort builds. -/
theorem foldl_sink_perm : ∀ (l acc : List packageFile),
    (l.foldl (fun sortedRev x => sink x sortedRev) acc).Perm (l.reverse ++ acc) := by
  intro l
  induction l with
  | nil => intro acc; exact List.Perm.refl _
  | cons x xs ih =>
    intro acc
    simp only [List.foldl_cons, List.reverse_cons, List.append_assoc, List.singleton_append]
    exact (ih (sink x acc)).trans (List.Perm.append_left _ (sink_perm x acc))

theorem foldl_sink_sorted : ∀ (l acc : List packageFile),
    acc.Pairwise (fun a b => b.mtime ≤ a.mtime) →
    (l.foldl (fun sortedRev x => sink x sortedRev) acc).Pairwise (fun a b => b.mtime ≤ a.mtime) := by
  intro l
  induction l with
  | nil => intro acc h; exact h
  | cons x xs ih => intro acc h; exact ih _ (sink_sorted x acc h)

theorem foldl_sink_filter (P : packageFile → Bool) : ∀ (l acc : List packageFile),
    acc.Pairwise (fun a b => b.mtime ≤ a.mtime) →
    (l.foldl (fun sortedRev x => sink x sortedRev) acc).filter P =
      (l.filter P).foldl (fun sortedRev x => sink x sortedRev) (acc.filter P) := by
  intro l
  induction l with
  | nil => intro acc _; rfl
  | cons x xs ih =>
    intro acc h
    simp only [List.foldl_cons]
    rw [ih _ (sink_sorted x acc h), sink_filter P x acc h]
    by_cases hx : P x = true <;> simp [hx, List.filter_cons]

theorem insertionSort_perm (l : List packageFile) : (insertionSort l).Perm l := by
  unfold insertionSort
  refine (List.reverse_perm _).trans ((foldl_sink_perm l []).trans ?_)
  simp

theorem insertionSort_sorted (l : List packageFile) :
    (insertionSort l).Pairwise (fun a b => a.mtime ≤ b.mtime) := by
  unfold insertionSort
  rw [List.pairwise_reverse]
  exact foldl_sink_sorted l [] List.Pairwise.nil

/-- The insertion sort is stable: sorting a selection of the files gives the selection of the
sorted files. -/
theorem insertionSort_filter (P : packageFile → Bool) (l : List packageFile) :
    insertionSort (l.filter P) = (insertionSort l).filter P := by
  unfold insertionSort
  rw [List.filter_reverse, foldl_sink_filter P l [] List.Pairwise.nil]
  rfl

theorem sorted_perm_unique (s1 s2 : List packageFile) (hp : s1.Perm s2)
    (h1 : s1.Pairwise (fun a b => a.mtime ≤ b.mtime))
    (h2 : s2.Pairwise (fun a b => a.mtime ≤ b.mtime))
    (hd : s1.Pairwise (fun a b => a.mtime ≠ b.mtime)) : s1 = s2 := by
  have hd2 : s2.Pairwise (fun a b => a.mtime ≠ b.mtime) :=
    (hp.pairwise_iff (fun {a b} (h : a.mtime ≠ b.mtime) => h.symm)).1 hd
  have l1 : s1.Pairwise (fun a b => a.mtime < b.mtime) :=
    (h1.and hd).imp (fun h => lt_of_le_of_ne h.1 h.2)
  have l2 : s2.Pairwise (fun a b => a.mtime < b.mtime) :=
    (h2.and hd2).imp (fun h => lt_of_le_of_ne h.1 h.2)
  haveI : IsAntisymm packageFile (fun a b => a.mtime < b.mtime) :=
    ⟨fun a b hab hba => absurd hab (not_lt.2 (le_of_lt hba))⟩
  exact List.eq_of_perm_of_sorted hp l1 l2

/-! ## The quicksort of `slices.SortFunc` sorts -/

theorem keyAt_of_getElem? (d : List packageFile) (i : Nat) (x : packageFile)
    (h : d[i]? = some x) : keyAt d i = x.mtime := by
  unfold keyAt
  rw [h]

theorem less_iff (d : List packageFile) (i j : Nat) (hi : i < d.length) (hj : j < d.length) :
    less d i j = true ↔ keyAt d i < keyAt d j := by
  unfold less keyAt
  rw [List.getElem?_eq_getElem hi, List.getElem?_eq_getElem hj]
  simp [cmpMtime_neg]

theorem less_false_iff (d : List packageFile) (i j : Nat) (hi : i < d.length)
    (hj : j < d.length) : less d i j = false ↔ keyAt d j ≤ keyAt d i := by
  rw [← not_lt, ← less_iff d i j hi hj]
  simp

theorem swap_length (d : List packageFile) (i j : Nat) : (swap d i j).length = d.length := by
  unfold swap
  split <;> simp

theorem swap_of_bounds (d : List packageFile) (i j : Nat) (hi : i < d.length)
    (hj : j < d.length) : swap d i j = (d.set i d[j]).set j d[i] := by
  unfold swap
  rw [List.getElem?_eq_getElem hi, List.getElem?_eq_getElem hj]

theorem swap_perm (d : List packageFile) (i j : Nat) : (swap d i j).Perm d := by
  by_cases hi : i < d.length
  · by_cases hj : j < d.length
    · rw [swap_of_bounds d i j hi hj, List.perm_iff_count]
      intro x
      rw [List.count_set _ _ _ _ (by simpa using hj), List.count_set _ _ _ _ hi]
      have h1 : 0 < List.count d[i] d := List.count_pos_iff.2 (List.getElem_mem _)
      have h2 : 0 < List.count d[j] d := List.count_pos_iff.2 (List.getElem_mem _)
      by_cases hij : i = j
      · subst hij
        simp only [List.getElem_set_self]
        by_cases hx : d[i] = x
        · subst hx
          simp
        · simp [hx]
      · rw [List.getElem_set_ne hij]
        by_cases hxi : d[i] = x
        · rw [hxi] at h1
          by_cases hxj : d[j] = x
          · simp [hxi, hxj]
            omega
          · simp [hxi, hxj]
            omega
        · by_cases hxj : d[j] = x
          · rw [hxj] at h2
            simp [hxi, hxj]
          · simp [hxi, hxj]
    · unfold swap
      rw [List.getElem?_eq_none (by omega : d.length ≤ j)]
      split <;> first | exact List.Perm.refl _ | simp_all
  · unfold swap
    rw [List.getElem?_eq_none (by omega : d.length ≤ i)]

theorem swap_getElem? (d : List packageFile) (i j m : Nat) (hi : i < d.length)
    (hj : j < d.length) :
    (swap d i j)[m]? = if m = j then d[i]? else if m = i then d[j]? else d[m]? := by
  rw [swap_of_bounds d i j hi hj, List.getElem?_set, List.getElem?_set]
  by_cases h1 : j = m
  · subst h1
    simp [hj, List.getElem?_eq_getElem hi]
  · have h1' : ¬ m = j := fun h => h1 h.symm
    simp only [h1, h1', if_false]
    by_cases h2 : i = m
    · subst h2
      simp [hi, List.getElem?_eq_getElem hj]
    · have h2' : ¬ m = i := fun h => h2 h.symm
      simp [h2, h2']

theorem keyAt_swap (d : List packageFile) (i j m : Nat) (hi : i < d.length)
    (hj : j < d.length) :
    keyAt (swap d i j) m = if m = j then keyAt d i else if m = i then keyAt d j else keyAt d m := by
  unfold keyAt
  rw [swap_getElem? d i j m hi hj]
  split_ifs <;> rfl

theorem Step.refl (a b : Nat) (d : List packageFile) : Step a b d d :=
  ⟨List.Perm.refl _, fun _ _ => rfl, fun m h1 h2 => ⟨m, h1, h2, rfl⟩⟩

theorem Step.length {a b : Nat} {d d' : List packageFile} (h : Step a b d d') :
    d'.length = d.length := h.1.length_eq

theorem Step.trans {a b : Nat} {d1 d2 d3 : List packageFile} (h1 : Step a b d1 d2)
    (h2 : Step a b d2 d3) : Step a b d1 d3 := by
  refine ⟨h2.1.trans h1.1, fun m hm => (h2.2.1 m hm).trans (h1.2.1 m hm), ?_⟩
  intro m hm1 hm2
  obtain ⟨m', h1', h2', he⟩ := h2.2.2 m hm1 hm2
  obtain ⟨m'', h1'', h2'', he'⟩ := h1.2.2 m' h1' h2'
  exact ⟨m'', h1'', h2'', he.trans he'⟩

theorem Step.mono {a b a' b' : Nat} {d d' : List packageFile} (h : Step a b d d')
    (ha : a' ≤ a) (hb : b ≤ b') : Step a' b' d d' := by
  refine ⟨h.1, fun m hm => h.2.1 m (by omega), ?_⟩
  intro m hm1 hm2
  by_cases hin : a ≤ m ∧ m < b
  · obtain ⟨m', h1', h2', he⟩ := h.2.2 m hin.1 hin.2
    exact ⟨m', by omega, by omega, he⟩
  · exact ⟨m, hm1, hm2, h.2.1 m (by omega)⟩

theorem Step.swap (a b : Nat) (d : List packageFile) (i j : Nat) (hb : b ≤ d.length)
    (hi1 : a ≤ i) (hi2 : i < b) (hj1 : a ≤ j) (hj2 : j < b) : Step a b d (swap d i j) := by
  refine ⟨swap_perm d i j, ?_, ?_⟩
  · intro m hm
    rw [keyAt_swap d i j m (by omega) (by omega)]
    have h1 : ¬ m = j := by omega
    have h2 : ¬ m = i := by omega
    simp [h1, h2]
  · intro m hm1 hm2
    rw [keyAt_swap d i j m (by omega) (by omega)]
    split_ifs
    · exact ⟨i, hi1, hi2, rfl⟩
    · exact ⟨j, hj1, hj2, rfl⟩
    · exact ⟨m, hm1, hm2, rfl⟩

/-- A bound on the modification times of a range is kept by a step on the range. -/
theorem Step.forall {a b : Nat} {d d' : List packageFile} (h : Step a b d d')
    (P : Int → Prop) (hP : ∀ m, a ≤ m → m < b → P (keyAt d m)) :
    ∀ m, a ≤ m → m < b → P (keyAt d' m) := by
  intro m h1 h2
  obtain ⟨m', h1', h2', he⟩ := h.2.2 m h1 h2
  rw [he]
  exact hP m' h1' h2'

theorem scanUp_spec (cond : Nat → Bool) (B : Nat) (hbound : ∀ m, cond m = true → m < B) :
    ∀ (fuel i : Nat), B ≤ i + fuel →
      i ≤ scanUp cond fuel i ∧ (∀ m, i ≤ m → m < scanUp cond fuel i → cond m = true) ∧
        cond (scanUp cond fuel i) = false := by
  intro fuel
  induction fuel with
  | zero =>
    intro i hf
    refine ⟨le_refl _, fun m h1 h2 => absurd h2 (by simp [scanUp]; omega), ?_⟩
    simp only [scanUp]
    by_contra hc
    have := hbound i (by simpa using hc)
    omega
  | succ fuel ih =>
    intro i hf
    by_cases hc : cond i = true
    · have e : scanUp cond (fuel + 1) i = scanUp cond fuel (i + 1) := by simp [scanUp, hc]
      rw [e]
      obtain ⟨h1, h2, h3⟩ := ih (i + 1) (by omega)
      refine ⟨by omega, ?_, h3⟩
      intro m hm1 hm2
      by_cases hmi : m = i
      · rw [hmi]; exact hc
      · exact h2 m (by omega) hm2
    · have e : scanUp cond (fuel + 1) i = i := by simp [scanUp, hc]
      rw [e]
      exact ⟨le_refl _, fun m h1 h2 => absurd h2 (by omega), by simpa using hc⟩

theorem scanDown_spec (cond : Nat → Bool) (h0 : cond 0 = false) :
    ∀ (fuel j : Nat), j < fuel →
      scanDown cond fuel j ≤ j ∧ (∀ m, scanDown cond fuel j < m → m ≤ j → cond m = true) ∧
        cond (scanDown cond fuel j) = false := by
  intro fuel
  induction fuel with
  | zero => intro j hj; omega
  | succ fuel ih =>
    intro j hj
    by_cases hc : cond j = true
    · have e : scanDown cond (fuel + 1) j = scanDown cond fuel (j - 1) := by
        simp [scanDown, hc]
      have hj0 : j ≠ 0 := by
        intro h
        rw [h, h0] at hc
        cases hc
      rw [e]
      obtain ⟨h1, h2, h3⟩ := ih (j - 1) (by omega)
      refine ⟨by omega, ?_, h3⟩
      intro m hm1 hm2
      by_cases hmj : m = j
      · rw [hmj]; exact hc
      · exact h2 m hm1 (by omega)
    · have e : scanDown cond (fuel + 1) j = j := by simp [scanDown, hc]
      rw [e]
      exact ⟨le_refl _, fun m h1 h2 => absurd h2 (by omega), by simpa using hc⟩

theorem partitionUp_spec (d : List packageFile) (a j i : Nat) (hj : j < d.length)
    (ha : a < d.length) :
    i ≤ partitionUp d a j i ∧ (i ≤ j + 1 → partitionUp d a j i ≤ j + 1) ∧
      (∀ m, i ≤ m → m < partitionUp d a j i → keyAt d m < keyAt d a) ∧
      (partitionUp d a j i ≤ j → keyAt d a ≤ keyAt d (partitionUp d a j i)) := by
  have hs := scanUp_spec (fun i => decide (i ≤ j) && less d i a) (j + 1)
    (fun m hm => by
      simp only [Bool.and_eq_true, decide_eq_true_eq] at hm
      omega) d.length i (by omega)
  obtain ⟨h1, h2, h3⟩ := hs
  change i ≤ partitionUp d a j i at h1
  change ∀ m, i ≤ m → m < partitionUp d a j i → _ at h2
  have h2' : ∀ m, i ≤ m → m < partitionUp d a j i → m ≤ j ∧ keyAt d m < keyAt d a := by
    intro m hm1 hm2
    have := h2 m hm1 hm2
    simp only [Bool.and_eq_true, decide_eq_true_eq] at this
    exact ⟨this.1, (less_iff d m a (by omega) ha).1 this.2⟩
  refine ⟨h1, ?_, fun m hm1 hm2 => (h2' m hm1 hm2).2, ?_⟩
  · intro hij
    by_contra hc
    have := (h2' (partitionUp d a j i - 1) (by omega) (by omega)).1
    omega
  · intro hr
    have h3' : less d (partitionUp d a j i) a = false := by
      unfold partitionUp
      simp only [Bool.and_eq_false_iff, decide_eq_false_iff_not] at h3
      rcases h3 with h3 | h3
      · exact absurd hr h3
      · exact h3
    exact (less_false_iff d _ a (by omega) ha).1 h3'

theorem partitionDown_spec (d : List packageFile) (a i j : Nat) (hi : 1 ≤ i)
    (hj : j < d.length) (ha : a < d.length) :
    partitionDown d a i j ≤ j ∧ (i ≤ j + 1 → i ≤ partitionDown d a i j + 1) ∧
      (∀ m, partitionDown d a i j < m → m ≤ j → keyAt d a ≤ keyAt d m) ∧
      (i ≤ partitionDown d a i j → keyAt d (partitionDown d a i j) < keyAt d a) := by
  have hs := scanDown_spec (fun j => decide (i ≤ j) && !less d j a)
    (by
      have : ¬ i ≤ 0 := by omega
      simp [this]) d.length j hj
  obtain ⟨h1, h2, h3⟩ := hs
  change partitionDown d a i j ≤ j at h1
  change ∀ m, partitionDown d a i j < m → m ≤ j → _ at h2
  have h2' : ∀ m, partitionDown d a i j < m → m ≤ j → i ≤ m ∧ keyAt d a ≤ keyAt d m := by
    intro m hm1 hm2
    have := h2 m hm1 hm2
    simp only [Bool.and_eq_true, decide_eq_true_eq, Bool.not_eq_true'] at this
    exact ⟨this.1, (less_false_iff d m a (by omega) ha).1 this.2⟩
  refine ⟨h1, ?_, fun m hm1 hm2 => (h2' m hm1 hm2).2, ?_⟩
  · intro hij
    by_contra hc
    have := (h2' (partitionDown d a i j + 1) (by omega) (by omega)).1
    omega
  · intro hr
    have h3' : less d (partitionDown d a i j) a = true := by
      unfold partitionDown
      simp only [Bool.and_eq_false_iff, decide_eq_false_iff_not, Bool.not_eq_false'] at h3
      rcases h3 with h3 | h3
      · exact absurd hr h3
      · exact h3
    exact (less_iff d _ a (by omega) ha).1 h3'

theorem partitionLoop_spec (d0 : List packageFile) (a b : Nat) (hb : b ≤ d0.length) :
    ∀ (fuel : Nat) (d : List packageFile) (i j : Nat),
      Step (a + 1) b d0 d → a + 1 ≤ i → i ≤ j + 1 → j < b → j + 1 ≤ i + fuel →
      (∀ m, a + 1 ≤ m → m < i → keyAt d m < keyAt d0 a) →
      (∀ m, j < m → m < b → keyAt d0 a ≤ keyAt d m) →
      Step (a + 1) b d0 (partitionLoop a fuel d i j).1 ∧
        a ≤ (partitionLoop a fuel d i j).2 ∧ (partitionLoop a fuel d i j).2 < b ∧
        (∀ m, a + 1 ≤ m → m ≤ (partitionLoop a fuel d i j).2 →
          keyAt (partitionLoop a fuel d i j).1 m < keyAt d0 a) ∧
        (∀ m, (partitionLoop a fuel d i j).2 < m → m < b →
          keyAt d0 a ≤ keyAt (partitionLoop a fuel d i j).1 m) := by
  intro fuel
  induction fuel with
  | zero =>
    intro d i j hst hi hij hj hf hlo hhi
    simp only [partitionLoop]
    exact ⟨hst, by omega, hj, fun m h1 h2 => hlo m h1 (by omega), hhi⟩
  | succ fuel ih =>
    intro d i j hst hi hij hj hf hlo hhi
    have hlen : d.length = d0.length := hst.length
    have hka : keyAt d a = keyAt d0 a := hst.2.1 a (by omega)
    obtain ⟨u1, u2, u3, u4⟩ := partitionUp_spec d a j i (by omega) (by omega)
    obtain ⟨v1, v2, v3, v4⟩ := partitionDown_spec d a (partitionUp d a j i) j (by omega)
      (by omega) (by omega)
    rw [hka] at u3 u4 v3 v4
    have u2 := u2 hij
    have v2 := v2 u2
    by_cases hc : partitionUp d a j i > partitionDown d a (partitionUp d a j i) j
    · have e : partitionLoop a (fuel + 1) d i j =
          (d, partitionDown d a (partitionUp d a j i) j) := by
        simp [partitionLoop, hc]
      rw [e]
      refine ⟨hst, by omega, by omega, ?_, ?_⟩
      · intro m h1 h2
        by_cases hmi : m < i
        · exact hlo m h1 hmi
        · exact u3 m (by omega) (by omega)
      · intro m h1 h2
        by_cases hmj : m ≤ j
        · exact v3 m h1 hmj
        · exact hhi m (by omega) h2
    · have e : partitionLoop a (fuel + 1) d i j =
          partitionLoop a fuel
            (swap d (partitionUp d a j i) (partitionDown d a (partitionUp d a j i) j))
            (partitionUp d a j i + 1) (partitionDown d a (partitionUp d a j i) j - 1) := by
        simp [partitionLoop, hc]
      rw [e]
      generalize partitionUp d a j i = i1 at *
      generalize partitionDown d a i1 j = j1 at *
      have hle : i1 ≤ j1 := by omega
      have k1 := u4 (by omega)
      have k2 := v4 hle
      have hne : i1 < j1 := by
        rcases Nat.lt_or_ge i1 j1 with h | h
        · exact h
        · have : i1 = j1 := by omega
          rw [this] at k1
          omega
      have hsw : Step (a + 1) b d (swap d i1 j1) :=
        Step.swap (a + 1) b d i1 j1 (by omega) (by omega) (by omega) (by omega) (by omega)
      apply ih (swap d i1 j1) (i1 + 1) (j1 - 1) (hst.trans hsw) (by omega) (by omega)
        (by omega) (by omega)
      · intro m h1 h2
        rw [keyAt_swap d i1 j1 m (by omega) (by omega)]
        have hmj : ¬ m = j1 := by omega
        simp only [hmj, if_false]
        by_cases hmi : m = i1
        · simp only [hmi, if_true]
          exact k2
        · simp only [hmi, if_false]
          by_cases hmi' : m < i
          · exact hlo m h1 hmi'
          · exact u3 m (by omega) (by omega)
      · intro m h1 h2
        rw [keyAt_swap d i1 j1 m (by omega) (by omega)]
        have hmi : ¬ m = i1 := by omega
        by_cases hmj : m = j1
        · simp only [hmj, if_true]
          exact k1
        · simp only [hmj, hmi, if_false]
          by_cases hmj' : m ≤ j
          · exact v3 m (by omega) hmj'
          · exact hhi m (by omega) h2

/-- What `partitionCmpFunc` does: the range is permuted so that the pivot stands at the returned
index, after the files modified earlier and before the files modified at the same time or
later. -/
theorem partitionCmpFunc_spec (data : List packageFile) (a b pivot : Nat) (ha : a ≤ pivot)
    (hp : pivot < b) (hb : b ≤ data.length) :
    Step a b data (partitionCmpFunc data a b pivot).1 ∧
      a ≤ (partitionCmpFunc data a b pivot).2.1 ∧ (partitionCmpFunc data a b pivot).2.1 < b ∧
      (∀ m, a ≤ m → m < (partitionCmpFunc data a b pivot).2.1 →
        keyAt (partitionCmpFunc data a b pivot).1 m <
          keyAt (partitionCmpFunc data a b pivot).1 (partitionCmpFunc data a b pivot).2.1) ∧
      (∀ m, (partitionCmpFunc data a b pivot).2.1 < m → m < b →
        keyAt (partitionCmpFunc data a b pivot).1 (partitionCmpFunc data a b pivot).2.1 ≤
          keyAt (partitionCmpFunc data a b pivot).1 m) := by
  have hs1 : Step a b data (swap data a pivot) :=
    Step.swap a b data a pivot hb (le_refl _) (by omega) ha hp
  generalize hd1 : swap data a pivot = d1 at hs1
  have hlen1 : d1.length = data.length := hs1.length
  obtain ⟨u1, u2, u3, u4⟩ := partitionUp_spec d1 a (b - 1) (a + 1) (by omega) (by omega)
  obtain ⟨v1, v2, v3, v4⟩ := partitionDown_spec d1 a (partitionUp d1 a (b - 1) (a + 1)) (b - 1)
    (by omega) (by omega) (by omega)
  have u2 := u2 (by omega)
  have v2 := v2 u2
  -- the last exchange, which brings the pivot to its place
  have hfin : ∀ (d : List packageFile) (j : Nat), Step (a + 1) b d1 d → a ≤ j → j < b →
      (∀ m, a + 1 ≤ m → m ≤ j → keyAt d m < keyAt d1 a) →
      (∀ m, j < m → m < b → keyAt d1 a ≤ keyAt d m) →
      Step a b data (swap d j a) ∧
        (∀ m, a ≤ m → m < j → keyAt (swap d j a) m < keyAt (swap d j a) j) ∧
        (∀ m, j < m → m < b → keyAt (swap d j a) j ≤ keyAt (swap d j a) m) := by
    intro d j hst hj1 hj2 hlo hhi
    have hlen : d.length = d1.length := hst.length
    have hka : keyAt d a = keyAt d1 a := hst.2.1 a (by omega)
    have hkj : keyAt (swap d j a) j = keyAt d1 a := by
      rw [keyAt_swap d j a j (by omega) (by omega), ← hka]
      by_cases h : j = a
      · simp [h]
      · simp [h]
    refine ⟨(hs1.trans (hst.mono (by omega) (le_refl _))).trans
      (Step.swap a b d j a (by omega) hj1 hj2 (le_refl _) (by omega)), ?_, ?_⟩
    · intro m h1 h2
      rw [hkj, keyAt_swap d j a m (by omega) (by omega)]
      by_cases hma : m = a
      · simp only [hma, if_true]
        exact hlo j (by omega) (le_refl _)
      · have hmj : ¬ m = j := by omega
        simp only [hma, hmj, if_false]
        exact hlo m (by omega) (by omega)
    · intro m h1 h2
      rw [hkj, keyAt_swap d j a m (by omega) (by omega)]
      have hma : ¬ m = a := by omega
      have hmj : ¬ m = j := by omega
      simp only [hma, hmj, if_false]
      exact hhi m h1 h2
  by_cases hc : partitionUp d1 a (b - 1) (a + 1) >
      partitionDown d1 a (partitionUp d1 a (b - 1) (a + 1)) (b - 1)
  · have e : partitionCmpFunc data a b pivot =
        (swap d1 (partitionDown d1 a (partitionUp d1 a (b - 1) (a + 1)) (b - 1)) a,
          partitionDown d1 a (partitionUp d1 a (b - 1) (a + 1)) (b - 1), true) := by
      simp [partitionCmpFunc, hd1, hc]
    rw [e]
    obtain ⟨f1, f2, f3⟩ := hfin d1 _ (Step.refl _ _ _) (by omega) (by omega)
      (fun m h1 h2 => u3 m h1 (by omega)) (fun m h1 h2 => v3 m h1 (by omega))
    refine ⟨f1, ?_, ?_, f2, f3⟩
    · dsimp only
      omega
    · dsimp only
      omega
  · generalize hi1 : partitionUp d1 a (b - 1) (a + 1) = i1 at *
    generalize hj1 : partitionDown d1 a i1 (b - 1) = j1 at *
    have hle : i1 ≤ j1 := by omega
    have k1 := u4 (by omega)
    have k2 := v4 hle
    have hne : i1 < j1 := by
      rcases Nat.lt_or_ge i1 j1 with h | h
      · exact h
      · have : i1 = j1 := by omega
        rw [this] at k1
        omega
    have hsw : Step (a + 1) b d1 (swap d1 i1 j1) :=
      Step.swap (a + 1) b d1 i1 j1 (by omega) (by omega) (by omega) (by omega) (by omega)
    have hl := partitionLoop_spec d1 a b (by omega) d1.length (swap d1 i1 j1) (i1 + 1) (j1 - 1)
      hsw (by omega) (by omega) (by omega) (by omega)
      (by
        intro m h1 h2
        rw [keyAt_swap d1 i1 j1 m (by omega) (by omega)]
        have hmj : ¬ m = j1 := by omega
        simp only [hmj, if_false]
        by_cases hmi : m = i1
        · simp only [hmi, if_true]
          exact k2
        · simp only [hmi, if_false]
          exact u3 m (by omega) (by omega))
      (by
        intro m h1 h2
        rw [keyAt_swap d1 i1 j1 m (by omega) (by omega)]
        have hmi : ¬ m = i1 := by omega
        by_cases hmj : m = j1
        · simp only [hmj, if_true]
          exact k1
        · simp only [hmj, hmi, if_false]
          exact v3 m (by omega) (by omega))
    have e : partitionCmpFunc data a b pivot =
        (swap (partitionLoop a d1.length (swap d1 i1 j1) (i1 + 1) (j1 - 1)).1
            (partitionLoop a d1.length (swap d1 i1 j1) (i1 + 1) (j1 - 1)).2 a,
          (partitionLoop a d1.length (swap d1 i1 j1) (i1 + 1) (j1 - 1)).2, false) := by
      simp [partitionCmpFunc, hd1, hi1, hj1, hc]
    rw [e]
    obtain ⟨l1, l2, l3, l4, l5⟩ := hl
    obtain ⟨f1, f2, f3⟩ := hfin _ _ l1 l2 l3 l4 l5
    exact ⟨f1, l2, l3, f2, f3⟩

theorem partitionEqualUp_spec (d : List packageFile) (a j i : Nat) (hj : j < d.length)
    (ha : a < d.length) :
    i ≤ partitionEqualUp d a j i ∧ (i ≤ j + 1 → partitionEqualUp d a j i ≤ j + 1) ∧
      (∀ m, i ≤ m → m < partitionEqualUp d a j i → keyAt d m ≤ keyAt d a) ∧
      (partitionEqualUp d a j i ≤ j → keyAt d a < keyAt d (partitionEqualUp d a j i)) := by
  have hs := scanUp_spec (fun i => decide (i ≤ j) && !less d a i) (j + 1)
    (fun m hm => by
      simp only [Bool.and_eq_true, decide_eq_true_eq] at hm
      omega) d.length i (by omega)
  obtain ⟨h1, h2, h3⟩ := hs
  change i ≤ partitionEqualUp d a j i at h1
  change ∀ m, i ≤ m → m < partitionEqualUp d a j i → _ at h2
  have h2' : ∀ m, i ≤ m → m < partitionEqualUp d a j i → m ≤ j ∧ keyAt d m ≤ keyAt d a := by
    intro m hm1 hm2
    have := h2 m hm1 hm2
    simp only [Bool.and_eq_true, decide_eq_true_eq, Bool.not_eq_true'] at this
    exact ⟨this.1, (less_false_iff d a m ha (by omega)).1 this.2⟩
  refine ⟨h1, ?_, fun m hm1 hm2 => (h2' m hm1 hm2).2, ?_⟩
  · intro hij
    by_contra hc
    have := (h2' (partitionEqualUp d a j i - 1) (by omega) (by omega)).1
    omega
  · intro hr
    have h3' : less d a (partitionEqualUp d a j i) = true := by
      unfold partitionEqualUp
      simp only [Bool.and_eq_false_iff, decide_eq_false_iff_not, Bool.not_eq_false'] at h3
      rcases h3 with h3 | h3
      · exact absurd hr h3
      · exact h3
    exact (less_iff d a _ ha (by omega)).1 h3'

theorem partitionEqualDown_spec (d : List packageFile) (a i j : Nat) (hi : 1 ≤ i)
    (hj : j < d.length) (ha : a < d.length) :
    partitionEqualDown d a i j ≤ j ∧ (i ≤ j + 1 → i ≤ partitionEqualDown d a i j + 1) ∧
      (∀ m, partitionEqualDown d a i j < m → m ≤ j → keyAt d a < keyAt d m) ∧
      (i ≤ partitionEqualDown d a i j → keyAt d (partitionEqualDown d a i j) ≤ keyAt d a) := by
  have hs := scanDown_spec (fun j => decide (i ≤ j) && less d a j)
    (by
      have : ¬ i ≤ 0 := by omega
      simp [this]) d.length j hj
  obtain ⟨h1, h2, h3⟩ := hs
  change partitionEqualDown d a i j ≤ j at h1
  change ∀ m, partitionEqualDown d a i j < m → m ≤ j → _ at h2
  have h2' : ∀ m, partitionEqualDown d a i j < m → m ≤ j → i ≤ m ∧ keyAt d a < keyAt d m := by
    intro m hm1 hm2
    have := h2 m hm1 hm2
    simp only [Bool.and_eq_true, decide_eq_true_eq] at this
    exact ⟨this.1, (less_iff d a m ha (by omega)).1 this.2⟩
  refine ⟨h1, ?_, fun m hm1 hm2 => (h2' m hm1 hm2).2, ?_⟩
  · intro hij
    by_contra hc
    have := (h2' (partitionEqualDown d a i j + 1) (by omega) (by omega)).1
    omega
  · intro hr
    have h3' : less d a (partitionEqualDown d a i j) = false := by
      unfold partitionEqualDown
      simp only [Bool.and_eq_false_iff, decide_eq_false_iff_not] at h3
      rcases h3 with h3 | h3
      · exact absurd hr h3
      · exact h3
    exact (less_false_iff d a _ ha (by omega)).1 h3'

theorem partitionEqualLoop_spec (d0 : List packageFile) (a b : Nat) (hb : b ≤ d0.length) :
    ∀ (fuel : Nat) (d : List packageFile) (i j : Nat),
      Step (a + 1) b d0 d → a + 1 ≤ i → i ≤ j + 1 → j < b → j + 1 ≤ i + fuel →
      (∀ m, a + 1 ≤ m → m < i → keyAt d m ≤ keyAt d0 a) →
      (∀ m, j < m → m < b → keyAt d0 a < keyAt d m) →
      Step (a + 1) b d0 (partitionEqualLoop a fuel d i j).1 ∧
        a + 1 ≤ (partitionEqualLoop a fuel d i j).2 ∧ (partitionEqualLoop a fuel d i j).2 ≤ b ∧
        (∀ m, a + 1 ≤ m → m < (partitionEqualLoop a fuel d i j).2 →
          keyAt (partitionEqualLoop a fuel d i j).1 m ≤ keyAt d0 a) ∧
        (∀ m, (partitionEqualLoop a fuel d i j).2 ≤ m → m < b →
          keyAt d0 a < keyAt (partitionEqualLoop a fuel d i j).1 m) := by
  intro fuel
  induction fuel with
  | zero =>
    intro d i j hst hi hij hj hf hlo hhi
    simp only [partitionEqualLoop]
    exact ⟨hst, hi, by omega, hlo, fun m h1 h2 => hhi m (by omega) h2⟩
  | succ fuel ih =>
    intro d i j hst hi hij hj hf hlo hhi
    have hlen : d.length = d0.length := hst.length
    have hka : keyAt d a = keyAt d0 a := hst.2.1 a (by omega)
    obtain ⟨u1, u2, u3, u4⟩ := partitionEqualUp_spec d a j i (by omega) (by omega)
    obtain ⟨v1, v2, v3, v4⟩ := partitionEqualDown_spec d a (partitionEqualUp d a j i) j
      (by omega) (by omega) (by omega)
    rw [hka] at u3 u4 v3 v4
    have u2 := u2 hij
    have v2 := v2 u2
    by_cases hc : partitionEqualUp d a j i > partitionEqualDown d a (partitionEqualUp d a j i) j
    · have e : partitionEqualLoop a (fuel + 1) d i j = (d, partitionEqualUp d a j i) := by
        simp [partitionEqualLoop, hc]
      rw [e]
      refine ⟨hst, by omega, by omega, ?_, ?_⟩
      · intro m h1 h2
        by_cases hmi : m < i
        · exact hlo m h1 hmi
        · exact u3 m (by omega) h2
      · intro m h1 h2
        by_cases hmj : m ≤ j
        · exact v3 m (by dsimp only at h1; omega) hmj
        · exact hhi m (by omega) h2
    · have e : partitionEqualLoop a (fuel + 1) d i j =
          partitionEqualLoop a fuel
            (swap d (partitionEqualUp d a j i)
              (partitionEqualDown d a (partitionEqualUp d a j i) j))
            (partitionEqualUp d a j i + 1)
            (partitionEqualDown d a (partitionEqualUp d a j i) j - 1) := by
        simp [partitionEqualLoop, hc]
      rw [e]
      generalize partitionEqualUp d a j i = i1 at *
      generalize partitionEqualDown d a i1 j = j1 at *
      have hle : i1 ≤ j1 := by omega
      have k1 := u4 (by omega)
      have k2 := v4 hle
      have hne : i1 < j1 := by
        rcases Nat.lt_or_ge i1 j1 with h | h
        · exact h
        · have : i1 = j1 := by omega
          rw [this] at k1
          omega
      have hsw : Step (a + 1) b d (swap d i1 j1) :=
        Step.swap (a + 1) b d i1 j1 (by omega) (by omega) (by omega) (by omega) (by omega)
      apply ih (swap d i1 j1) (i1 + 1) (j1 - 1) (hst.trans hsw) (by omega) (by omega)
        (by omega) (by omega)
      · intro m h1 h2
        rw [keyAt_swap d i1 j1 m (by omega) (by omega)]
        have hmj : ¬ m = j1 := by omega
        simp only [hmj, if_false]
        by_cases hmi : m = i1
        · simp only [hmi, if_true]
          exact k2
        · simp only [hmi, if_false]
          by_cases hmi' : m < i
          · exact hlo m h1 hmi'
          · exact u3 m (by omega) (by omega)
      · intro m h1 h2
        rw [keyAt_swap d i1 j1 m (by omega) (by omega)]
        have hmi : ¬ m = i1 := by omega
        by_cases hmj : m = j1
        · simp only [hmj, if_true]
          exact k1
        · simp only [hmj, hmi, if_false]
          by_cases hmj' : m ≤ j
          · exact v3 m (by omega) hmj'
          · exact hhi m (by omega) h2

/-- What `partitionEqualCmpFunc` does: the range is permuted so that the files modified no later
than the pivot stand before the returned index, the files modified later from it on. -/
theorem partitionEqualCmpFunc_spec (data : List packageFile) (a b pivot : Nat) (ha : a ≤ pivot)
    (hp : pivot < b) (hb : b ≤ data.length) :
    Step a b data (partitionEqualCmpFunc data a b pivot).1 ∧
      a + 1 ≤ (partitionEqualCmpFunc data a b pivot).2 ∧
      (partitionEqualCmpFunc data a b pivot).2 ≤ b ∧
      (∀ m, a ≤ m → m < (partitionEqualCmpFunc data a b pivot).2 →
        keyAt (partitionEqualCmpFunc data a b pivot).1 m ≤ keyAt data pivot) ∧
      (∀ m, (partitionEqualCmpFunc data a b pivot).2 ≤ m → m < b →
        keyAt data pivot < keyAt (partitionEqualCmpFunc data a b pivot).1 m) := by
  have hs1 : Step a b data (swap data a pivot) :=
    Step.swap a b data a pivot hb (le_refl _) (by omega) ha hp
  have hk1 : keyAt (swap data a pivot) a = keyAt data pivot := by
    rw [keyAt_swap data a pivot a (by omega) (by omega)]
    by_cases h : a = pivot
    · simp [h]
    · simp [h]
  generalize hd1 : swap data a pivot = d1 at hs1 hk1
  have hlen1 : d1.length = data.length := hs1.length
  have e : partitionEqualCmpFunc data a b pivot =
      partitionEqualLoop a d1.length d1 (a + 1) (b - 1) := by
    simp [partitionEqualCmpFunc, hd1]
  rw [e]
  obtain ⟨l1, l2, l3, l4, l5⟩ := partitionEqualLoop_spec d1 a b (by omega) d1.length d1 (a + 1)
    (b - 1) (Step.refl _ _ _) (le_refl _) (by omega) (by omega) (by omega)
    (fun m h1 h2 => absurd h2 (by omega)) (fun m h1 h2 => absurd h2 (by omega))
  rw [hk1] at l4 l5
  refine ⟨hs1.trans (l1.mono (by omega) (le_refl _)), l2, l3, ?_, l5⟩
  intro m h1 h2
  by_cases hma : m = a
  · rw [hma, l1.2.1 a (by omega), hk1]
  · exact l4 m (by omega) h2

theorem splice_getElem? (d S : List packageFile) (a b : Nat) (hab : a ≤ b)
    (hb : b ≤ d.length) (hS : S.length = b - a) (m : Nat) :
    (d.take a ++ S ++ d.drop b)[m]? =
      if m < a then d[m]? else if m < b then S[m - a]? else d[m]? := by
  have hla : (d.take a).length = a := by rw [List.length_take]; omega
  by_cases h1 : m < a
  · rw [List.getElem?_append_left (by rw [List.length_append]; omega),
      List.getElem?_append_left (by omega), List.getElem?_take]
    simp [h1]
  · by_cases h2 : m < b
    · rw [List.getElem?_append_left (by rw [List.length_append]; omega),
        List.getElem?_append_right (by omega), hla]
      simp [h1, h2]
    · rw [List.getElem?_append_right (by rw [List.length_append]; omega), List.length_append,
        hla, hS, List.getElem?_drop]
      simp only [h1, h2, if_false]
      congr 1
      omega

theorem seg_getElem? (d : List packageFile) (a b t : Nat) :
    ((d.take b).drop a)[t]? = if a + t < b then d[a + t]? else none := by
  rw [List.getElem?_drop, List.getElem?_take]

theorem seg_length (d : List packageFile) (a b : Nat) (hb : b ≤ d.length) :
    ((d.take b).drop a).length = b - a := by
  rw [List.length_drop, List.length_take]
  omega

theorem splice_perm (d S : List packageFile) (a b : Nat) (hab : a ≤ b)
    (hS : S.Perm ((d.take b).drop a)) : (d.take a ++ S ++ d.drop b).Perm d := by
  have e : d = d.take a ++ (d.take b).drop a ++ d.drop b := by
    conv_lhs => rw [← List.take_append_drop b d, ← List.take_append_drop a (d.take b)]
    rw [List.take_take, min_eq_left hab]
  conv_rhs => rw [e]
  exact (List.Perm.append_left _ hS).append_right _

/-- Replacing the range `d[a:b]` by a permutation of it is a step on the range. -/
theorem splice_step (d S : List packageFile) (a b : Nat) (hab : a ≤ b) (hb : b ≤ d.length)
    (hS : S.Perm ((d.take b).drop a)) : Step a b d (d.take a ++ S ++ d.drop b) := by
  have hlen : S.length = b - a := by rw [hS.length_eq, seg_length d a b hb]
  refine ⟨splice_perm d S a b hab hS, ?_, ?_⟩
  · intro m hm
    unfold keyAt
    rw [splice_getElem? d S a b hab hb hlen]
    rcases hm with hm | hm
    · simp [hm]
    · have h1 : ¬ m < a := by omega
      have h2 : ¬ m < b := by omega
      simp [h1, h2]
  · intro m hm1 hm2
    have h1 : ¬ m < a := by omega
    have hx : (d.take a ++ S ++ d.drop b)[m]? = S[m - a]? := by
      rw [splice_getElem? d S a b hab hb hlen]
      simp [h1, hm2]
    have hlt : m - a < S.length := by omega
    have hmem : S[m - a] ∈ (d.take b).drop a := hS.subset (List.getElem_mem _)
    obtain ⟨t, ht⟩ := List.mem_iff_getElem?.1 hmem
    rw [seg_getElem?] at ht
    by_cases hat : a + t < b
    · simp only [hat, if_true] at ht
      refine ⟨a + t, by omega, hat, ?_⟩
      unfold keyAt
      rw [hx, ht, List.getElem?_eq_getElem hlt]
    · simp [hat] at ht

theorem splice_sorted (d S : List packageFile) (a b : Nat) (hab : a ≤ b) (hb : b ≤ d.length)
    (hlen : S.length = b - a) (hS : S.Pairwise (fun x y => x.mtime ≤ y.mtime)) :
    SortedRange (d.take a ++ S ++ d.drop b) a b := by
  intro i j hi hij hj
  have h1 : ¬ i < a := by omega
  have h2 : ¬ j < a := by omega
  have hi' : i - a < S.length := by omega
  have hj' : j - a < S.length := by omega
  have ki : keyAt (d.take a ++ S ++ d.drop b) i = S[i - a].mtime := by
    unfold keyAt
    rw [splice_getElem? d S a b hab hb hlen, List.getElem?_eq_getElem hi']
    simp [h1, show i < b by omega]
  have kj : keyAt (d.take a ++ S ++ d.drop b) j = S[j - a].mtime := by
    unfold keyAt
    rw [splice_getElem? d S a b hab hb hlen, List.getElem?_eq_getElem hj']
    simp [h2, hj]
  rw [ki, kj]
  by_cases he : i = j
  · subst he
    exact le_refl _
  · exact List.pairwise_iff_getElem.1 hS (i - a) (j - a) hi' hj' (by omega)

theorem insertionSortCmpFunc_spec (d : List packageFile) (a b : Nat) (hab : a ≤ b)
    (hb : b ≤ d.length) :
    Step a b d (insertionSortCmpFunc d a b) ∧ SortedRange (insertionSortCmpFunc d a b) a b := by
  unfold insertionSortCmpFunc
  refine ⟨splice_step d _ a b hab hb (insertionSort_perm _),
    splice_sorted d _ a b hab hb ?_ (insertionSort_sorted _)⟩
  rw [(insertionSort_perm _).length_eq, seg_length d a b hb]

theorem reverseRangeCmpFunc_spec (d : List packageFile) (a b : Nat) (hab : a ≤ b)
    (hb : b ≤ d.length) : Step a b d (reverseRangeCmpFunc d a b) := by
  unfold reverseRangeCmpFunc
  exact splice_step d _ a b hab hb (List.reverse_perm _)

theorem two_pow_bitsLen_le (n : Nat) (hn : 0 < n) : 2 ^ bitsLen n ≤ 2 * n := by
  unfold bitsLen
  have h0 : n ≠ 0 := by omega
  simp only [h0, if_false]
  rw [pow_succ]
  have := Nat.log2_self_le h0
  omega

theorem breakPatternsLoop_spec (a b idx : Nat) (hab : a < b) :
    ∀ (is : List Nat) (random : Nat) (d : List packageFile), b ≤ d.length →
      (∀ i ∈ is, a ≤ idx - 1 + i ∧ idx - 1 + i < b) →
      Step a b d (breakPatternsLoop a (b - a) idx is random d) := by
  intro is
  induction is with
  | nil =>
    intro random d _ _
    exact Step.refl _ _ _
  | cons i is ih =>
    intro random d hb hi
    simp only [breakPatternsLoop]
    have hlt : xorshiftNext random &&& (2 ^ bitsLen (b - a) - 1) < 2 * (b - a) := by
      have h1 : xorshiftNext random &&& (2 ^ bitsLen (b - a) - 1) ≤ 2 ^ bitsLen (b - a) - 1 :=
        Nat.and_le_right
      have h2 := two_pow_bitsLen_le (b - a) (by omega)
      have h3 : 0 < 2 ^ bitsLen (b - a) := by positivity
      omega
    generalize xorshiftNext random &&& (2 ^ bitsLen (b - a) - 1) = other0 at hlt
    have hother : (if other0 ≥ b - a then other0 - (b - a) else other0) < b - a := by
      split_ifs <;> omega
    generalize (if other0 ≥ b - a then other0 - (b - a) else other0) = other at hother
    have hsw : Step a b d (swap d (idx - 1 + i) (a + other)) :=
      Step.swap a b d _ _ hb (hi i (List.mem_cons_self _ _)).1 (hi i (List.mem_cons_self _ _)).2
        (by omega) (by omega)
    exact hsw.trans (ih _ _ (by rw [hsw.length]; exact hb)
      (fun i' hi' => hi i' (List.mem_cons_of_mem _ hi')))

theorem breakPatternsCmpFunc_spec (d : List packageFile) (a b : Nat) (hab : a < b)
    (hb : b ≤ d.length) : Step a b d (breakPatternsCmpFunc d a b) := by
  unfold breakPatternsCmpFunc
  simp only
  split_ifs with h
  · apply breakPatternsLoop_spec a b _ hab _ _ d hb
    intro i hi
    simp only [List.mem_cons, List.mem_singleton, List.not_mem_nil, or_false] at hi
    omega
  · exact Step.refl _ _ _

theorem medianCmpFunc_mem (d : List packageFile) (x y z s : Nat) :
    (medianCmpFunc d x y z s).1 = x ∨ (medianCmpFunc d x y z s).1 = y ∨
      (medianCmpFunc d x y z s).1 = z := by
  unfold medianCmpFunc order2CmpFunc
  simp only
  split_ifs <;> simp

theorem choosePivotCmpFunc_mem (d : List packageFile) (a b : Nat) (h : 8 ≤ b - a) :
    a ≤ (choosePivotCmpFunc d a b).1 ∧ (choosePivotCmpFunc d a b).1 < b := by
  have hpiv : ∀ r : Nat × Nat, (a ≤ r.1 ∧ r.1 < b) →
      a ≤ (if r.2 = 0 then (r.1, sortedHint.increasingHint)
        else if r.2 = 12 then (r.1, sortedHint.decreasingHint)
        else (r.1, sortedHint.unknownHint)).1 ∧
      (if r.2 = 0 then (r.1, sortedHint.increasingHint)
        else if r.2 = 12 then (r.1, sortedHint.decreasingHint)
        else (r.1, sortedHint.unknownHint)).1 < b := by
    intro r hr
    split_ifs <;> exact hr
  have hq1 : 4 * ((b - a) / 4) ≤ b - a := Nat.mul_div_le _ _
  have hq2 : 2 ≤ (b - a) / 4 := by omega
  unfold choosePivotCmpFunc
  simp only
  apply hpiv
  have h8 : b - a ≥ 8 := h
  simp only [h8, if_true]
  generalize (b - a) / 4 = q at hq1 hq2
  split_ifs with h50
  · have m1 := medianCmpFunc_mem d (a + q * 1 - 1) (a + q * 1) (a + q * 1 + 1) 0
    generalize hri : medianAdjacentCmpFunc d (a + q * 1) 0 = ri
    have m1' : a ≤ ri.1 ∧ ri.1 < b := by
      rw [← hri]
      unfold medianAdjacentCmpFunc
      omega
    have m2 := medianCmpFunc_mem d (a + q * 2 - 1) (a + q * 2) (a + q * 2 + 1) ri.2
    generalize hrj : medianAdjacentCmpFunc d (a + q * 2) ri.2 = rj
    have m2' : a ≤ rj.1 ∧ rj.1 < b := by
      rw [← hrj]
      unfold medianAdjacentCmpFunc
      omega
    have m3 := medianCmpFunc_mem d (a + q * 3 - 1) (a + q * 3) (a + q * 3 + 1) rj.2
    generalize hrk : medianAdjacentCmpFunc d (a + q * 3) rj.2 = rk
    have m3' : a ≤ rk.1 ∧ rk.1 < b := by
      rw [← hrk]
      unfold medianAdjacentCmpFunc
      omega
    rcases medianCmpFunc_mem d ri.1 rj.1 rk.1 rk.2 with m4 | m4 | m4 <;> rw [m4] <;>
      assumption
  · have m := medianCmpFunc_mem d (a + q * 1) (a + q * 2) (a + q * 3) 0
    omega

theorem Guarded.step {a b : Nat} {d d' : List packageFile} (hg : Guarded a b d)
    (hs : Step a b d d') : Guarded a b d' := by
  intro ha m h1 h2
  rw [hs.2.1 (a - 1) (by omega)]
  exact hs.forall (fun k => keyAt d (a - 1) ≤ k) (hg ha) m h1 h2

theorem sorted_of_adjacent (d : List packageFile) (a r : Nat)
    (h : ∀ m, a < m → m < r → keyAt d (m - 1) ≤ keyAt d m) : SortedRange d a r := by
  intro i j hi hij hj
  induction j, hij using Nat.le_induction with
  | base => exact le_refl _
  | succ k hk ih =>
    have := h (k + 1) (by omega) hj
    simp only [Nat.add_sub_cancel] at this
    exact le_trans (ih (by omega)) this

theorem partialUp_spec (d : List packageFile) (b i : Nat) (hb : b ≤ d.length) (hi : 1 ≤ i)
    (hib : i ≤ b) :
    i ≤ partialUp d b i ∧ partialUp d b i ≤ b ∧
      (∀ m, i ≤ m → m < partialUp d b i → keyAt d (m - 1) ≤ keyAt d m) ∧
      (partialUp d b i < b → keyAt d (partialUp d b i) < keyAt d (partialUp d b i - 1)) := by
  have hs := scanUp_spec (fun i => decide (i < b) && !less d i (i - 1)) b
    (fun m hm => by
      simp only [Bool.and_eq_true, decide_eq_true_eq] at hm
      exact hm.1) d.length i (by omega)
  obtain ⟨h1, h2, h3⟩ := hs
  change i ≤ partialUp d b i at h1
  change ∀ m, i ≤ m → m < partialUp d b i → _ at h2
  have h2' : ∀ m, i ≤ m → m < partialUp d b i → m < b ∧ keyAt d (m - 1) ≤ keyAt d m := by
    intro m hm1 hm2
    have := h2 m hm1 hm2
    simp only [Bool.and_eq_true, decide_eq_true_eq, Bool.not_eq_true'] at this
    exact ⟨this.1, (less_false_iff d m (m - 1) (by omega) (by omega)).1 this.2⟩
  refine ⟨h1, ?_, fun m hm1 hm2 => (h2' m hm1 hm2).2, ?_⟩
  · by_contra hc
    have := (h2' (partialUp d b i - 1) (by omega) (by omega)).1
    omega
  · intro hr
    have h3' : less d (partialUp d b i) (partialUp d b i - 1) = true := by
      unfold partialUp
      simp only [Bool.and_eq_false_iff, decide_eq_false_iff_not, Bool.not_eq_false'] at h3
      rcases h3 with h3 | h3
      · exact absurd hr h3
      · exact h3
    exact (less_iff d _ _ (by omega) (by omega)).1 h3'

theorem shiftLeft_spec (a b : Nat) :
    ∀ (fuel j : Nat) (d : List packageFile), b ≤ d.length → a ≤ j → j < b → j < fuel →
      Guarded a b d → SortedRange d a j →
      Step a (j + 1) d (shiftLeft fuel j d) ∧ SortedRange (shiftLeft fuel j d) a (j + 1) := by
  intro fuel
  induction fuel with
  | zero => intro j d _ _ _ hf; omega
  | succ fuel ih =>
    intro j d hb haj hjb hf hg hs
    have hstop : (∀ m, a < m → m < j + 1 → keyAt d (m - 1) ≤ keyAt d m) →
        Step a (j + 1) d d ∧ SortedRange d a (j + 1) :=
      fun h => ⟨Step.refl _ _ _, sorted_of_adjacent d a (j + 1) h⟩
    by_cases hj1 : j ≥ 1
    · by_cases hl : less d j (j - 1) = false
      · have e : shiftLeft (fuel + 1) j d = d := by simp [shiftLeft, hj1, hl]
        rw [e]
        apply hstop
        intro m h1 h2
        by_cases hmj : m = j
        · rw [hmj]
          exact (less_false_iff d j (j - 1) (by omega) (by omega)).1 hl
        · exact hs (m - 1) m (by omega) (by omega) (by omega)
      · have hl' : less d j (j - 1) = true := by simpa using hl
        have hlt := (less_iff d j (j - 1) (by omega) (by omega)).1 hl'
        have haj' : a < j := by
          rcases Nat.lt_or_ge a j with h | h
          · exact h
          · have hja : j = a := by omega
            have := hg (by omega) j (by omega) hjb
            rw [hja] at hlt this
            omega
        have e : shiftLeft (fuel + 1) j d = shiftLeft fuel (j - 1) (swap d j (j - 1)) := by
          simp [shiftLeft, hj1, hl']
        rw [e]
        have hsw : Step a (j + 1) d (swap d j (j - 1)) :=
          Step.swap a (j + 1) d j (j - 1) (by omega) (by omega) (by omega) (by omega) (by omega)
        have hk : ∀ m, keyAt (swap d j (j - 1)) m =
            if m = j - 1 then keyAt d j else if m = j then keyAt d (j - 1) else keyAt d m :=
          fun m => keyAt_swap d j (j - 1) m (by omega) (by omega)
        obtain ⟨r1, r2⟩ := ih (j - 1) (swap d j (j - 1)) (by rw [hsw.length]; exact hb)
          (by omega) (by omega) (by omega) (hg.step (hsw.mono (le_refl _) (by omega)))
          (by
            intro x y hx hxy hy
            rw [hk x, hk y]
            have e1 : ¬ x = j - 1 := by omega
            have e2 : ¬ x = j := by omega
            have e3 : ¬ y = j - 1 := by omega
            have e4 : ¬ y = j := by omega
            simp only [e1, e2, e3, e4, if_false]
            exact hs x y hx hxy (by omega))
        have hjj : j - 1 + 1 = j := by omega
        rw [hjj] at r1 r2
        refine ⟨hsw.trans (r1.mono (le_refl _) (by omega)), ?_⟩
        intro x y hx hxy hy
        by_cases hyj : y = j
        · by_cases hxj : x = j
          · rw [hxj, hyj]
          · have hyk : keyAt (shiftLeft fuel (j - 1) (swap d j (j - 1))) y = keyAt d (j - 1) := by
              rw [hyj, r1.2.1 j (by omega), hk j]
              have e1 : ¬ j = j - 1 := by omega
              simp [e1]
            rw [hyk]
            apply r1.forall (fun k => k ≤ keyAt d (j - 1)) _ x hx (by omega)
            intro m hm1 hm2
            rw [hk m]
            by_cases hmj : m = j - 1
            · simp only [hmj, if_true]
              exact le_of_lt hlt
            · have e2 : ¬ m = j := by omega
              simp only [hmj, e2, if_false]
              exact hs m (j - 1) hm1 (by omega) (by omega)
        · exact r2 x y hx hxy (by omega)
    · have e : shiftLeft (fuel + 1) j d = d := by simp [shiftLeft, hj1]
      rw [e]
      apply hstop
      intro m h1 h2
      omega

theorem shiftRight_step (lo b : Nat) :
    ∀ (fuel j : Nat) (d : List packageFile), b ≤ d.length → lo + 1 ≤ j →
      Step lo b d (shiftRight b fuel j d) := by
  intro fuel
  induction fuel with
  | zero => intro j d _ _; exact Step.refl _ _ _
  | succ fuel ih =>
    intro j d hb hj
    by_cases hjb : j < b
    · by_cases hl : less d j (j - 1) = false
      · have e : shiftRight b (fuel + 1) j d = d := by simp [shiftRight, hjb, hl]
        rw [e]
        exact Step.refl _ _ _
      · have hl' : less d j (j - 1) = true := by simpa using hl
        have e : shiftRight b (fuel + 1) j d = shiftRight b fuel (j + 1) (swap d j (j - 1)) := by
          simp [shiftRight, hjb, hl']
        rw [e]
        have hsw : Step lo b d (swap d j (j - 1)) :=
          Step.swap lo b d j (j - 1) hb (by omega) hjb (by omega) (by omega)
        exact hsw.trans (ih (j + 1) _ (by rw [hsw.length]; exact hb) (by omega))
    · have e : shiftRight b (fuel + 1) j d = d := by simp [shiftRight, hjb]
      rw [e]
      exact Step.refl _ _ _

theorem SortedRange.step_above {d d' : List packageFile} {a i lo b : Nat}
    (hs : SortedRange d a i) (hst : Step lo b d d') (hi : i ≤ lo) : SortedRange d' a i := by
  intro x y hx hxy hy
  rw [hst.2.1 x (by omega), hst.2.1 y (by omega)]
  exact hs x y hx hxy hy

theorem partialSteps_spec (a b : Nat) :
    ∀ (steps : Nat) (d : List packageFile) (i : Nat), b ≤ d.length → a + 1 ≤ i → i ≤ b →
      Guarded a b d → SortedRange d a i →
      Step a b d (partialSteps a b steps d i).1 ∧
        ((partialSteps a b steps d i).2 = true →
          SortedRange (partialSteps a b steps d i).1 a b) := by
  intro steps
  induction steps with
  | zero =>
    intro d i _ _ _ _ _
    simp only [partialSteps]
    exact ⟨Step.refl _ _ _, fun h => by cases h⟩
  | succ steps ih =>
    intro d i hb hi hib hg hs
    obtain ⟨u1, u2, u3, u4⟩ := partialUp_spec d b i hb (by omega) hib
    have hs1 : SortedRange d a (partialUp d b i) := by
      apply sorted_of_adjacent
      intro m h1 h2
      by_cases hmi : m < i
      · exact hs (m - 1) m (by omega) (by omega) hmi
      · exact u3 m (by omega) h2
    by_cases hu : partialUp d b i = b
    · have e : partialSteps a b (steps + 1) d i = (d, true) := by
        simp [partialSteps, hu]
      rw [e]
      refine ⟨Step.refl _ _ _, fun _ => ?_⟩
      rw [hu] at hs1
      exact hs1
    · by_cases h50 : b - a < 50
      · have e : partialSteps a b (steps + 1) d i = (d, false) := by
          simp [partialSteps, hu, h50]
        rw [e]
        exact ⟨Step.refl _ _ _, fun h => by cases h⟩
      · generalize hi1 : partialUp d b i = i1 at *
        have hlt := u4 (by omega)
        have hsw : Step a b d (swap d i1 (i1 - 1)) :=
          Step.swap a b d i1 (i1 - 1) hb (by omega) (by omega) (by omega) (by omega)
        have hk : ∀ m, keyAt (swap d i1 (i1 - 1)) m =
            if m = i1 - 1 then keyAt d i1 else if m = i1 then keyAt d (i1 - 1) else keyAt d m :=
          fun m => keyAt_swap d i1 (i1 - 1) m (by omega) (by omega)
        generalize hd1 : swap d i1 (i1 - 1) = d1 at hsw hk
        have hlen1 : d1.length = d.length := hsw.length
        have hg1 : Guarded a b d1 := hg.step hsw
        -- the smaller element moves left
        have hd2 : Step a b d1
              (if i1 - a ≥ 2 then shiftLeft d1.length (i1 - 1) d1 else d1) ∧
            SortedRange (if i1 - a ≥ 2 then shiftLeft d1.length (i1 - 1) d1 else d1) a i1 := by
          split_ifs with h2
          · have hsl := shiftLeft_spec a b d1.length (i1 - 1) d1 (by omega) (by omega)
              (by omega) (by omega) hg1 (by
                intro x y hx hxy hy
                rw [hk x, hk y]
                have e1 : ¬ x = i1 - 1 := by omega
                have e2 : ¬ x = i1 := by omega
                have e3 : ¬ y = i1 - 1 := by omega
                have e4 : ¬ y = i1 := by omega
                simp only [e1, e2, e3, e4, if_false]
                exact hs1 x y hx hxy (by omega))
            have hjj : i1 - 1 + 1 = i1 := by omega
            rw [hjj] at hsl
            exact ⟨hsl.1.mono (le_refl _) (by omega), hsl.2⟩
          · refine ⟨Step.refl _ _ _, ?_⟩
            intro x y hx hxy hy
            have : x = y := by omega
            rw [this]
        generalize hd2e : (if i1 - a ≥ 2 then shiftLeft d1.length (i1 - 1) d1 else d1) = d2
          at hd2
        have hlen2 : d2.length = d1.length := hd2.1.length
        -- the greater element moves right
        have hd3 : Step i1 b d2
            (if b - i1 ≥ 2 then shiftRight b d2.length (i1 + 1) d2 else d2) := by
          split_ifs with h2
          · exact shiftRight_step i1 b d2.length (i1 + 1) d2 (by omega) (le_refl _)
          · exact Step.refl _ _ _
        generalize hd3e : (if b - i1 ≥ 2 then shiftRight b d2.length (i1 + 1) d2 else d2) = d3
          at hd3
        have hst3 : Step a b d d3 := (hsw.trans hd2.1).trans (hd3.mono (by omega) (le_refl _))
        have e : partialSteps a b (steps + 1) d i = partialSteps a b steps d3 i1 := by
          simp [partialSteps, hi1, hu, h50, hd1, hd2e, hd3e]
        rw [e]
        obtain ⟨r1, r2⟩ := ih d3 i1 (by rw [hst3.length]; exact hb) (by omega) (by omega)
          (hg.step hst3) (hd2.2.step_above hd3 (le_refl _))
        exact ⟨hst3.trans r1, r2⟩

/-- What `partialInsertionSortCmpFunc` does: a step on the range, and when it answers `true`
the range is sorted. -/
theorem partialInsertionSortCmpFunc_spec (d : List packageFile) (a b : Nat) (hab : a < b)
    (hb : b ≤ d.length) (hg : Guarded a b d) :
    Step a b d (partialInsertionSortCmpFunc d a b).1 ∧
      ((partialInsertionSortCmpFunc d a b).2 = true →
        SortedRange (partialInsertionSortCmpFunc d a b).1 a b) := by
  unfold partialInsertionSortCmpFunc
  apply partialSteps_spec a b 5 d (a + 1) hb (le_refl _) (by omega) hg
  intro x y hx hxy hy
  have : x = y := by omega
  rw [this]

theorem keyAt_swap_first (d : List packageFile) (first x y m : Nat)
    (hx : first + x < d.length) (hy : first + y < d.length) :
    keyAt (swap d (first + x) (first + y)) (first + m) =
      if m = y then keyAt d (first + x) else if m = x then keyAt d (first + y)
      else keyAt d (first + m) := by
  rw [keyAt_swap d _ _ _ hx hy]
  simp only [Nat.add_left_cancel_iff]

theorem siftDownCmpFunc_spec (hi first lo : Nat) :
    ∀ (fuel root : Nat) (d : List packageFile), first + hi ≤ d.length → lo ≤ root →
      hi ≤ root + fuel →
      (∀ r, lo ≤ r → r < hi → r ≠ root → HeapAt first d hi r) →
      (∀ r, lo ≤ r → (root = 2 * r + 1 ∨ root = 2 * r + 2) →
        (2 * root + 1 < hi → keyAt d (first + (2 * root + 1)) ≤ keyAt d (first + r)) ∧
        (2 * root + 2 < hi → keyAt d (first + (2 * root + 2)) ≤ keyAt d (first + r))) →
      Step (first + lo) (first + hi) d (siftDownCmpFunc hi first fuel root d) ∧
        ∀ r, lo ≤ r → r < hi → HeapAt first (siftDownCmpFunc hi first fuel root d) hi r := by
  intro fuel
  induction fuel with
  | zero =>
    intro root d _ _ hf h1 _
    simp only [siftDownCmpFunc]
    exact ⟨Step.refl _ _ _, fun r hr1 hr2 => h1 r hr1 hr2 (by omega)⟩
  | succ fuel ih =>
    intro root d hlen hlo hf h1 h2
    have hstop : HeapAt first d hi root →
        Step (first + lo) (first + hi) d d ∧ ∀ r, lo ≤ r → r < hi → HeapAt first d hi r := by
      intro hroot
      refine ⟨Step.refl _ _ _, fun r hr1 hr2 => ?_⟩
      by_cases hr : r = root
      · rw [hr]; exact hroot
      · exact h1 r hr1 hr2 hr
    by_cases hc : 2 * root + 1 ≥ hi
    · have e : siftDownCmpFunc hi first (fuel + 1) root d = d := by
        simp [siftDownCmpFunc, hc]
      rw [e]
      exact hstop ⟨fun h => absurd h (by omega), fun h => absurd h (by omega)⟩
    · have hc' : 2 * root + 1 < hi := by omega
      -- the greater child
      obtain ⟨c, hcdef, hc1, hc2, hc3, hc4⟩ : ∃ c,
          c = (if 2 * root + 1 + 1 < hi ∧
            less d (first + (2 * root + 1)) (first + (2 * root + 1) + 1) = true
            then 2 * root + 1 + 1 else 2 * root + 1) ∧
          (c = 2 * root + 1 ∨ c = 2 * root + 2) ∧ c < hi ∧
          keyAt d (first + (2 * root + 1)) ≤ keyAt d (first + c) ∧
          (2 * root + 2 < hi → keyAt d (first + (2 * root + 2)) ≤ keyAt d (first + c)) := by
        refine ⟨_, rfl, ?_⟩
        have hidx : first + (2 * root + 1) + 1 = first + (2 * root + 2) := by omega
        by_cases h22 : 2 * root + 1 + 1 < hi
        · by_cases hl : less d (first + (2 * root + 1)) (first + (2 * root + 1) + 1) = true
          · have hlt := (less_iff d _ _ (by omega) (by omega)).1 hl
            rw [hidx] at hlt
            rw [if_pos ⟨h22, hl⟩]
            exact ⟨Or.inr (by omega), h22, le_of_lt hlt, fun _ => le_refl _⟩
          · have hl' : less d (first + (2 * root + 1)) (first + (2 * root + 1) + 1) = false := by
              simpa using hl
            have hle := (less_false_iff d _ _ (by omega) (by omega)).1 hl'
            rw [hidx] at hle
            rw [if_neg (fun h => hl h.2)]
            exact ⟨Or.inl rfl, hc', le_refl _, fun _ => hle⟩
        · rw [if_neg (fun h => h22 h.1)]
          exact ⟨Or.inl rfl, hc', le_refl _, fun h => absurd h (by omega)⟩
      by_cases hl : less d (first + root) (first + c) = false
      · have e : siftDownCmpFunc hi first (fuel + 1) root d = d := by
          simp only [siftDownCmpFunc]
          rw [← hcdef]
          simp [hc, hl]
        rw [e]
        have hle := (less_false_iff d _ _ (by omega) (by omega)).1 hl
        exact hstop ⟨fun _ => le_trans hc3 hle, fun h => le_trans (hc4 h) hle⟩
      · have hl' : less d (first + root) (first + c) = true := by simpa using hl
        have hlt := (less_iff d _ _ (by omega) (by omega)).1 hl'
        have e : siftDownCmpFunc hi first (fuel + 1) root d =
            siftDownCmpFunc hi first fuel c (swap d (first + root) (first + c)) := by
          simp only [siftDownCmpFunc]
          rw [← hcdef]
          simp [hc, hl']
        rw [e]
        have hsw : Step (first + lo) (first + hi) d (swap d (first + root) (first + c)) :=
          Step.swap _ _ d _ _ hlen (by omega) (by omega) (by omega) (by omega)
        have hk : ∀ m, keyAt (swap d (first + root) (first + c)) (first + m) =
            if m = c then keyAt d (first + root) else if m = root then keyAt d (first + c)
            else keyAt d (first + m) :=
          fun m => keyAt_swap_first d first root c m (by omega) (by omega)
        have hcr : c ≠ root := by omega
        obtain ⟨r1, r2⟩ := ih c (swap d (first + root) (first + c))
          (by rw [hsw.length]; exact hlen) (by omega) (by omega)
          (by
            intro r hr1 hr2 hrc
            by_cases hr : r = root
            · subst hr
              constructor
              · intro _
                rw [hk r, hk (2 * r + 1)]
                have e1 : ¬ r = c := fun h => hcr h.symm
                have e2 : ¬ 2 * r + 1 = r := by omega
                simp only [e1, e2, if_true, if_false]
                by_cases e3 : 2 * r + 1 = c
                · simp only [e3, if_true]
                  exact le_of_lt hlt
                · simp only [e3, if_false]
                  exact hc3
              · intro h22
                rw [hk r, hk (2 * r + 2)]
                have e1 : ¬ r = c := fun h => hcr h.symm
                have e2 : ¬ 2 * r + 2 = r := by omega
                simp only [e1, e2, if_true, if_false]
                by_cases e3 : 2 * r + 2 = c
                · simp only [e3, if_true]
                  exact le_of_lt hlt
                · simp only [e3, if_false]
                  exact hc4 h22
            · have hh := h1 r hr1 hr2 hr
              have hp := h2 r hr1
              constructor
              · intro h21
                rw [hk r, hk (2 * r + 1)]
                have e1 : ¬ 2 * r + 1 = c := by omega
                simp only [hrc, hr, e1, if_false]
                by_cases e2 : 2 * r + 1 = root
                · simp only [e2, if_true]
                  rcases hc1 with hc1 | hc1
                  · rw [hc1]
                    exact (hp (Or.inl e2.symm)).1 (by omega)
                  · rw [hc1]
                    exact (hp (Or.inl e2.symm)).2 (by omega)
                · simp only [e2, if_false]
                  exact hh.1 h21
              · intro h22
                rw [hk r, hk (2 * r + 2)]
                have e1 : ¬ 2 * r + 2 = c := by omega
                simp only [hrc, hr, e1, if_false]
                by_cases e2 : 2 * r + 2 = root
                · simp only [e2, if_true]
                  rcases hc1 with hc1 | hc1
                  · rw [hc1]
                    exact (hp (Or.inr e2.symm)).1 (by omega)
                  · rw [hc1]
                    exact (hp (Or.inr e2.symm)).2 (by omega)
                · simp only [e2, if_false]
                  exact hh.2 h22)
          (by
            intro r hr1 hr2
            have hrr : r = root := by omega
            subst hrr
            have hh := h1 c (by omega) hc2 hcr
            have e0 : ¬ r = c := fun h => hcr h.symm
            constructor
            · intro h21
              rw [hk r, hk (2 * c + 1)]
              have e1 : ¬ 2 * c + 1 = c := by omega
              have e2 : ¬ 2 * c + 1 = r := by omega
              simp only [e0, e1, e2, if_true, if_false]
              exact hh.1 h21
            · intro h22
              rw [hk r, hk (2 * c + 2)]
              have e1 : ¬ 2 * c + 2 = c := by omega
              have e2 : ¬ 2 * c + 2 = r := by omega
              simp only [e0, e1, e2, if_true, if_false]
              exact hh.2 h22)
        exact ⟨hsw.trans r1, r2⟩

theorem heap_root_max (first : Nat) (d : List packageFile) (hi : Nat)
    (h : ∀ r, r < hi → HeapAt first d hi r) :
    ∀ m, m < hi → keyAt d (first + m) ≤ keyAt d (first + 0) := by
  intro m
  induction m using Nat.strong_induction_on with
  | _ m ih =>
    intro hm
    by_cases h0 : m = 0
    · rw [h0]
    · have hp := h ((m - 1) / 2) (by omega)
      have hi' := ih ((m - 1) / 2) (by omega) (by omega)
      rcases Nat.even_or_odd (m - 1) with ⟨k, hk⟩ | ⟨k, hk⟩
      · have e : m = 2 * ((m - 1) / 2) + 1 := by omega
        have := hp.1 (by omega)
        rw [← e] at this
        exact le_trans this hi'
      · have e : m = 2 * ((m - 1) / 2) + 2 := by omega
        have := hp.2 (by omega)
        rw [← e] at this
        exact le_trans this hi'

theorem heapBuild_spec (hi first : Nat) :
    ∀ (i : Nat) (d : List packageFile), first + hi ≤ d.length →
      (∀ r, i + 1 ≤ r → r < hi → HeapAt first d hi r) →
      Step first (first + hi) d (heapBuild hi first i d) ∧
        ∀ r, r < hi → HeapAt first (heapBuild hi first i d) hi r := by
  intro i
  induction i with
  | zero =>
    intro d hlen h
    simp only [heapBuild]
    obtain ⟨s1, s2⟩ := siftDownCmpFunc_spec hi first 0 hi 0 d hlen (le_refl _) (by omega)
      (fun r _ hr2 hr3 => h r (by omega) hr2) (fun r _ hr => by omega)
    exact ⟨s1, fun r hr => s2 r (Nat.zero_le _) hr⟩
  | succ i ih =>
    intro d hlen h
    simp only [heapBuild]
    obtain ⟨s1, s2⟩ := siftDownCmpFunc_spec hi first (i + 1) hi (i + 1) d hlen (le_refl _)
      (by omega) (fun r hr1 hr2 hr3 => h r (by omega) hr2) (fun r hr1 hr => by omega)
    obtain ⟨t1, t2⟩ := ih (siftDownCmpFunc hi first hi (i + 1) d)
      (by rw [s1.length]; exact hlen) s2
    exact ⟨(s1.mono (by omega) (le_refl _)).trans t1, t2⟩

theorem heapPop_spec (first H : Nat) :
    ∀ (i : Nat) (d : List packageFile), first + H ≤ d.length → i < H →
      (∀ r, r < i + 1 → HeapAt first d (i + 1) r) →
      SortedRange d (first + (i + 1)) (first + H) →
      (∀ m m', m ≤ i → i < m' → m' < H → keyAt d (first + m) ≤ keyAt d (first + m')) →
      Step first (first + H) d (heapPop first i d) ∧
        SortedRange (heapPop first i d) first (first + H) := by
  intro i
  induction i with
  | zero =>
    intro d hlen hH _ hs hx
    have hk : ∀ m, keyAt (swap d first first) m = keyAt d m := by
      intro m
      rw [keyAt_swap d first first m (by omega) (by omega)]
      by_cases hm : m = first
      · simp [hm]
      · simp [hm]
    have e : heapPop first 0 d = swap d first first := by
      simp [heapPop, siftDownCmpFunc]
    rw [e]
    refine ⟨Step.swap _ _ d _ _ hlen (le_refl _) (by omega) (le_refl _) (by omega), ?_⟩
    intro x y h1 h2 h3
    rw [hk x, hk y]
    by_cases hxy : x = y
    · rw [hxy]
    · by_cases hx0 : x = first
      · have := hx 0 (y - first) (le_refl _) (by omega) (by omega)
        rw [show first + (y - first) = y by omega, Nat.add_zero] at this
        rw [hx0]
        exact this
      · exact hs x y (by omega) h2 h3
  | succ i ih =>
    intro d hlen hH hheap hs hx
    have hmax := heap_root_max first d (i + 1 + 1) hheap
    have hsw : Step first (first + H) d (swap d first (first + (i + 1))) :=
      Step.swap _ _ d _ _ hlen (le_refl _) (by omega) (by omega) (by omega)
    have hk : ∀ m, keyAt (swap d first (first + (i + 1))) (first + m) =
        if m = i + 1 then keyAt d (first + 0) else if m = 0 then keyAt d (first + (i + 1))
        else keyAt d (first + m) := by
      intro m
      rw [keyAt_swap d first (first + (i + 1)) (first + m) (by omega) (by omega)]
      by_cases h1 : m = i + 1
      · simp [h1]
      · by_cases h2 : m = 0
        · simp [h2]
        · have e1 : ¬ first + m = first + (i + 1) := by omega
          have e2 : ¬ first + m = first := by omega
          simp [h1, h2, e1, e2]
    generalize hd1 : swap d first (first + (i + 1)) = d1 at hsw hk
    have hlen1 : d1.length = d.length := hsw.length
    obtain ⟨s1, s2⟩ := siftDownCmpFunc_spec (i + 1) first 0 (i + 1) 0 d1 (by omega)
      (le_refl _) (by omega)
      (by
        intro r _ hr2 hr3
        have hh := hheap r (by omega)
        constructor
        · intro h21
          rw [hk r, hk (2 * r + 1)]
          have e1 : ¬ r = i + 1 := by omega
          have e2 : ¬ 2 * r + 1 = i + 1 := by omega
          have e3 : ¬ 2 * r + 1 = 0 := by omega
          simp only [e1, e2, e3, hr3, if_false]
          exact hh.1 (by omega)
        · intro h22
          rw [hk r, hk (2 * r + 2)]
          have e1 : ¬ r = i + 1 := by omega
          have e2 : ¬ 2 * r + 2 = i + 1 := by omega
          have e3 : ¬ 2 * r + 2 = 0 := by omega
          simp only [e1, e2, e3, hr3, if_false]
          exact hh.2 (by omega))
      (fun r _ hr => by omega)
    rw [Nat.add_zero] at s1
    generalize hd2 : siftDownCmpFunc (i + 1) first (i + 1) 0 d1 = d2 at s1 s2
    have hlen2 : d2.length = d1.length := s1.length
    have hfr : ∀ m, i + 1 ≤ m → keyAt d2 (first + m) = keyAt d1 (first + m) :=
      fun m hm => s1.2.1 (first + m) (by omega)
    have hlow : ∀ m, m ≤ i → keyAt d2 (first + m) ≤ keyAt d (first + 0) ∧
        ∀ m', i + 1 < m' → m' < H → keyAt d2 (first + m) ≤ keyAt d (first + m') := by
      intro m hm
      have := s1.forall (fun k => k ≤ keyAt d (first + 0) ∧
          ∀ m', i + 1 < m' → m' < H → k ≤ keyAt d (first + m'))
        (by
          intro x hx1 hx2
          have hxe : x = first + (x - first) := by omega
          rw [hxe, hk (x - first)]
          have e1 : ¬ x - first = i + 1 := by omega
          simp only [e1, if_false]
          by_cases e2 : x - first = 0
          · simp only [e2, if_true]
            exact ⟨hmax (i + 1) (by omega),
              fun m' h1 h2 => hx (i + 1) m' (le_refl _) h1 h2⟩
          · simp only [e2, if_false]
            exact ⟨hmax (x - first) (by omega),
              fun m' h1 h2 => hx (x - first) m' (by omega) h1 h2⟩)
        (first + m) (by omega) (by omega)
      exact this
    obtain ⟨t1, t2⟩ := ih d2 (by omega) (by omega) (fun r hr => s2 r (Nat.zero_le _) hr)
      (by
        intro x y h1 h2 h3
        have hxe : x = first + (x - first) := by omega
        have hye : y = first + (y - first) := by omega
        rw [hxe, hye, hfr _ (by omega), hfr _ (by omega), hk, hk]
        have e1 : ¬ x - first = 0 := by omega
        have e2 : ¬ y - first = 0 := by omega
        by_cases e3 : x - first = i + 1
        · by_cases e4 : y - first = i + 1
          · simp only [e3, e4, if_true]
            exact le_refl _
          · simp only [e3, e4, e2, if_true, if_false]
            exact hx 0 (y - first) (Nat.zero_le _) (by omega) (by omega)
        · have e4 : ¬ y - first = i + 1 := by omega
          simp only [e1, e2, e3, e4, if_false]
          rw [← hxe, ← hye]
          exact hs x y (by omega) h2 h3)
      (by
        intro m m' h1 h2 h3
        rw [hfr m' (by omega), hk m']
        have e2 : ¬ m' = 0 := by omega
        by_cases e1 : m' = i + 1
        · simp only [e1, if_true]
          exact (hlow m h1).1
        · simp only [e1, e2, if_false]
          exact (hlow m h1).2 m' (by omega) h3)
    have e : heapPop first (i + 1) d = heapPop first i d2 := by
      simp only [heapPop]
      rw [hd1, hd2]
    rw [e]
    exact ⟨(hsw.trans (s1.mono (le_refl _) (by omega))).trans t1, t2⟩

/-- What `heapSortCmpFunc` does: the range is permuted into ascending order. -/
theorem heapSortCmpFunc_spec (d : List packageFile) (a b : Nat) (hab : a < b)
    (hb : b ≤ d.length) :
    Step a b d (heapSortCmpFunc d a b) ∧ SortedRange (heapSortCmpFunc d a b) a b := by
  unfold heapSortCmpFunc
  simp only
  have hab' : a + (b - a) = b := by omega
  obtain ⟨s1, s2⟩ := heapBuild_spec (b - a) a ((b - a - 1) / 2) d (by omega)
    (fun r hr1 hr2 => ⟨fun h => absurd h (by omega), fun h => absurd h (by omega)⟩)
  obtain ⟨t1, t2⟩ := heapPop_spec a (b - a) (b - a - 1) _ (by rw [s1.length]; omega) (by omega)
    (fun r hr => by
      have := s2 r (by omega)
      rw [show b - a - 1 + 1 = b - a by omega]
      exact this)
    (fun x y h1 h2 h3 => absurd h3 (by omega))
    (fun m m' h1 h2 h3 => absurd h3 (by omega))
  rw [hab'] at s1 t1 t2
  exact ⟨s1.trans t1, t2⟩

theorem pdqsortCmpFunc_succ (fuel : Nat) (d : List packageFile) (a b limit : Nat)
    (wasBalanced wasPartitioned : Bool) (s : (List packageFile × Bool) × Nat × Nat)
    (hs : pdqsortPrepare d a b limit wasBalanced wasPartitioned = s)
    (pe : List packageFile × Nat) (hpe : partitionEqualCmpFunc s.1.1 a b s.2.1 = pe)
    (p : List packageFile × Nat × Bool) (hp : partitionCmpFunc s.1.1 a b s.2.1 = p) :
    pdqsortCmpFunc (fuel + 1) d a b limit wasBalanced wasPartitioned =
      if b - a ≤ 12 then insertionSortCmpFunc d a b
      else if limit = 0 then heapSortCmpFunc d a b
      else if s.1.2 = true then s.1.1
      else if a > 0 ∧ less s.1.1 (a - 1) s.2.1 = false then
        pdqsortCmpFunc fuel pe.1 pe.2 b s.2.2 wasBalanced wasPartitioned
      else if p.2.1 - a < b - p.2.1 then
        pdqsortCmpFunc fuel (pdqsortCmpFunc fuel p.1 a p.2.1 s.2.2 true true) (p.2.1 + 1) b s.2.2
          (decide (p.2.1 - a ≥ (b - a) / 8)) p.2.2
      else
        pdqsortCmpFunc fuel (pdqsortCmpFunc fuel p.1 (p.2.1 + 1) b s.2.2 true true) a p.2.1 s.2.2
          (decide (b - p.2.1 ≥ (b - a) / 8)) p.2.2 := by
  subst hs hpe hp
  rfl

theorem Guarded.restrict {a b b' : Nat} {d : List packageFile} (hg : Guarded a b d)
    (hb : b' ≤ b) : Guarded a b' d :=
  fun ha m h1 h2 => hg ha m h1 (by omega)

/-- A range is sorted when it is sorted before and after an element that stands between the
two parts. -/
theorem sorted_join (d : List packageFile) (a mid b : Nat)
    (h1 : SortedRange d a mid) (h2 : SortedRange d (mid + 1) b)
    (hlo : ∀ x, a ≤ x → x < mid → keyAt d x ≤ keyAt d mid)
    (hhi : ∀ y, mid < y → y < b → keyAt d mid ≤ keyAt d y) : SortedRange d a b := by
  intro x y hx hxy hy
  by_cases hxm : x < mid
  · by_cases hym : y < mid
    · exact h1 x y hx hxy hym
    · by_cases hye : y = mid
      · rw [hye]; exact hlo x hx hxm
      · exact le_trans (hlo x hx hxm) (hhi y (by omega) hy)
  · by_cases hxe : x = mid
    · by_cases hye : y = mid
      · rw [hxe, hye]
      · rw [hxe]; exact hhi y (by omega) hy
    · exact h2 x y (by omega) hxy hy

theorem pdqsortPrepare_spec (d : List packageFile) (a b limit : Nat)
    (wasBalanced wasPartitioned : Bool) (hab : 12 < b - a) (hb : b ≤ d.length)
    (hg : Guarded a b d) :
    Step a b d (pdqsortPrepare d a b limit wasBalanced wasPartitioned).1.1 ∧
      a ≤ (pdqsortPrepare d a b limit wasBalanced wasPartitioned).2.1 ∧
      (pdqsortPrepare d a b limit wasBalanced wasPartitioned).2.1 < b ∧
      ((pdqsortPrepare d a b limit wasBalanced wasPartitioned).1.2 = true →
        SortedRange (pdqsortPrepare d a b limit wasBalanced wasPartitioned).1.1 a b) := by
  unfold pdqsortPrepare
  simp only
  have h1 : Step a b d (if wasBalanced = true then d else breakPatternsCmpFunc d a b) := by
    split_ifs
    · exact Step.refl _ _ _
    · exact breakPatternsCmpFunc_spec d a b (by omega) hb
  generalize (if wasBalanced = true then d else breakPatternsCmpFunc d a b) = d1 at h1 ⊢
  have hb1 : b ≤ d1.length := by rw [h1.length]; exact hb
  have hph := choosePivotCmpFunc_mem d1 a b (by omega)
  generalize choosePivotCmpFunc d1 a b = ph at hph ⊢
  have h2 : Step a b d1
      (if ph.2 = sortedHint.decreasingHint then reverseRangeCmpFunc d1 a b else d1) := by
    split_ifs
    · exact reverseRangeCmpFunc_spec d1 a b (by omega) hb1
    · exact Step.refl _ _ _
  generalize (if ph.2 = sortedHint.decreasingHint then reverseRangeCmpFunc d1 a b else d1) = d2
    at h2 ⊢
  have hb2 : b ≤ d2.length := by rw [h2.length]; exact hb1
  have hpiv : a ≤ (if ph.2 = sortedHint.decreasingHint then b - 1 - (ph.1 - a) else ph.1) ∧
      (if ph.2 = sortedHint.decreasingHint then b - 1 - (ph.1 - a) else ph.1) < b := by
    split_ifs <;> omega
  generalize (if ph.2 = sortedHint.decreasingHint then b - 1 - (ph.1 - a) else ph.1) = pivot
    at hpiv ⊢
  generalize (if ph.2 = sortedHint.decreasingHint then sortedHint.increasingHint else ph.2) = hint
  have h3 : Step a b d2
        (if wasBalanced = true ∧ wasPartitioned = true ∧ hint = sortedHint.increasingHint
          then partialInsertionSortCmpFunc d2 a b else (d2, false)).1 ∧
      ((if wasBalanced = true ∧ wasPartitioned = true ∧ hint = sortedHint.increasingHint
          then partialInsertionSortCmpFunc d2 a b else (d2, false)).2 = true →
        SortedRange
          (if wasBalanced = true ∧ wasPartitioned = true ∧ hint = sortedHint.increasingHint
            then partialInsertionSortCmpFunc d2 a b else (d2, false)).1 a b) := by
    split_ifs
    · exact partialInsertionSortCmpFunc_spec d2 a b (by omega) hb2 (hg.step (h1.trans h2))
    · exact ⟨Step.refl _ _ _, fun h => by cases h⟩
  exact ⟨(h1.trans h2).trans h3.1, hpiv.1, hpiv.2, h3.2⟩

theorem pdqsortCmpFunc_spec :
    ∀ (fuel : Nat) (d : List packageFile) (a b limit : Nat) (wasBalanced wasPartitioned : Bool),
      a ≤ b → b ≤ d.length → b - a < fuel → Guarded a b d →
      Step a b d (pdqsortCmpFunc fuel d a b limit wasBalanced wasPartitioned) ∧
        SortedRange (pdqsortCmpFunc fuel d a b limit wasBalanced wasPartitioned) a b := by
  intro fuel
  induction fuel with
  | zero => intro d a b _ _ _ _ _ hf; omega
  | succ fuel ih =>
    intro d a b limit wasBalanced wasPartitioned hab hb hf hg
    rw [pdqsortCmpFunc_succ fuel d a b limit wasBalanced wasPartitioned _ rfl _ rfl _ rfl]
    by_cases h12 : b - a ≤ 12
    · rw [if_pos h12]
      exact insertionSortCmpFunc_spec d a b hab hb
    rw [if_neg h12]
    by_cases hlim : limit = 0
    · rw [if_pos hlim]
      exact heapSortCmpFunc_spec d a b (by omega) hb
    rw [if_neg hlim]
    obtain ⟨s1, s2, s3, s4⟩ := pdqsortPrepare_spec d a b limit wasBalanced wasPartitioned
      (by omega) hb hg
    generalize pdqsortPrepare d a b limit wasBalanced wasPartitioned = s at s1 s2 s3 s4 ⊢
    obtain ⟨⟨d3, done⟩, pivot, limit1⟩ := s
    simp only at s1 s2 s3 s4 ⊢
    have hb3 : b ≤ d3.length := by rw [s1.length]; exact hb
    have hg3 : Guarded a b d3 := hg.step s1
    by_cases hdone : done = true
    · rw [if_pos hdone]
      exact ⟨s1, s4 hdone⟩
    rw [if_neg hdone]
    by_cases heq : a > 0 ∧ less d3 (a - 1) pivot = false
    · rw [if_pos heq]
      obtain ⟨ha0, hle⟩ := heq
      have hle' := (less_false_iff d3 (a - 1) pivot (by omega) (by omega)).1 hle
      obtain ⟨e1, e2, e3, e4, e5⟩ := partitionEqualCmpFunc_spec d3 a b pivot s2 s3 hb3
      generalize partitionEqualCmpFunc d3 a b pivot = pe at e1 e2 e3 e4 e5 ⊢
      obtain ⟨d4, mid⟩ := pe
      simp only at e1 e2 e3 e4 e5 ⊢
      have hg4 : Guarded a b d4 := hg3.step e1
      have hka : keyAt d4 (a - 1) = keyAt d3 (a - 1) := e1.2.1 (a - 1) (by omega)
      have hall : ∀ m, a ≤ m → m < mid → keyAt d4 m = keyAt d3 pivot := by
        intro m h1 h2
        have := hg4 ha0 m h1 (by omega)
        have := e4 m h1 h2
        omega
      obtain ⟨r1, r2⟩ := ih d4 mid b limit1 wasBalanced wasPartitioned e3
        (by rw [e1.length]; exact hb3) (by omega)
        (by
          intro _ m h1 h2
          rw [hall (mid - 1) (by omega) (by omega)]
          exact le_of_lt (e5 m h1 h2))
      refine ⟨(s1.trans e1).trans (r1.mono (by omega) (le_refl _)), ?_⟩
      intro x y hx hxy hy
      by_cases hxm : x < mid
      · rw [r1.2.1 x (by omega), hall x hx hxm]
        by_cases hym : y < mid
        · rw [r1.2.1 y (by omega), hall y (by omega) hym]
        · exact le_of_lt (r1.forall (fun k => keyAt d3 pivot < k) e5 y (by omega) hy)
      · exact r2 x y (by omega) hxy hy
    rw [if_neg heq]
    obtain ⟨p1, p2, p3, p4, p5⟩ := partitionCmpFunc_spec d3 a b pivot s2 s3 hb3
    generalize partitionCmpFunc d3 a b pivot = p at p1 p2 p3 p4 p5 ⊢
    obtain ⟨d4, mid, already⟩ := p
    simp only at p1 p2 p3 p4 p5 ⊢
    have hb4 : b ≤ d4.length := by rw [p1.length]; exact hb3
    have hg4 : Guarded a b d4 := hg3.step p1
    have hgr : Guarded (mid + 1) b d4 := by
      intro _ m h1 h2
      rw [Nat.add_sub_cancel]
      exact p5 m (by omega) h2
    by_cases hlr : mid - a < b - mid
    · rw [if_pos hlr]
      obtain ⟨r1, r2⟩ := ih d4 a mid limit1 true true p2 (by omega) (by omega)
        (hg4.restrict (by omega))
      generalize pdqsortCmpFunc fuel d4 a mid limit1 true true = d5 at r1 r2 ⊢
      have hfr5 : ∀ m, mid ≤ m → keyAt d5 m = keyAt d4 m := fun m hm => r1.2.1 m (by omega)
      obtain ⟨t1, t2⟩ := ih d5 (mid + 1) b limit1 (decide (mid - a ≥ (b - a) / 8)) already
        (by omega) (by rw [r1.length]; exact hb4) (by omega)
        (by
          intro _ m h1 h2
          rw [Nat.add_sub_cancel, hfr5 mid (le_refl _), hfr5 m (by omega)]
          exact p5 m (by omega) h2)
      generalize pdqsortCmpFunc fuel d5 (mid + 1) b limit1 (decide (mid - a ≥ (b - a) / 8))
        already = d6 at t1 t2 ⊢
      have hfr6 : ∀ m, m ≤ mid → keyAt d6 m = keyAt d5 m := fun m hm => t1.2.1 m (by omega)
      refine ⟨((s1.trans p1).trans (r1.mono (le_refl _) (by omega))).trans
        (t1.mono (by omega) (le_refl _)), ?_⟩
      apply sorted_join d6 a mid b
      · intro x y hx hxy hy
        rw [hfr6 x (by omega), hfr6 y (by omega)]
        exact r2 x y hx hxy hy
      · exact t2
      · intro x hx1 hx2
        rw [hfr6 x (by omega), hfr6 mid (le_refl _), hfr5 mid (le_refl _)]
        exact le_of_lt (r1.forall (fun k => k < keyAt d4 mid) p4 x hx1 hx2)
      · intro y hy1 hy2
        rw [hfr6 mid (le_refl _), hfr5 mid (le_refl _)]
        apply t1.forall (fun k => keyAt d4 mid ≤ k) _ y (by omega) hy2
        intro m h1 h2
        rw [hfr5 m (by omega)]
        exact p5 m (by omega) h2
    · rw [if_neg hlr]
      obtain ⟨r1, r2⟩ := ih d4 (mid + 1) b limit1 true true (by omega) hb4 (by omega) hgr
      generalize pdqsortCmpFunc fuel d4 (mid + 1) b limit1 true true = d5 at r1 r2 ⊢
      have hfr5 : ∀ m, m ≤ mid → keyAt d5 m = keyAt d4 m := fun m hm => r1.2.1 m (by omega)
      obtain ⟨t1, t2⟩ := ih d5 a mid limit1 (decide (b - mid ≥ (b - a) / 8)) already p2
        (by rw [r1.length]; omega) (by omega)
        (by
          intro ha0 m h1 h2
          rw [hfr5 (a - 1) (by omega), hfr5 m (by omega)]
          exact hg4 ha0 m h1 (by omega))
      generalize pdqsortCmpFunc fuel d5 a mid limit1 (decide (b - mid ≥ (b - a) / 8))
        already = d6 at t1 t2 ⊢
      have hfr6 : ∀ m, mid ≤ m → keyAt d6 m = keyAt d5 m := fun m hm => t1.2.1 m (by omega)
      refine ⟨((s1.trans p1).trans (r1.mono (by omega) (le_refl _))).trans
        (t1.mono (le_refl _) (by omega)), ?_⟩
      apply sorted_join d6 a mid b
      · exact t2
      · intro x y hx hxy hy
        rw [hfr6 x (by omega), hfr6 y (by omega)]
        exact r2 x y hx hxy hy
      · intro x hx1 hx2
        rw [hfr6 mid (le_refl _), hfr5 mid (le_refl _)]
        apply le_of_lt
        apply t1.forall (fun k => k < keyAt d4 mid) _ x hx1 hx2
        intro m h1 h2
        rw [hfr5 m (by omega)]
        exact p4 m h1 h2
      · intro y hy1 hy2
        rw [hfr6 mid (le_refl _), hfr5 mid (le_refl _), hfr6 y (by omega)]
        exact r1.forall (fun k => keyAt d4 mid ≤ k) (fun m h1 h2 => p5 m (by omega) h2) y
          (by omega) hy2

/-- The bound on the turns of the loop that shifts the greater element to the right is not
reached: a greater bound gives the same slice. -/
theorem shiftRight_fuel (b : Nat) :
    ∀ (fuel j : Nat) (d : List packageFile), b ≤ j + fuel →
      shiftRight b (fuel + 1) j d = shiftRight b fuel j d := by
  intro fuel
  induction fuel with
  | zero =>
    intro j d h
    have hjb : ¬ j < b := by omega
    simp [shiftRight, hjb]
  | succ fuel ih =>
    intro j d h
    by_cases hjb : j < b
    · by_cases hl : less d j (j - 1) = false
      · simp [shiftRight, hjb, hl]
      · have hl' : less d j (j - 1) = true := by simpa using hl
        have e1 : shiftRight b (fuel + 1 + 1) j d =
            shiftRight b (fuel + 1) (j + 1) (swap d j (j - 1)) := by
          simp [shiftRight, hjb, hl']
        have e2 : shiftRight b (fuel + 1) j d = shiftRight b fuel (j + 1) (swap d j (j - 1)) := by
          simp [shiftRight, hjb, hl']
        rw [e1, e2]
        exact ih (j + 1) _ (by omega)
    · simp [shiftRight, hjb]

/-- The bound on the turns and the depth of `pdqsortCmpFunc` is not reached: with more than
`b - a` turns allowed, one more gives the same slice. -/
theorem pdqsortCmpFunc_fuel :
    ∀ (fuel : Nat) (d : List packageFile) (a b limit : Nat) (wasBalanced wasPartitioned : Bool),
      a ≤ b → b ≤ d.length → b - a < fuel → Guarded a b d →
      pdqsortCmpFunc (fuel + 1) d a b limit wasBalanced wasPartitioned =
        pdqsortCmpFunc fuel d a b limit wasBalanced wasPartitioned := by
  intro fuel
  induction fuel with
  | zero => intro d a b _ _ _ _ _ hf; omega
  | succ fuel ih =>
    intro d a b limit wasBalanced wasPartitioned hab hb hf hg
    rw [pdqsortCmpFunc_succ (fuel + 1) d a b limit wasBalanced wasPartitioned _ rfl _ rfl _ rfl,
      pdqsortCmpFunc_succ fuel d a b limit wasBalanced wasPartitioned _ rfl _ rfl _ rfl]
    by_cases h12 : b - a ≤ 12
    · rw [if_pos h12, if_pos h12]
    rw [if_neg h12, if_neg h12]
    by_cases hlim : limit = 0
    · rw [if_pos hlim, if_pos hlim]
    rw [if_neg hlim, if_neg hlim]
    obtain ⟨s1, s2, s3, -⟩ := pdqsortPrepare_spec d a b limit wasBalanced wasPartitioned
      (by omega) hb hg
    generalize pdqsortPrepare d a b limit wasBalanced wasPartitioned = s at s1 s2 s3 ⊢
    obtain ⟨⟨d3, done⟩, pivot, limit1⟩ := s
    simp only at s1 s2 s3 ⊢
    have hb3 : b ≤ d3.length := by rw [s1.length]; exact hb
    have hg3 : Guarded a b d3 := hg.step s1
    by_cases hdone : done = true
    · rw [if_pos hdone, if_pos hdone]
    rw [if_neg hdone, if_neg hdone]
    by_cases heq : a > 0 ∧ less d3 (a - 1) pivot = false
    · rw [if_pos heq, if_pos heq]
      obtain ⟨ha0, hle⟩ := heq
      have hle' := (less_false_iff d3 (a - 1) pivot (by omega) (by omega)).1 hle
      obtain ⟨e1, e2, e3, e4, e5⟩ := partitionEqualCmpFunc_spec d3 a b pivot s2 s3 hb3
      generalize partitionEqualCmpFunc d3 a b pivot = pe at e1 e2 e3 e4 e5 ⊢
      obtain ⟨d4, mid⟩ := pe
      simp only at e1 e2 e3 e4 e5 ⊢
      have hg4 : Guarded a b d4 := hg3.step e1
      have hka : keyAt d4 (a - 1) = keyAt d3 (a - 1) := e1.2.1 (a - 1) (by omega)
      apply ih d4 mid b limit1 wasBalanced wasPartitioned e3 (by rw [e1.length]; exact hb3)
        (by omega)
      intro _ m h1 h2
      have k1 := hg4 ha0 (mid - 1) (by omega) (by omega)
      have k2 := e4 (mid - 1) (by omega) (by omega)
      have k3 := e5 m h1 h2
      omega
    rw [if_neg heq, if_neg heq]
    obtain ⟨p1, p2, p3, p4, p5⟩ := partitionCmpFunc_spec d3 a b pivot s2 s3 hb3
    generalize partitionCmpFunc d3 a b pivot = p at p1 p2 p3 p4 p5 ⊢
    obtain ⟨d4, mid, already⟩ := p
    simp only at p1 p2 p3 p4 p5 ⊢
    have hb4 : b ≤ d4.length := by rw [p1.length]; exact hb3
    have hg4 : Guarded a b d4 := hg3.step p1
    have hgr : Guarded (mid + 1) b d4 := by
      intro _ m h1 h2
      rw [Nat.add_sub_cancel]
      exact p5 m (by omega) h2
    by_cases hlr : mid - a < b - mid
    · rw [if_pos hlr, if_pos hlr]
      rw [ih d4 a mid limit1 true true p2 (by omega) (by omega) (hg4.restrict (by omega))]
      obtain ⟨r1, -⟩ := pdqsortCmpFunc_spec fuel d4 a mid limit1 true true p2 (by omega)
        (by omega) (hg4.restrict (by omega))
      generalize pdqsortCmpFunc fuel d4 a mid limit1 true true = d5 at r1 ⊢
      apply ih d5 (mid + 1) b limit1 _ already (by omega) (by rw [r1.length]; exact hb4)
        (by omega)
      intro _ m h1 h2
      rw [Nat.add_sub_cancel, r1.2.1 mid (by omega), r1.2.1 m (by omega)]
      exact p5 m (by omega) h2
    · rw [if_neg hlr, if_neg hlr]
      rw [ih d4 (mid + 1) b limit1 true true (by omega) hb4 (by omega) hgr]
      obtain ⟨r1, -⟩ := pdqsortCmpFunc_spec fuel d4 (mid + 1) b limit1 true true (by omega) hb4
        (by omega) hgr
      generalize pdqsortCmpFunc fuel d4 (mid + 1) b limit1 true true = d5 at r1 ⊢
      apply ih d5 a mid limit1 _ already p2 (by rw [r1.length]; omega) (by omega)
      intro ha0 m h1 h2
      rw [r1.2.1 (a - 1) (by omega), r1.2.1 m (by omega)]
      exact hg4 ha0 m h1 (by omega)

/-! ## The sorted files -/

theorem SortFunc_spec (l : List packageFile) :
    Step 0 l.length l (SortFunc l) ∧ SortedRange (SortFunc l) 0 l.length := by
  unfold SortFunc
  exact pdqsortCmpFunc_spec (l.length + 1) l 0 l.length (bitsLen l.length) true true
    (Nat.zero_le _) (le_refl _) (by omega) (fun h => absurd h (by omega))

theorem SortFunc_perm (l : List packageFile) : (SortFunc l).Perm l :=
  (SortFunc_spec l).1.1

theorem SortFunc_length (l : List packageFile) : (SortFunc l).length = l.length :=
  (SortFunc_perm l).length_eq

theorem SortFunc_sorted (l : List packageFile) :
    (SortFunc l).Pairwise (fun a b => a.mtime ≤ b.mtime) := by
  rw [List.pairwise_iff_getElem]
  intro i j hi hj hij
  have h := (SortFunc_spec l).2 i j (Nat.zero_le _) (le_of_lt hij)
    (by rw [← SortFunc_length l]; exact hj)
  rw [keyAt_of_getElem? _ i _ (List.getElem?_eq_getElem hi),
    keyAt_of_getElem? _ j _ (List.getElem?_eq_getElem hj)] at h
  exact h

/-- A slice of at most 12 files is sorted by insertion. -/
theorem SortFunc_small (l : List packageFile) (h : l.length ≤ 12) :
    SortFunc l = insertionSort l := by
  unfold SortFunc
  simp [pdqsortCmpFunc, h, insertionSortCmpFunc]

theorem SortFunc_eq_of_perm (l1 l2 : List packageFile) (hp : l1.Perm l2)
    (hd : l1.Pairwise (fun a b => a.mtime ≠ b.mtime)) : SortFunc l1 = SortFunc l2 := by
  apply sorted_perm_unique _ _ (((SortFunc_perm l1).trans hp).trans (SortFunc_perm l2).symm)
    (SortFunc_sorted l1) (SortFunc_sorted l2)
  exact ((SortFunc_perm l1).pairwise_iff (fun {a b} (h : a.mtime ≠ b.mtime) => h.symm)).2 hd


/-- Where the sort is stable (at most 12 files) or has no choice (no two files of equal
modification time), sorting a selection of the files gives the selection of the sorted files. -/
theorem SortFunc_filter (P : packageFile → Bool) (l : List packageFile)
    (h : l.length ≤ 12 ∨ l.Pairwise (fun a b => a.mtime ≠ b.mtime)) :
    SortFunc (l.filter P) = (SortFunc l).filter P := by
  rcases h with h | h
  · rw [SortFunc_small l h,
      SortFunc_small _ (le_trans (List.length_filter_le _ _) h), insertionSort_filter]
  · apply sorted_perm_unique _ _
      ((SortFunc_perm _).trans ((SortFunc_perm l).filter P).symm)
      (SortFunc_sorted _) ((SortFunc_sorted l).sublist (List.filter_sublist _))
    exact ((SortFunc_perm _).pairwise_iff (fun {a b} (h : a.mtime ≠ b.mtime) => h.symm)).2
      (h.sublist (List.filter_sublist _))

/-- The result of `slices.SortFunc` does not depend on the bound on the turns: every bound
above the length of the slice gives the same list. -/
theorem SortFunc_fuel (files : List packageFile) (fuel : Nat) (h : files.length < fuel) :
    pdqsortCmpFunc fuel files 0 files.length (bitsLen files.length) true true =
      SortFunc files := by
  unfold SortFunc
  induction fuel with
  | zero => omega
  | succ fuel ih =>
    by_cases hf : files.length < fuel
    · rw [pdqsortCmpFunc_fuel fuel files 0 files.length _ true true (Nat.zero_le _) (le_refl _)
        (by omega) (fun h0 => absurd h0 (by omega))]
      exact ih hf
    · have : fuel = files.length := by omega
      rw [this]


/-! ## The scan -/

theorem mapSet_keys (packages : List (String × archPackage)) (m : String) (val : archPackage) :
    (mapSet packages m val).map Prod.fst = packages.map Prod.fst := by
  unfold mapSet
  rw [List.map_map]
  apply List.map_congr_left
  intro kv _
  by_cases h : kv.1 = m <;> simp [h]

theorem groupFiles_append (repoName : String) (filed : List WalkEntry) (e : WalkEntry)
    (m : String) :
    groupFiles repoName (filed ++ [e]) m =
      groupFiles repoName filed m ++ (if mapNameOf repoName e = m then [toPackageFile e] else []) := by
  unfold groupFiles
  by_cases h : mapNameOf repoName e = m <;> simp [List.filter_append, List.filter_cons, h]

theorem walkfn_inv (repoName : String) (filed : List WalkEntry)
    (packages packages' : List (String × archPackage)) (e : WalkEntry)
    (hinv : WalkInv repoName filed packages)
    (h : walkfn repoName packages e = some packages') :
    e.err = false ∧
      WalkInv repoName (filed ++ (if isPackage e = true then [e] else [])) packages' := by
  obtain ⟨hnd, hcov, hgrp⟩ := hinv
  unfold walkfn at h
  by_cases herr : e.err = true
  · simp [herr] at h
  have herr' : e.err = false := by simpa using herr
  refine ⟨herr', ?_⟩
  simp only [herr', Bool.false_eq_true, if_false] at h
  by_cases hreg : e.regular = true
  swap
  · have hreg' : e.regular = false := by simpa using hreg
    simp only [hreg', Bool.not_false, if_true, Option.some.injEq] at h
    subst h
    have e0 : (if isPackage e = true then [e] else []) = [] := by simp [isPackage, hreg']
    rw [e0, List.append_nil]
    exact ⟨hnd, hcov, hgrp⟩
  simp only [hreg, Bool.not_true, Bool.false_eq_true, if_false] at h
  by_cases hlen : (FindStringSubmatch (Base e.path)).length = 0
  · simp only [hlen, if_true, Option.some.injEq] at h
    subst h
    have e0 : (if isPackage e = true then [e] else []) = [] := by simp [isPackage, hlen]
    rw [e0, List.append_nil]
    exact ⟨hnd, hcov, hgrp⟩
  simp only [hlen, if_false] at h
  have hpk : isPackage e = true := by simp [isPackage, hreg, hlen]
  simp only [hpk, if_true]
  have hkey : repoName ++ "/" ++ (FindStringSubmatch (Base e.path)).getD 1 "" =
      mapNameOf repoName e := rfl
  rw [hkey] at h
  cases hf : List.find? (fun kv => decide (kv.1 = mapNameOf repoName e)) packages with
  | some kv =>
    obtain ⟨k, val⟩ := kv
    rw [hf] at h
    simp only [Option.some.injEq] at h
    have hk : k = mapNameOf repoName e := by simpa using List.find?_some hf
    have hmem : (k, val) ∈ packages := List.mem_of_find?_eq_some hf
    subst h
    refine ⟨by rw [mapSet_keys]; exact hnd, ?_, ?_⟩
    · intro e' he'
      rw [mapSet_keys]
      rcases List.mem_append.1 he' with he' | he'
      · exact hcov e' he'
      · rw [List.mem_singleton.1 he', ← hk]
        exact List.mem_map_of_mem Prod.fst hmem
    · intro kv' hkv'
      unfold mapSet at hkv'
      obtain ⟨kv, hkv, rfl⟩ := List.mem_map.1 hkv'
      by_cases hkk : kv.1 = mapNameOf repoName e
      · simp only [hkk, if_true]
        obtain ⟨g1, g2, g3, g4, _⟩ := hgrp (k, val) hmem
        simp only at g1 g2 g3 g4
        refine ⟨?_, ?_, ?_, g4, e, by simp, rfl⟩
        · rw [groupFiles_append, g1, hk]; simp
        · simp [g2]
        · rw [← hk]; exact g3
      · simp only [hkk, if_false]
        obtain ⟨g1, g2, g3, g4, e0, he0, hk0⟩ := hgrp kv hkv
        refine ⟨?_, g2, g3, g4, e0, List.mem_append_left _ he0, hk0⟩
        rw [groupFiles_append, g1]
        have hne : ¬ mapNameOf repoName e = kv.1 := fun h => hkk h.symm
        simp [hne]
  | none =>
    rw [hf] at h
    simp only [Option.some.injEq] at h
    have hnot : mapNameOf repoName e ∉ packages.map Prod.fst := by
      intro hm
      obtain ⟨kv, hkv, hk⟩ := List.mem_map.1 hm
      have := List.find?_eq_none.1 hf kv hkv
      simp [hk] at this
    subst h
    refine ⟨?_, ?_, ?_⟩
    · rw [List.map_append, List.nodup_append]
      refine ⟨hnd, by simp, ?_⟩
      intro a ha hb
      simp only [List.map_cons, List.map_nil, List.mem_singleton] at hb
      exact hnot (hb ▸ ha)
    · intro e' he'
      rw [List.map_append]
      rcases List.mem_append.1 he' with he' | he'
      · exact List.mem_append_left _ (hcov e' he')
      · rw [List.mem_singleton.1 he']; simp
    · intro kv hkv
      rcases List.mem_append.1 hkv with hkv | hkv
      · obtain ⟨g1, g2, g3, g4, e0, he0, hk0⟩ := hgrp kv hkv
        refine ⟨?_, g2, g3, g4, e0, List.mem_append_left _ he0, hk0⟩
        rw [groupFiles_append, g1]
        have : mapNameOf repoName e ≠ kv.1 := fun h =>
          hnot (h ▸ List.mem_map_of_mem Prod.fst hkv)
        simp [this]
      · rw [List.mem_singleton.1 hkv]
        refine ⟨?_, by simp, rfl, rfl, e, by simp, rfl⟩
        rw [groupFiles_append]
        have : groupFiles repoName filed (mapNameOf repoName e) = [] := by
          unfold groupFiles
          rw [List.map_eq_nil_iff, List.filter_eq_nil_iff]
          intro e' he' hk
          exact hnot ((of_decide_eq_true hk) ▸ hcov e' he')
        simp [this]

theorem Walk_inv (repoName : String) : ∀ (entries filed : List WalkEntry)
    (packages : List (String × archPackage)), WalkInv repoName filed packages →
    WalkInv repoName (filed ++ scanned entries) (Walk repoName entries packages) := by
  intro entries
  induction entries with
  | nil => intro filed packages h; simpa [scanned, Walk] using h
  | cons e es ih =>
    intro filed packages h
    unfold Walk
    cases hw : walkfn repoName packages e with
    | none =>
      have herr : e.err = true := by
        unfold walkfn at hw
        by_cases herr : e.err = true
        · exact herr
        · exfalso
          simp only [herr, if_false] at hw
          by_cases hreg : (!e.regular) = true
          · simp [hreg] at hw
          · simp only [hreg, if_false] at hw
            by_cases hlen : (FindStringSubmatch (Base e.path)).length = 0
            · simp [hlen] at hw
            · cases hf : List.find? (fun kv => decide (kv.1 =
                  repoName ++ "/" ++ (FindStringSubmatch (Base e.path)).getD 1 "")) packages with
              | none =>
                simp only [hlen, if_false] at hw
                rw [hf] at hw
                cases hw
              | some kv =>
                simp only [hlen, if_false] at hw
                rw [hf] at hw
                cases hw
      simpa [scanned, List.takeWhile_cons, herr] using h
    | some packages' =>
      obtain ⟨herr, hinv⟩ := walkfn_inv repoName filed packages packages' e h hw
      have := ih _ _ hinv
      have hsc : scanned (e :: es) = (if isPackage e = true then [e] else []) ++ scanned es := by
        unfold scanned
        by_cases hp : isPackage e = true <;> simp [List.takeWhile_cons, herr, List.filter_cons, hp]
      simpa [hsc, List.append_assoc] using this

theorem Walk_spec (repoName : String) (entries : List WalkEntry) :
    WalkInv repoName (scanned entries) (Walk repoName entries []) := by
  have := Walk_inv repoName entries [] [] ⟨by simp, by simp, by simp⟩
  simpa using this


/-! ## The purge loops in closed form -/

theorem rangeFiles_spec (keep threshold : Int) (len : Nat) :
    ∀ (fs : List packageFile) (index : Nat) (st : PassState),
      rangeFiles keep threshold len index fs st =
        { packageSize := st.packageSize + (fs.map packageFile.size).sum -
            (((fs.take ((len : Int) - keep - index).toNat).filter
              (fun f => decide (f.atime < threshold))).map packageFile.size).sum,
          packageNum := st.packageNum + fs.length -
            ((fs.take ((len : Int) - keep - index).toNat).filter
              (fun f => decide (f.atime < threshold))).length,
          removeCalls := st.removeCalls ++
            ((fs.take ((len : Int) - keep - index).toNat).filter
              (fun f => decide (f.atime < threshold))).flatMap removeCallsOf } := by
  intro fs
  induction fs with
  | nil => intro index st; simp [rangeFiles]
  | cons val rest ih =>
    intro index st
    unfold rangeFiles
    by_cases hidx : (index : Int) ≥ (len : Int) - keep
    · have h0 : ((len : Int) - keep - index).toNat = 0 := by omega
      have h1 : ((len : Int) - keep - ((index + 1 : Nat) : Int)).toNat = 0 := by omega
      simp only [hidx, if_true]
      rw [ih, h0, h1]
      simp
      constructor <;> ring
    · have h0 : ((len : Int) - keep - index).toNat =
          ((len : Int) - keep - ((index + 1 : Nat) : Int)).toNat + 1 := by omega
      simp only [hidx, if_false]
      by_cases hold : val.atime < threshold
      · simp only [hold, if_true]
        rw [ih, h0]
        simp [List.take_succ_cons, List.filter_cons, hold, removeCallsOf]
        constructor <;> ring
      · simp only [hold, if_false]
        rw [ih, h0]
        simp [List.take_succ_cons, List.filter_cons, hold]
        constructor <;> ring

/-- The state after the loop over the packages, in closed form. -/
theorem rangePackages_spec (keep threshold : Int) :
    ∀ (packages : List (String × archPackage)) (st : PassState),
      rangePackages keep threshold packages st =
        { packageSize := st.packageSize +
            ((packages.flatMap (fun kv => kv.2.files)).map packageFile.size).sum -
            ((packages.flatMap (fun kv => staleOf keep threshold kv.2.files)).map
              packageFile.size).sum,
          packageNum := st.packageNum + (packages.flatMap (fun kv => kv.2.files)).length -
            (packages.flatMap (fun kv => staleOf keep threshold kv.2.files)).length,
          removeCalls := st.removeCalls ++
            (packages.flatMap (fun kv => staleOf keep threshold kv.2.files)).flatMap
              removeCallsOf } := by
  intro packages
  induction packages with
  | nil => intro st; simp [rangePackages]
  | cons kv rest ih =>
    intro st
    obtain ⟨k, pkg⟩ := kv
    unfold rangePackages
    simp only
    rw [ih, rangeFiles_spec]
    have hlen : (SortFunc pkg.files).length = pkg.files.length := SortFunc_length _
    have hsum : ((SortFunc pkg.files).map packageFile.size).sum =
        (pkg.files.map packageFile.size).sum := ((SortFunc_perm pkg.files).map _).sum_eq
    have hst : ((SortFunc pkg.files).take (((SortFunc pkg.files).length : Int) - keep - (0 : Nat)).toNat).filter
        (fun f => decide (f.atime < threshold)) = staleOf keep threshold pkg.files := by
      unfold staleOf candidates
      rw [hlen]
      simp
    rw [hst, hsum, hlen]
    simp [List.flatMap_cons]
    constructor <;> ring


/-! ## The pass as a whole -/

theorem purgeStaleFiles_eq (now : Int) (walk : String → List WalkEntry) (cacheDir : String)
    (purgeFilesAfter keep : Int) (repoName : String) (h : purgeFilesAfter ≠ 0) :
    purgeStaleFiles now walk cacheDir purgeFilesAfter keep repoName =
      Outcome.done
        ((removedFiles keep (removeIfOlder now purgeFilesAfter)
          (Walk repoName (walk (pkgDir cacheDir repoName)) [])).flatMap removeCallsOf)
        (((allFiles (Walk repoName (walk (pkgDir cacheDir repoName)) [])).length : Int) -
          (removedFiles keep (removeIfOlder now purgeFilesAfter)
            (Walk repoName (walk (pkgDir cacheDir repoName)) [])).length)
        (((allFiles (Walk repoName (walk (pkgDir cacheDir repoName)) [])).map
            packageFile.size).sum -
          ((removedFiles keep (removeIfOlder now purgeFilesAfter)
            (Walk repoName (walk (pkgDir cacheDir repoName)) [])).map packageFile.size).sum) := by
  unfold purgeStaleFiles
  simp only [h, if_false]
  rw [rangePackages_spec]
  simp [allFiles, removedFiles]

theorem staleOf_subset (keep threshold : Int) (files : List packageFile) (f : packageFile)
    (h : f ∈ staleOf keep threshold files) : f ∈ files := by
  unfold staleOf candidates at h
  exact (SortFunc_perm files).subset (List.mem_of_mem_take (List.mem_filter.1 h).1)

theorem scanned_sublist (entries : List WalkEntry) : (scanned entries).Sublist entries :=
  (List.filter_sublist _).trans (List.takeWhile_sublist _)

theorem mem_scanned_isPackage (entries : List WalkEntry) (e : WalkEntry)
    (h : e ∈ scanned entries) : isPackage e = true :=
  (List.mem_filter.1 h).2

theorem mem_groupFiles (repoName : String) (filed : List WalkEntry) (m : String)
    (f : packageFile) (h : f ∈ groupFiles repoName filed m) :
    ∃ e ∈ filed, mapNameOf repoName e = m ∧ f = toPackageFile e := by
  unfold groupFiles at h
  obtain ⟨e, he, rfl⟩ := List.mem_map.1 h
  exact ⟨e, (List.mem_filter.1 he).1, of_decide_eq_true (List.mem_filter.1 he).2, rfl⟩

theorem groupFiles_nodup (repoName : String) (filed : List WalkEntry) (m : String)
    (hnd : (filed.map WalkEntry.path).Nodup) : (groupFiles repoName filed m).Nodup := by
  unfold groupFiles
  have h1 : ((filed.filter (fun e => mapNameOf repoName e = m)).map WalkEntry.path).Nodup :=
    hnd.sublist ((List.filter_sublist _).map _)
  have h2 : (((filed.filter (fun e => mapNameOf repoName e = m)).map toPackageFile).map
      packageFile.path).Nodup := by
    rw [List.map_map]
    exact h1
  exact List.Nodup.of_map _ h2

/-- With pairwise distinct paths, `os.Remove` is called with the path of a filed record exactly
when the record is a stale deletion candidate of its group. -/
theorem mem_calls_iff (repoName : String) (entries : List WalkEntry) (keep threshold : Int)
    (hnd : (entries.map WalkEntry.path).Nodup)
    (kv : String × archPackage) (hkv : kv ∈ Walk repoName entries [])
    (f : packageFile) (hf : f ∈ kv.2.files) :
    f.path ∈ (removedFiles keep threshold (Walk repoName entries [])).flatMap removeCallsOf ↔
      f ∈ staleOf keep threshold kv.2.files := by
  obtain ⟨_, _, hgrp⟩ := Walk_spec repoName entries
  have hnd' : ((scanned entries).map WalkEntry.path).Nodup :=
    hnd.sublist ((scanned_sublist entries).map _)
  constructor
  · intro h
    obtain ⟨f', hf', hq⟩ := List.mem_flatMap.1 h
    obtain ⟨kv', hkv', hst⟩ := List.mem_flatMap.1 hf'
    have hf'' : f' ∈ kv'.2.files := staleOf_subset _ _ _ _ hst
    rw [(hgrp kv hkv).1] at hf
    rw [(hgrp kv' hkv').1] at hf''
    obtain ⟨e, he, hke, rfl⟩ := mem_groupFiles _ _ _ _ hf
    obtain ⟨e', he', hke', rfl⟩ := mem_groupFiles _ _ _ _ hf''
    simp only [removeCallsOf, List.mem_cons, List.mem_singleton, List.not_mem_nil, or_false] at hq
    rcases hq with hq | hq
    · have hee : e = e' := List.inj_on_of_nodup_map hnd' he he' hq
      subst hee
      have hkk : kv.2.files = kv'.2.files := by
        rw [(hgrp kv hkv).1, (hgrp kv' hkv').1, ← hke, ← hke']
      rw [hkk]
      exact hst
    · exfalso
      have hp := mem_scanned_isPackage entries e he
      have hsig := FindStringSubmatch_sig (toPackageFile e').path
      have hq' : e.path = (toPackageFile e').path ++ ".sig" := hq
      rw [← hq'] at hsig
      simp [isPackage, hsig] at hp
  · intro h
    refine List.mem_flatMap.2 ⟨f, List.mem_flatMap.2 ⟨kv, hkv, h⟩, ?_⟩
    simp [removeCallsOf]

theorem files_nodup (repoName : String) (entries : List WalkEntry)
    (hnd : (entries.map WalkEntry.path).Nodup)
    (kv : String × archPackage) (hkv : kv ∈ Walk repoName entries []) :
    (SortFunc kv.2.files).Nodup := by
  obtain ⟨_, _, hgrp⟩ := Walk_spec repoName entries
  rw [(SortFunc_perm _).nodup_iff, (hgrp kv hkv).1]
  exact groupFiles_nodup _ _ _ (hnd.sublist ((scanned_sublist entries).map _))

theorem not_mem_take_of_le (l : List packageFile) (hnd : l.Nodup) (m i : Nat) (f : packageFile)
    (hi : l[i]? = some f) (hm : m ≤ i) : f ∉ l.take m := by
  intro hmem
  have hdrop : f ∈ l.drop m := by
    have : (l.drop m)[i - m]? = some f := by
      rw [List.getElem?_drop]
      rw [show m + (i - m) = i by omega]
      exact hi
    exact List.getElem?_mem this
  rw [← List.take_append_drop m l] at hnd
  exact (List.nodup_append.1 hnd).2.2 hmem hdrop

theorem mem_take_of_lt (l : List packageFile) (m i : Nat) (f : packageFile)
    (hi : l[i]? = some f) (hm : i < m) : f ∈ l.take m := by
  have : (l.take m)[i]? = some f := by
    rw [List.getElem?_take_of_lt hm]; exact hi
  exact List.getElem?_mem this

theorem wrapInt64_of_range (x : Int) (h1 : -9223372036854775808 ≤ x)
    (h2 : x < 9223372036854775808) : wrapInt64 x = x := by
  unfold wrapInt64
  norm_num
  omega

theorem removeIfOlder_eq (now purgeFilesAfter : Int) (h1 : -9223372036 ≤ purgeFilesAfter)
    (h2 : purgeFilesAfter ≤ 9223372036) :
    removeIfOlder now purgeFilesAfter = now - purgeFilesAfter * 1000000000 := by
  unfold removeIfOlder purgeDuration Second
  rw [wrapInt64_of_range (-purgeFilesAfter) (by omega) (by omega)]
  rw [wrapInt64_of_range _ (by omega) (by omega)]
  ring

/-- The files of the protected tail of a group are not among the `os.Remove` arguments. -/
theorem tail_not_removed (repoName : String) (entries : List WalkEntry) (keep threshold : Int)
    (hnd : (entries.map WalkEntry.path).Nodup)
    (kv : String × archPackage) (hkv : kv ∈ Walk repoName entries [])
    (g : packageFile)
    (hg : g ∈ (SortFunc kv.2.files).drop ((kv.2.files.length : Int) - keep).toNat) :
    g.path ∉ (removedFiles keep threshold (Walk repoName entries [])).flatMap removeCallsOf := by
  have hS := files_nodup repoName entries hnd kv hkv
  have hgf : g ∈ kv.2.files := (SortFunc_perm _).subset (List.mem_of_mem_drop hg)
  rw [mem_calls_iff repoName entries keep threshold hnd kv hkv g hgf]
  intro hst
  have htake : g ∈ (SortFunc kv.2.files).take ((kv.2.files.length : Int) - keep).toNat :=
    (List.mem_filter.1 hst).1
  rw [← List.take_append_drop ((kv.2.files.length : Int) - keep).toNat (SortFunc kv.2.files)] at hS
  exact (List.nodup_append.1 hS).2.2 htake hg

/-- A deletion candidate is among the `os.Remove` arguments exactly when it is stale. -/
theorem candidate_removed_iff (repoName : String) (entries : List WalkEntry)
    (keep threshold : Int) (hnd : (entries.map WalkEntry.path).Nodup)
    (kv : String × archPackage) (hkv : kv ∈ Walk repoName entries [])
    (g : packageFile)
    (hg : g ∈ (SortFunc kv.2.files).take ((kv.2.files.length : Int) - keep).toNat) :
    g.path ∈ (removedFiles keep threshold (Walk repoName entries [])).flatMap removeCallsOf ↔
      g.atime < threshold := by
  have hgf : g ∈ kv.2.files := (SortFunc_perm _).subset (List.mem_of_mem_take hg)
  rw [mem_calls_iff repoName entries keep threshold hnd kv hkv g hgf]
  unfold staleOf candidates
  simp [List.mem_filter, hg]


/-! ## Files present after the `os.Remove` calls -/

theorem osRemove_eq_filter (removeFails : String → Bool) (disk : List WalkEntry)
    (path : String) :
    osRemove removeFails disk path =
      disk.filter (fun e => decide (e.path = path → removeFails e.path = true)) := by
  unfold osRemove
  by_cases hf : removeFails path = true
  · simp only [hf, if_true]
    symm
    rw [List.filter_eq_self]
    intro e _
    simp only [decide_eq_true_eq]
    intro h
    rw [h]
    exact hf
  · have hf' : removeFails path = false := by simpa using hf
    simp only [hf', Bool.false_eq_true, if_false]
    apply List.filter_congr
    intro e _
    by_cases he : e.path = path
    · simp [he, hf']
    · simp [he]

theorem diskAfter_eq_filter (removeFails : String → Bool) : ∀ (calls : List String)
    (disk : List WalkEntry),
    diskAfter removeFails calls disk =
      disk.filter (fun e => decide (e.path ∈ calls → removeFails e.path = true)) := by
  intro calls
  induction calls with
  | nil => intro disk; simp [diskAfter]
  | cons q qs ih =>
    intro disk
    have := ih (osRemove removeFails disk q)
    unfold diskAfter at this ⊢
    rw [List.foldl_cons, this, osRemove_eq_filter, List.filter_filter]
    apply List.filter_congr
    intro e _
    by_cases he : e.path = q
    · by_cases hf : removeFails e.path = true <;> simp [he, hf] <;> simp [← he, hf]
    · simp [he]

theorem mem_diskAfter (removeFails : String → Bool) (calls : List String)
    (disk : List WalkEntry) (e : WalkEntry) :
    e ∈ diskAfter removeFails calls disk ↔
      e ∈ disk ∧ (e.path ∈ calls → removeFails e.path = true) := by
  rw [diskAfter_eq_filter, List.mem_filter, decide_eq_true_eq]


theorem mem_scanned (entries : List WalkEntry) (e : WalkEntry) (h : e ∈ scanned entries) :
    e ∈ entries ∧ e.err = false ∧ e.regular = true ∧
      (FindStringSubmatch (Base e.path)).length ≠ 0 := by
  have h1 := (List.mem_filter.1 h).1
  have h2 := (List.mem_filter.1 h).2
  have h3 := List.mem_takeWhile_imp h1
  simp only [isPackage, Bool.and_eq_true, bne_iff_ne, ne_eq] at h2
  exact ⟨(List.takeWhile_sublist _).subset h1, by simpa using h3, h2.1, h2.2⟩

/-- Every `os.Remove` argument comes from a stale deletion candidate of some group. -/
theorem mem_calls_origin (repoName : String) (entries : List WalkEntry) (keep threshold : Int)
    (q : String)
    (hq : q ∈ (removedFiles keep threshold (Walk repoName entries [])).flatMap removeCallsOf) :
    ∃ e ∈ scanned entries, ∃ kv ∈ Walk repoName entries [], ∃ i : Nat,
      (SortFunc kv.2.files)[i]? = some (toPackageFile e) ∧
      (i : Int) < (kv.2.files.length : Int) - keep ∧
      e.accessTime < threshold ∧ (q = e.path ∨ q = e.path ++ ".sig") := by
  obtain ⟨_, _, hgrp⟩ := Walk_spec repoName entries
  obtain ⟨f, hf, hqf⟩ := List.mem_flatMap.1 hq
  obtain ⟨kv, hkv, hst⟩ := List.mem_flatMap.1 hf
  have hff : f ∈ kv.2.files := staleOf_subset _ _ _ _ hst
  rw [(hgrp kv hkv).1] at hff
  obtain ⟨e, he, _, rfl⟩ := mem_groupFiles _ _ _ _ hff
  unfold staleOf candidates at hst
  obtain ⟨htake, hold⟩ := List.mem_filter.1 hst
  obtain ⟨i, hi⟩ := List.getElem?_of_mem htake
  have hilt : i < ((SortFunc kv.2.files).take ((kv.2.files.length : Int) - keep).toNat).length := by
    by_contra hge
    rw [List.getElem?_eq_none (by omega)] at hi
    cases hi
  rw [List.length_take] at hilt
  have him : i < ((kv.2.files.length : Int) - keep).toNat := by omega
  rw [List.getElem?_take_of_lt him] at hi
  refine ⟨e, he, kv, hkv, i, hi, by omega, of_decide_eq_true hold, ?_⟩
  simpa [removeCallsOf] using hqf


/-! ## The pass in terms of the filed entries -/

theorem removedFiles_eq_keys (repoName : String) (entries : List WalkEntry)
    (keep threshold : Int) :
    removedFiles keep threshold (Walk repoName entries []) =
      ((Walk repoName entries []).map Prod.fst).flatMap
        (fun k => staleOf keep threshold (groupFiles repoName (scanned entries) k)) := by
  obtain ⟨_, _, hgrp⟩ := Walk_spec repoName entries
  unfold removedFiles
  rw [List.flatMap_map]
  apply List.flatMap_congr
  intro kv hkv
  rw [(hgrp kv hkv).1]

theorem allFiles_eq_keys (repoName : String) (entries : List WalkEntry) :
    allFiles (Walk repoName entries []) =
      ((Walk repoName entries []).map Prod.fst).flatMap
        (fun k => groupFiles repoName (scanned entries) k) := by
  obtain ⟨_, _, hgrp⟩ := Walk_spec repoName entries
  unfold allFiles
  rw [List.flatMap_map]
  apply List.flatMap_congr
  intro kv hkv
  rw [(hgrp kv hkv).1]

theorem scanned_of_no_err (entries : List WalkEntry) (h : ∀ e ∈ entries, e.err = false) :
    scanned entries = entries.filter isPackage := by
  unfold scanned
  congr 1
  rw [List.takeWhile_eq_self_iff]
  intro e he
  simp [h e he]

theorem mem_keys_iff (repoName : String) (entries : List WalkEntry) (k : String) :
    k ∈ (Walk repoName entries []).map Prod.fst ↔
      ∃ e ∈ scanned entries, mapNameOf repoName e = k := by
  obtain ⟨_, hcov, hgrp⟩ := Walk_spec repoName entries
  constructor
  · intro hk
    obtain ⟨kv, hkv, rfl⟩ := List.mem_map.1 hk
    exact (hgrp kv hkv).2.2.2.2
  · rintro ⟨e, he, rfl⟩
    exact hcov e he

theorem keys_perm (repoName : String) (es1 es2 : List WalkEntry)
    (h : (scanned es1).Perm (scanned es2)) :
    ((Walk repoName es1 []).map Prod.fst).Perm ((Walk repoName es2 []).map Prod.fst) := by
  rw [List.perm_ext_iff_of_nodup (Walk_spec repoName es1).1 (Walk_spec repoName es2).1]
  intro k
  rw [mem_keys_iff, mem_keys_iff]
  constructor
  · rintro ⟨e, he, hk⟩; exact ⟨e, h.subset he, hk⟩
  · rintro ⟨e, he, hk⟩; exact ⟨e, h.symm.subset he, hk⟩

theorem staleOf_congr (keep threshold : Int) (f1 f2 : List packageFile) (hp : f1.Perm f2)
    (hd : f1.Pairwise (fun a b => a.mtime ≠ b.mtime)) :
    staleOf keep threshold f1 = staleOf keep threshold f2 := by
  unfold staleOf candidates
  rw [SortFunc_eq_of_perm f1 f2 hp hd, hp.length_eq]

theorem groupFiles_perm (repoName : String) (sc1 sc2 : List WalkEntry) (h : sc1.Perm sc2)
    (k : String) : (groupFiles repoName sc1 k).Perm (groupFiles repoName sc2 k) :=
  (h.filter _).map _


/-! ## The files that survive a pass -/

theorem partition_perm {α κ : Type} [DecidableEq κ] (f : α → κ) :
    ∀ (keys : List κ) (l : List α), keys.Nodup → (∀ x ∈ l, f x ∈ keys) →
      (keys.flatMap (fun k => l.filter (fun x => decide (f x = k)))).Perm l := by
  intro keys
  induction keys with
  | nil =>
    intro l _ h
    cases l with
    | nil => simp
    | cons x xs => exact absurd (h x (List.mem_cons_self _ _)) (List.not_mem_nil _)
  | cons k ks ih =>
    intro l hnd hcov
    rw [List.nodup_cons] at hnd
    rw [List.flatMap_cons]
    have hrest : ks.flatMap (fun k' => l.filter (fun x => decide (f x = k'))) =
        ks.flatMap (fun k' => (l.filter (fun x => !decide (f x = k))).filter
          (fun x => decide (f x = k'))) := by
      apply List.flatMap_congr
      intro k' hk'
      rw [List.filter_filter]
      apply List.filter_congr
      intro x _
      have hne : k' ≠ k := fun h => hnd.1 (h ▸ hk')
      by_cases hx : f x = k'
      · simp [hx, hne]
      · simp [hx]
    rw [hrest]
    have ih' := ih (l.filter (fun x => !decide (f x = k))) hnd.2 (by
      intro x hx
      have hx' := List.mem_filter.1 hx
      rcases List.mem_cons.1 (hcov x hx'.1) with h | h
      · simp [h] at hx'
      · exact h)
    exact (List.Perm.append_left _ ih').trans (List.filter_append_perm _ l)

theorem allFiles_perm (repoName : String) (entries : List WalkEntry) :
    (allFiles (Walk repoName entries [])).Perm ((scanned entries).map toPackageFile) := by
  obtain ⟨hnd, hcov, _⟩ := Walk_spec repoName entries
  rw [allFiles_eq_keys]
  unfold groupFiles
  rw [← List.map_flatMap]
  exact (partition_perm (mapNameOf repoName) _ _ hnd hcov).map _

/-- Within a group, the records whose path is an `os.Remove` argument are the stale candidates,
and the others are the fresh candidates followed by the protected tail. -/
theorem sorted_filter_calls (repoName : String) (entries : List WalkEntry)
    (keep threshold : Int) (hnd : (entries.map WalkEntry.path).Nodup)
    (kv : String × archPackage) (hkv : kv ∈ Walk repoName entries []) :
    (SortFunc kv.2.files).filter (fun f => decide (f.path ∈
        (removedFiles keep threshold (Walk repoName entries [])).flatMap removeCallsOf)) =
      staleOf keep threshold kv.2.files ∧
    (SortFunc kv.2.files).filter (fun f => !decide (f.path ∈
        (removedFiles keep threshold (Walk repoName entries [])).flatMap removeCallsOf)) =
      (candidates keep kv.2.files).filter (fun f => !decide (f.atime < threshold)) ++
        (SortFunc kv.2.files).drop ((kv.2.files.length : Int) - keep).toNat := by
  have hc := candidate_removed_iff repoName entries keep threshold hnd kv hkv
  have ht := tail_not_removed repoName entries keep threshold hnd kv hkv
  constructor
  · conv_lhs => rw [← List.take_append_drop ((kv.2.files.length : Int) - keep).toNat
      (SortFunc kv.2.files)]
    rw [List.filter_append]
    have h1 : ((SortFunc kv.2.files).drop ((kv.2.files.length : Int) - keep).toNat).filter
        (fun f => decide (f.path ∈ (removedFiles keep threshold
          (Walk repoName entries [])).flatMap removeCallsOf)) = [] := by
      rw [List.filter_eq_nil_iff]
      intro g hg
      simpa using ht g hg
    rw [h1, List.append_nil]
    unfold staleOf candidates
    apply List.filter_congr
    intro g hg
    simp only [hc g hg]
  · conv_lhs => rw [← List.take_append_drop ((kv.2.files.length : Int) - keep).toNat
      (SortFunc kv.2.files)]
    rw [List.filter_append]
    have h1 : ((SortFunc kv.2.files).drop ((kv.2.files.length : Int) - keep).toNat).filter
        (fun f => !decide (f.path ∈ (removedFiles keep threshold
          (Walk repoName entries [])).flatMap removeCallsOf)) =
        (SortFunc kv.2.files).drop ((kv.2.files.length : Int) - keep).toNat := by
      rw [List.filter_eq_self]
      intro g hg
      simpa using ht g hg
    rw [h1]
    congr 1
    unfold candidates
    apply List.filter_congr
    intro g hg
    simp only [hc g hg]

/-- The stale candidates of all groups are the records whose path is an `os.Remove` argument. -/
theorem removedFiles_perm (repoName : String) (entries : List WalkEntry)
    (keep threshold : Int) (hnd : (entries.map WalkEntry.path).Nodup) :
    (removedFiles keep threshold (Walk repoName entries [])).Perm
      ((allFiles (Walk repoName entries [])).filter (fun f => decide (f.path ∈
        (removedFiles keep threshold (Walk repoName entries [])).flatMap removeCallsOf))) := by
  unfold allFiles
  rw [List.filter_flatMap]
  conv_lhs => unfold removedFiles
  apply List.Perm.flatMap_left
  intro kv hkv
  rw [← (sorted_filter_calls repoName entries keep threshold hnd kv hkv).1]
  exact (SortFunc_perm kv.2.files).filter _

theorem candidates_zero (files : List packageFile) : candidates 0 files = SortFunc files := by
  unfold candidates
  apply List.take_of_length_le
  rw [SortFunc_length]
  omega

/-- A group that has lost its stale candidates has no stale candidate left, when nothing is kept
back, or the group has at most 12 files, or no two of its files have the same modification
time. -/
theorem staleOf_survivors (repoName : String) (entries : List WalkEntry)
    (keep threshold : Int) (hkeep : 0 ≤ keep) (hnd : (entries.map WalkEntry.path).Nodup)
    (kv : String × archPackage) (hkv : kv ∈ Walk repoName entries [])
    (hst : keep = 0 ∨ kv.2.files.length ≤ 12 ∨
      kv.2.files.Pairwise (fun a b => a.mtime ≠ b.mtime)) :
    staleOf keep threshold (kv.2.files.filter (fun f => !decide (f.path ∈
      (removedFiles keep threshold (Walk repoName entries [])).flatMap removeCallsOf))) = [] := by
  rcases hst with h0 | hst
  · subst h0
    unfold staleOf
    rw [List.filter_eq_nil_iff]
    intro g hg hold
    rw [candidates_zero] at hg
    have hg2 := List.mem_filter.1 ((SortFunc_perm _).subset hg)
    have hin : g ∈ staleOf 0 threshold kv.2.files := by
      unfold staleOf
      rw [candidates_zero]
      exact List.mem_filter.2 ⟨(SortFunc_perm _).symm.subset hg2.1, hold⟩
    have := (mem_calls_iff repoName entries 0 threshold hnd kv hkv g hg2.1).2 hin
    simp [this] at hg2
  have hsplit := (sorted_filter_calls repoName entries keep threshold hnd kv hkv).2
  have hlen := SortFunc_length kv.2.files
  unfold staleOf
  rw [List.filter_eq_nil_iff]
  intro g hg
  unfold candidates at hg
  rw [SortFunc_filter _ _ hst, hsplit] at hg
  have hl : ((kv.2.files.filter (fun f => !decide (f.path ∈
      (removedFiles keep threshold (Walk repoName entries [])).flatMap removeCallsOf))).length) =
      ((candidates keep kv.2.files).filter (fun f => !decide (f.atime < threshold))).length +
        ((SortFunc kv.2.files).drop ((kv.2.files.length : Int) - keep).toNat).length := by
    rw [← List.length_append, ← hsplit, ← SortFunc_filter _ _ hst, SortFunc_length]
  rw [List.length_drop, hlen] at hl
  rw [List.take_append_of_le_length (by omega)] at hg
  have := (List.mem_filter.1 (List.mem_of_mem_take hg)).2
  simpa using this


theorem groupFiles_filter (repoName : String) (sc : List WalkEntry) (calls : List String)
    (k : String) :
    groupFiles repoName (sc.filter (fun e => !decide (e.path ∈ calls))) k =
      (groupFiles repoName sc k).filter (fun f => !decide (f.path ∈ calls)) := by
  unfold groupFiles
  rw [List.filter_map, List.filter_filter, List.filter_filter]
  congr 1
  apply List.filter_congr
  intro e _
  simp [toPackageFile, Bool.and_comm]


/-! ## Totals of the surviving files -/

/-- The filed entries of the walk once the `os.Remove` calls have acted on it. -/
theorem scanned_diskAfter (removeFails : String → Bool) (calls : List String)
    (entries : List WalkEntry) (hnoerr : ∀ e ∈ entries, e.err = false) :
    scanned (diskAfter removeFails calls entries) =
      (scanned entries).filter
        (fun e => decide (e.path ∈ calls → removeFails e.path = true)) := by
  rw [diskAfter_eq_filter, scanned_of_no_err _ hnoerr,
    scanned_of_no_err _ (fun e he => hnoerr e (List.mem_filter.1 he).1),
    List.filter_filter, List.filter_filter]
  apply List.filter_congr
  intro e _
  exact Bool.and_comm _ _

/-- The number and the total size of the filed entries whose path is no `os.Remove` argument. -/
theorem survivors_totals (repoName : String) (entries : List WalkEntry) (keep threshold : Int)
    (hnd : (entries.map WalkEntry.path).Nodup) :
    ((((scanned entries).filter (fun e => !decide (e.path ∈
        (removedFiles keep threshold (Walk repoName entries [])).flatMap
          removeCallsOf))).length : Int) =
      ((scanned entries).length : Int) -
        (removedFiles keep threshold (Walk repoName entries [])).length) ∧
    ((((scanned entries).filter (fun e => !decide (e.path ∈
        (removedFiles keep threshold (Walk repoName entries [])).flatMap
          removeCallsOf))).map WalkEntry.size).sum =
      ((scanned entries).map WalkEntry.size).sum -
        ((removedFiles keep threshold (Walk repoName entries [])).map packageFile.size).sum) := by
  generalize hcalls :
    (removedFiles keep threshold (Walk repoName entries [])).flatMap removeCallsOf = calls
  have hrem : (removedFiles keep threshold (Walk repoName entries [])).Perm
      (((scanned entries).filter (fun e => decide (e.path ∈ calls))).map toPackageFile) := by
    have h1 := removedFiles_perm repoName entries keep threshold hnd
    rw [hcalls] at h1
    refine h1.trans (((allFiles_perm repoName entries).filter _).trans (List.Perm.of_eq ?_))
    rw [List.filter_map]
    rfl
  have hsplit := List.filter_append_perm (fun e => decide (e.path ∈ calls)) (scanned entries)
  have hsize : ∀ l : List WalkEntry,
      ((l.map toPackageFile).map packageFile.size) = l.map WalkEntry.size := by
    intro l
    rw [List.map_map]
    rfl
  constructor
  · rw [hrem.length_eq, List.length_map, ← hsplit.length_eq, List.length_append]
    simp
  · rw [(hrem.map _).sum_eq, hsize, ← (hsplit.map _).sum_eq, List.map_append, List.sum_append]
    simp


theorem string_append_left_cancel (p x y : String) (h : p ++ x = p ++ y) : x = y := by
  have := congrArg String.data h
  simp only [String.data_append] at this
  exact String.ext (List.append_cancel_left this)


/-! ## The pass carried out with the results of `os.Remove` -/

theorem osRemoveErr_fst (removeFails : String → Bool) (disk : List WalkEntry) (path : String) :
    (osRemoveErr removeFails disk path).1 = osRemove removeFails disk path := by
  unfold osRemoveErr osRemove
  by_cases hf : removeFails path = true
  · simp [hf]
  · by_cases ha : disk.any (fun e => e.path == path) = true
    · simp [hf, ha]
    · simp only [hf, ha, if_false, Bool.false_eq_true]
      symm
      rw [List.filter_eq_self]
      intro e he
      simp only [List.any_eq_true, not_exists, not_and] at ha
      have := ha e he
      simpa using this

theorem diskAfter_append (removeFails : String → Bool) (calls : List String) (p q : String)
    (disk : List WalkEntry) :
    diskAfter removeFails (calls ++ [p, q]) disk =
      osRemove removeFails (osRemove removeFails (diskAfter removeFails calls disk) p) q := by
  simp [diskAfter, List.foldl_append]

/-- The loop with the `os.Remove` results updates the totals and makes the calls of the loop
without them, whatever calls fail, and leaves the files that `diskAfter` describes. -/
theorem rangeFilesRun_spec (removeFails : String → Bool) (keep threshold : Int) (len : Nat)
    (disk0 : List WalkEntry) :
    ∀ (fs : List packageFile) (index : Nat) (rs : RunState),
      rs.disk = diskAfter removeFails rs.st.removeCalls disk0 →
      (rangeFilesRun removeFails keep threshold len index fs rs).st =
          rangeFiles keep threshold len index fs rs.st ∧
        (rangeFilesRun removeFails keep threshold len index fs rs).disk =
          diskAfter removeFails
            (rangeFilesRun removeFails keep threshold len index fs rs).st.removeCalls disk0 := by
  intro fs
  induction fs with
  | nil => intro index rs h; exact ⟨rfl, h⟩
  | cons val rest ih =>
    intro index rs h
    unfold rangeFilesRun rangeFiles
    by_cases hidx : (index : Int) ≥ (len : Int) - keep
    · simp only [hidx, if_true]
      exact ih _ _ h
    · simp only [hidx, if_false]
      by_cases hold : val.atime < threshold
      · simp only [hold, if_true]
        apply ih
        simp only [osRemoveErr_fst, diskAfter_append, h]
      · simp only [hold, if_false]
        exact ih _ _ h

theorem rangePackagesRun_spec (removeFails : String → Bool) (keep threshold : Int)
    (disk0 : List WalkEntry) :
    ∀ (packages : List (String × archPackage)) (rs : RunState),
      rs.disk = diskAfter removeFails rs.st.removeCalls disk0 →
      (rangePackagesRun removeFails keep threshold packages rs).st =
          rangePackages keep threshold packages rs.st ∧
        (rangePackagesRun removeFails keep threshold packages rs).disk =
          diskAfter removeFails
            (rangePackagesRun removeFails keep threshold packages rs).st.removeCalls disk0 := by
  intro packages
  induction packages with
  | nil => intro rs h; exact ⟨rfl, h⟩
  | cons kv rest ih =>
    intro rs h
    obtain ⟨k, pkg⟩ := kv
    unfold rangePackagesRun rangePackages
    simp only
    obtain ⟨h1, h2⟩ := rangeFilesRun_spec removeFails keep threshold
      (SortFunc pkg.files).length disk0 (SortFunc pkg.files) 0 rs h
    obtain ⟨h3, h4⟩ := ih _ h2
    rw [h1] at h3
    exact ⟨h3, h4⟩

/-- The outcome of a call carried out on the disk is the outcome computed without the results of
`os.Remove`, and the files left are those `diskAfter` describes. -/
theorem purgeStaleFilesRun_eq (removeFails : String → Bool) (now : Int)
    (walk : String → List WalkEntry) (cacheDir : String) (purgeFilesAfter keep : Int)
    (repoName : String) (calls : List String) (num size : Int)
    (h : purgeStaleFiles now walk cacheDir purgeFilesAfter keep repoName =
      Outcome.done calls num size) :
    (purgeStaleFilesRun removeFails now walk cacheDir purgeFilesAfter keep repoName).1 =
        Outcome.done calls num size ∧
      (purgeStaleFilesRun removeFails now walk cacheDir purgeFilesAfter keep repoName).2.1 =
        diskAfter removeFails calls (walk (pkgDir cacheDir repoName)) := by
  unfold purgeStaleFiles at h
  unfold purgeStaleFilesRun
  by_cases hp : purgeFilesAfter = 0
  · simp [hp] at h
  · simp only [hp, if_false] at h ⊢
    obtain ⟨h1, h2⟩ := rangePackagesRun_spec removeFails keep
      (removeIfOlder now purgeFilesAfter) (walk (pkgDir cacheDir repoName))
      (Walk repoName (walk (pkgDir cacheDir repoName)) [])
      { st := { packageSize := 0, packageNum := 0, removeCalls := [] },
        disk := walk (pkgDir cacheDir repoName), errors := [] } (by simp [diskAfter])
    simp only at h1
    simp only [Outcome.done.injEq] at h
    obtain ⟨hc, hn, hs⟩ := h
    refine ⟨?_, ?_⟩
    · simp only [h1, hc, hn, hs]
    · rw [h2, h1, hc]


theorem groupFiles_filter_path (repoName : String) (sc : List WalkEntry) (p : String → Bool)
    (k : String) :
    groupFiles repoName (sc.filter (fun e => p e.path)) k =
      (groupFiles repoName sc k).filter (fun f => p f.path) := by
  unfold groupFiles
  rw [List.filter_map, List.filter_filter, List.filter_filter]
  congr 1
  apply List.filter_congr
  intro e _
  simp [toPackageFile, Bool.and_comm]

theorem removeIfOlder_mono (now now2 purgeFilesAfter : Int) (h : now ≤ now2) :
    removeIfOlder now purgeFilesAfter ≤ removeIfOlder now2 purgeFilesAfter := by
  unfold removeIfOlder
  omega

/-- A stale deletion candidate whose removal is refused is a stale deletion candidate again in a
pass over the files that are left, with a threshold that is not earlier, when nothing is kept
back, or the group has at most 12 files, or no two of its files have the same modification
time. -/
theorem failed_candidate_again (repoName : String) (entries : List WalkEntry)
    (keep threshold threshold2 : Int) (removeFails : String → Bool)
    (hthr : threshold ≤ threshold2)
    (hnd : (entries.map WalkEntry.path).Nodup) (hnoerr : ∀ e ∈ entries, e.err = false)
    (kv : String × archPackage) (hkv : kv ∈ Walk repoName entries [])
    (hst : keep = 0 ∨ kv.2.files.length ≤ 12 ∨
      kv.2.files.Pairwise (fun a b => a.mtime ≠ b.mtime))
    (f : packageFile) (hf : f ∈ staleOf keep threshold kv.2.files)
    (hfail : removeFails f.path = true) :
    f ∈ removedFiles keep threshold2 (Walk repoName
      (diskAfter removeFails
        ((removedFiles keep threshold (Walk repoName entries [])).flatMap removeCallsOf)
        entries) []) := by
  generalize hcalls :
    (removedFiles keep threshold (Walk repoName entries [])).flatMap removeCallsOf = calls
  obtain ⟨_, _, hgrp⟩ := Walk_spec repoName entries
  have hsc2 := scanned_diskAfter removeFails calls entries hnoerr
  have hff : f ∈ kv.2.files := staleOf_subset _ _ _ _ hf
  have hff' := hff
  rw [(hgrp kv hkv).1] at hff'
  obtain ⟨e, he, hke, hfe⟩ := mem_groupFiles _ _ _ _ hff'
  have hpath : e.path = f.path := by rw [hfe]; rfl
  -- the entry is still there and its key is a key of the second map
  have he2 : e ∈ scanned (diskAfter removeFails calls entries) := by
    rw [hsc2]
    refine List.mem_filter.2 ⟨he, ?_⟩
    simp only [decide_eq_true_eq]
    intro _
    rw [hpath]
    exact hfail
  obtain ⟨kv2, hkv2, hk2⟩ := List.mem_map.1
    ((mem_keys_iff repoName (diskAfter removeFails calls entries) kv.1).2 ⟨e, he2, hke⟩)
  obtain ⟨_, _, hgrp2⟩ := Walk_spec repoName (diskAfter removeFails calls entries)
  have hfiles2 : kv2.2.files = kv.2.files.filter
      (fun g => decide (g.path ∈ calls → removeFails g.path = true)) := by
    rw [(hgrp2 kv2 hkv2).1, hsc2, hk2,
      groupFiles_filter_path repoName (scanned entries)
        (fun q => decide (q ∈ calls → removeFails q = true)), ← (hgrp kv hkv).1]
  refine List.mem_flatMap.2 ⟨kv2, hkv2, ?_⟩
  rw [hfiles2]
  rcases hst with h0 | hst
  · subst h0
    unfold staleOf at hf ⊢
    rw [candidates_zero] at hf ⊢
    have hold := of_decide_eq_true (List.mem_filter.1 hf).2
    refine List.mem_filter.2 ⟨(SortFunc_perm _).symm.subset
      (List.mem_filter.2 ⟨hff, by simp [hfail]⟩), ?_⟩
    simp only [decide_eq_true_eq]
    omega
  -- the sorted survivors: surviving candidates, then the protected tail
  have htail : ((SortFunc kv.2.files).drop ((kv.2.files.length : Int) - keep).toNat).filter
      (fun g => decide (g.path ∈ calls → removeFails g.path = true)) =
      (SortFunc kv.2.files).drop ((kv.2.files.length : Int) - keep).toNat := by
    rw [List.filter_eq_self]
    intro g hg
    have := tail_not_removed repoName entries keep threshold hnd kv hkv g hg
    rw [hcalls] at this
    simp only [decide_eq_true_eq]
    intro h
    exact absurd h this
  have hsplit : SortFunc (kv.2.files.filter
      (fun g => decide (g.path ∈ calls → removeFails g.path = true))) =
      ((SortFunc kv.2.files).take ((kv.2.files.length : Int) - keep).toNat).filter
        (fun g => decide (g.path ∈ calls → removeFails g.path = true)) ++
      (SortFunc kv.2.files).drop ((kv.2.files.length : Int) - keep).toNat := by
    rw [SortFunc_filter _ _ hst]
    conv_lhs => rw [← List.take_append_drop ((kv.2.files.length : Int) - keep).toNat
      (SortFunc kv.2.files)]
    rw [List.filter_append, htail]
  unfold staleOf candidates at hf ⊢
  obtain ⟨hcand, hold⟩ := List.mem_filter.1 hf
  have hfc : f ∈ ((SortFunc kv.2.files).take ((kv.2.files.length : Int) - keep).toNat).filter
      (fun g => decide (g.path ∈ calls → removeFails g.path = true)) :=
    List.mem_filter.2 ⟨hcand, by simp [hfail]⟩
  have hlen2 : (kv.2.files.filter
      (fun g => decide (g.path ∈ calls → removeFails g.path = true))).length =
      (((SortFunc kv.2.files).take ((kv.2.files.length : Int) - keep).toNat).filter
        (fun g => decide (g.path ∈ calls → removeFails g.path = true))).length +
      ((SortFunc kv.2.files).drop ((kv.2.files.length : Int) - keep).toNat).length := by
    rw [← List.length_append, ← hsplit, SortFunc_length]
  have hm1 : 0 < ((kv.2.files.length : Int) - keep).toNat := by
    by_contra h0
    have h0' : ((kv.2.files.length : Int) - keep).toNat = 0 := by omega
    rw [h0'] at hcand
    simp at hcand
  rw [List.length_drop, SortFunc_length] at hlen2
  refine List.mem_filter.2 ⟨?_, ?_⟩
  · rw [hsplit, List.take_append_eq_append_take]
    apply List.mem_append_left
    rw [List.take_of_length_le (by omega)]
    exact hfc
  · have := of_decide_eq_true hold
    simp only [decide_eq_true_eq]
    omega


theorem removeCalls_infix (removed : List packageFile) (f : packageFile) (hf : f ∈ removed) :
    [f.path, f.path ++ ".sig"] <:+: removed.flatMap removeCallsOf := by
  obtain ⟨s, t, rfl⟩ := List.append_of_mem hf
  exact ⟨s.flatMap removeCallsOf, t.flatMap removeCallsOf, by
    simp [List.flatMap_append, List.flatMap_cons, removeCallsOf]⟩


/-! ## Paths inside the repository directory -/

theorem takeWhile_append_cases (f : Char → Bool) : ∀ (p s : List Char),
    List.takeWhile f (p ++ s) = List.takeWhile f p ∨
      List.takeWhile f (p ++ s) = p ++ List.takeWhile f s := by
  intro p
  induction p with
  | nil => intro s; exact Or.inr rfl
  | cons c cs ih =>
    intro s
    by_cases hc : f c = true
    · rcases ih s with h | h
      · left
        simp [List.takeWhile_cons, hc, h]
      · right
        simp [List.takeWhile_cons, hc, h]
    · left
      simp [List.takeWhile_cons, hc]

theorem isBelow_sig (dir p : String) (h : isBelow dir p) : isBelow dir (p ++ ".sig") := by
  unfold isBelow at h ⊢
  split_ifs at h ⊢ with hd
  · unfold firstElem at h ⊢
    rw [String.data_append]
    rcases takeWhile_append_cases (fun c => c != '/') p.data (".sig" : String).data with e | e
    · rw [e]
      exact h
    · rw [e]
      have hlen : 4 ≤ (p.data ++ List.takeWhile (fun c => c != '/') (".sig" : String).data).length := by
        rw [List.length_append]
        have : (List.takeWhile (fun c => c != '/') (".sig" : String).data).length = 4 := by decide
        omega
      refine ⟨?_, ?_, ?_⟩ <;> intro hc <;> rw [hc] at hlen <;> simp at hlen
  · rw [String.data_append]
    exact h.trans (List.prefix_append _ _)

/-- When the regular files of the walk lie inside its root, so does every `os.Remove`
argument. -/
theorem calls_below (repoName : String) (entries : List WalkEntry) (keep threshold : Int)
    (dir : String) (hbelow : ∀ e ∈ entries, e.regular = true → isBelow dir e.path)
    (q : String)
    (hq : q ∈ (removedFiles keep threshold (Walk repoName entries [])).flatMap removeCallsOf) :
    isBelow dir q := by
  obtain ⟨e, he, -, -, -, -, -, -, hqe⟩ := mem_calls_origin repoName entries keep threshold q hq
  obtain ⟨h1, -, h3, -⟩ := mem_scanned _ e he
  rcases hqe with rfl | rfl
  · exact hbelow e h1 h3
  · exact isBelow_sig _ _ (hbelow e h1 h3)

/-! ## The order of the walk -/

theorem nameLess_asymm : ∀ a b : List Char, nameLess a b = true → nameLess b a = true → False := by
  intro a
  induction a with
  | nil =>
    intro b _ hba
    cases b <;> simp [nameLess] at hba
  | cons x xs ih =>
    intro b hab hba
    cases b with
    | nil => simp [nameLess] at hab
    | cons y ys =>
      simp only [nameLess, Bool.or_eq_true, Bool.and_eq_true, decide_eq_true_eq] at hab hba
      rcases hab with hab | ⟨rfl, hab⟩
      · rcases hba with hba | ⟨rfl, _⟩
        · exact lt_asymm hab hba
        · exact lt_irrefl _ hab
      · rcases hba with hba | ⟨_, hba⟩
        · exact lt_irrefl _ hba
        · exact ih ys hab hba

theorem elemsBefore_asymm : ∀ p q : List (List Char),
    elemsBefore p q = true → elemsBefore q p = true → False := by
  intro p
  induction p with
  | nil =>
    intro q _ hqp
    cases q <;> simp [elemsBefore] at hqp
  | cons a as ih =>
    intro q hpq hqp
    cases q with
    | nil => simp [elemsBefore] at hpq
    | cons b bs =>
      simp only [elemsBefore] at hpq hqp
      by_cases hab : a = b
      · subst hab
        simp only [if_true] at hpq hqp
        exact ih bs hpq hqp
      · have hba : ¬ b = a := fun h => hab h.symm
        simp only [hab, hba, if_false] at hpq hqp
        exact nameLess_asymm a b hpq hqp

/-- The directory walk has one order: two sequences of the same entries that are both in the
order of `filepath.Walk` are the same sequence. -/
theorem walkOrdered_unique (es1 es2 : List WalkEntry) (hp : es1.Perm es2)
    (h1 : WalkOrdered es1) (h2 : WalkOrdered es2) : es1 = es2 := by
  haveI : IsAntisymm WalkEntry (fun e f => walkBefore e.path f.path = true) :=
    ⟨fun a b hab hba => (elemsBefore_asymm _ _ hab hba).elim⟩
  exact List.eq_of_perm_of_sorted hp h1 h2

/-- The stale candidates of a group do not depend on the order of its files, when nothing is
kept back or no two files have the same modification time. -/
theorem staleOf_perm (keep threshold : Int) (f1 f2 : List packageFile) (hp : f1.Perm f2)
    (h : keep = 0 ∨ f1.Pairwise (fun a b => a.mtime ≠ b.mtime)) :
    (staleOf keep threshold f1).Perm (staleOf keep threshold f2) := by
  rcases h with h0 | hd
  · subst h0
    unfold staleOf
    rw [candidates_zero, candidates_zero]
    exact (((SortFunc_perm f1).trans hp).trans (SortFunc_perm f2).symm).filter _
  · rw [staleOf_congr keep threshold f1 f2 hp hd]
/-! ## The paths that `filepath.Walk` hands over -/

theorem splitSlash_ne_nil : ∀ l : List Char, splitSlash l ≠ [] := by
  intro l
  induction l with
  | nil => simp [splitSlash]
  | cons c cs ih =>
    unfold splitSlash
    split_ifs
    · simp
    · cases h : splitSlash cs with
      | nil => simp
      | cons e es => simp

theorem splitSlash_cons_of_ne (c : Char) (cs : List Char) (hc : c ≠ '/') :
    ∃ e es, splitSlash cs = e :: es ∧ splitSlash (c :: cs) = (c :: e) :: es := by
  cases h : splitSlash cs with
  | nil => exact absurd h (splitSlash_ne_nil cs)
  | cons e es =>
    refine ⟨e, es, rfl, ?_⟩
    simp [splitSlash, hc, h]

theorem splitSlash_no_slash : ∀ (l : List Char), ∀ e ∈ splitSlash l, '/' ∉ e := by
  intro l
  induction l with
  | nil => intro e he; simp [splitSlash] at he; simp [he]
  | cons c cs ih =>
    intro e he
    by_cases hc : c = '/'
    · simp only [splitSlash, hc, if_true, List.mem_cons] at he
      rcases he with rfl | he
      · simp
      · exact ih e he
    · obtain ⟨e0, es, h1, h2⟩ := splitSlash_cons_of_ne c cs hc
      rw [h2] at he
      rw [h1] at ih
      rcases List.mem_cons.1 he with rfl | he
      · intro hm
        rcases List.mem_cons.1 hm with h | h
        · exact hc h.symm
        · exact ih e0 (List.mem_cons_self _ _) h
      · exact ih e (List.mem_cons_of_mem _ he)

theorem splitSlash_of_no_slash : ∀ (e : List Char), '/' ∉ e → splitSlash e = [e] := by
  intro e
  induction e with
  | nil => intro _; rfl
  | cons c cs ih =>
    intro h
    have hc : c ≠ '/' := fun hc => h (by simp [hc])
    have hcs : '/' ∉ cs := fun hm => h (List.mem_cons_of_mem _ hm)
    simp [splitSlash, hc, ih hcs]

theorem splitSlash_append_slash : ∀ (e rest : List Char), '/' ∉ e →
    splitSlash (e ++ '/' :: rest) = e :: splitSlash rest := by
  intro e
  induction e with
  | nil => intro rest _; simp [splitSlash]
  | cons c cs ih =>
    intro rest h
    have hc : c ≠ '/' := fun hc => h (by simp [hc])
    have hcs : '/' ∉ cs := fun hm => h (List.mem_cons_of_mem _ hm)
    simp [splitSlash, hc, ih rest hcs]

theorem splitSlash_snoc : ∀ (x n : List Char), '/' ∉ n →
    splitSlash (x ++ '/' :: n) = splitSlash x ++ [n] := by
  intro x
  induction x with
  | nil => intro n hn; simp [splitSlash, splitSlash_of_no_slash n hn]
  | cons c cs ih =>
    intro n hn
    by_cases hc : c = '/'
    · simp [splitSlash, hc, ih n hn]
    · obtain ⟨e0, es, h1, h2⟩ := splitSlash_cons_of_ne c cs hc
      obtain ⟨e1, es1, h3, h4⟩ := splitSlash_cons_of_ne c (cs ++ '/' :: n) hc
      rw [List.cons_append, h4, h2]
      rw [ih n hn, h1] at h3
      simp only [List.cons_append, List.cons.injEq] at h3
      rw [← h3.1, ← h3.2]
      rfl

theorem joinSlash_cons_cons (e e' : List Char) (es : List (List Char)) :
    joinSlash (e :: e' :: es) = e ++ '/' :: joinSlash (e' :: es) := rfl

theorem splitSlash_joinSlash : ∀ (E : List (List Char)), E ≠ [] → (∀ e ∈ E, '/' ∉ e) →
    splitSlash (joinSlash E) = E := by
  intro E
  induction E with
  | nil => intro h; exact absurd rfl h
  | cons e es ih =>
    intro _ h
    cases es with
    | nil => exact splitSlash_of_no_slash e (h e (List.mem_cons_self _ _))
    | cons e' es' =>
      rw [joinSlash_cons_cons, splitSlash_append_slash _ _ (h e (List.mem_cons_self _ _)),
        ih (by simp) (fun x hx => h x (List.mem_cons_of_mem _ hx))]

theorem joinSlash_snoc : ∀ (E : List (List Char)) (n : List Char), E ≠ [] →
    joinSlash (E ++ [n]) = joinSlash E ++ '/' :: n := by
  intro E
  induction E with
  | nil => intro n h; exact absurd rfl h
  | cons e es ih =>
    intro n _
    cases es with
    | nil => rfl
    | cons e' es' =>
      rw [List.cons_append, List.cons_append, joinSlash_cons_cons, ← List.cons_append,
        ih n (by simp), joinSlash_cons_cons]
      simp

theorem isName_iff (n : List Char) :
    isName n = true ↔ n ≠ [] ∧ '/' ∉ n ∧ n ≠ ['.'] ∧ n ≠ ['.', '.'] := by
  unfold isName
  simp only [Bool.and_eq_true, decide_eq_true_eq]
  tauto

theorem cleanElems_skip (r : Bool) (e : List Char) (es acc : List (List Char))
    (he : e = [] ∨ e = ['.']) : cleanElems r (e :: es) acc = cleanElems r es acc := by
  simp [cleanElems, he]

theorem cleanElems_dd_nil_rooted (es : List (List Char)) :
    cleanElems true (['.', '.'] :: es) [] = cleanElems true es [] := by
  simp [cleanElems]

theorem cleanElems_dd_nil (es : List (List Char)) :
    cleanElems false (['.', '.'] :: es) [] = cleanElems false es [['.', '.']] := by
  simp [cleanElems]

theorem cleanElems_dd_dd (r : Bool) (es below : List (List Char)) :
    cleanElems r (['.', '.'] :: es) (['.', '.'] :: below) =
      cleanElems r es (['.', '.'] :: ['.', '.'] :: below) := by
  simp [cleanElems]

theorem cleanElems_dd_pop (r : Bool) (es below : List (List Char)) (top : List Char)
    (h : top ≠ ['.', '.']) :
    cleanElems r (['.', '.'] :: es) (top :: below) = cleanElems r es below := by
  simp [cleanElems, h]

theorem cleanElems_push (r : Bool) (e : List Char) (es acc : List (List Char))
    (h1 : e ≠ []) (h3 : e ≠ ['.']) (h4 : e ≠ ['.', '.']) :
    cleanElems r (e :: es) acc = cleanElems r es (e :: acc) := by
  simp [cleanElems, h1, h3, h4]

theorem cleanElems_cons_name (r : Bool) (e : List Char) (es acc : List (List Char))
    (he : isName e = true) : cleanElems r (e :: es) acc = cleanElems r es (e :: acc) := by
  obtain ⟨h1, -, h3, h4⟩ := (isName_iff e).1 he
  exact cleanElems_push r e es acc h1 h3 h4

theorem cleanElems_plain (r : Bool) : ∀ (M acc : List (List Char)),
    (∀ e ∈ M, isName e = true) → cleanElems r M acc = acc.reverse ++ M := by
  intro M
  induction M with
  | nil => intro acc _; simp [cleanElems]
  | cons e es ih =>
    intro acc h
    rw [cleanElems_cons_name r e es acc (h e (List.mem_cons_self _ _)),
      ih (e :: acc) (fun x hx => h x (List.mem_cons_of_mem _ hx))]
    simp

theorem cleanElems_snoc (r : Bool) (n : List Char) (hn : isName n = true) :
    ∀ (S acc : List (List Char)),
      cleanElems r (S ++ [n]) acc = cleanElems r S acc ++ [n] := by
  intro S
  induction S with
  | nil =>
    intro acc
    rw [List.nil_append, cleanElems_cons_name r n [] acc hn]
    simp [cleanElems]
  | cons e es ih =>
    intro acc
    rw [List.cons_append]
    by_cases h1 : e = [] ∨ e = ['.']
    · rw [cleanElems_skip r e _ acc h1, cleanElems_skip r e _ acc h1]
      exact ih acc
    · by_cases h2 : e = ['.', '.']
      · subst h2
        cases acc with
        | nil =>
          cases r
          · rw [cleanElems_dd_nil, cleanElems_dd_nil]
            exact ih _
          · rw [cleanElems_dd_nil_rooted, cleanElems_dd_nil_rooted]
            exact ih _
        | cons top below =>
          by_cases h3 : top = ['.', '.']
          · subst h3
            rw [cleanElems_dd_dd, cleanElems_dd_dd]
            exact ih _
          · rw [cleanElems_dd_pop r _ _ top h3, cleanElems_dd_pop r _ _ top h3]
            exact ih _
      · have h1' : e ≠ [] := fun h => h1 (Or.inl h)
        have h3' : e ≠ ['.'] := fun h => h1 (Or.inr h)
        rw [cleanElems_push r e _ acc h1' h3' h2, cleanElems_push r e _ acc h1' h3' h2]
        exact ih _

theorem Clean_eq (p : String) (r : Bool) (E : List (List Char))
    (hr : r = decide (p.data.head? = some '/'))
    (hE : E = cleanElems r (splitSlash p.data) []) :
    Clean p = if r then String.mk ('/' :: joinSlash E)
      else if E = [] then "." else String.mk (joinSlash E) := by
  subst hr hE
  rfl

theorem data_ne_nil_of_Clean (p : String) (hp : Clean p = p) : p.data ≠ [] := by
  intro h
  have hp0 : p = "" := by
    cases p
    simp only at h
    subst h
    rfl
  subst hp0
  revert hp
  decide

theorem head?_append_of_ne_nil (x y : List Char) (hx : x ≠ []) :
    (x ++ y).head? = x.head? := by
  cases x with
  | nil => exact absurd rfl hx
  | cons c cs => rfl

/-- The path of a directory entry: `filepath.Join(p, n)` for a clean path `p` and a name `n`
is `p`, a slash and `n`, with the two exceptions of the directories `.` and `/`. -/
theorem Clean_child (p : String) (n : List Char) (hp : Clean p = p) (hn : isName n = true) :
    Clean (String.mk (p.data ++ '/' :: n)) =
      if p = "." then String.mk n
      else if p = "/" then String.mk ('/' :: n)
      else String.mk (p.data ++ '/' :: n) := by
  have hne := data_ne_nil_of_Clean p hp
  obtain ⟨hn1, hn2, hn3, hn4⟩ := (isName_iff n).1 hn
  have hp2 := Clean_eq p _ _ rfl rfl
  rw [hp] at hp2
  rw [Clean_eq (String.mk (p.data ++ '/' :: n)) (decide (p.data.head? = some '/'))
    (cleanElems (decide (p.data.head? = some '/')) (splitSlash p.data) [] ++ [n])
    (by simp only [head?_append_of_ne_nil _ _ hne])
    (by simp only [splitSlash_snoc _ _ hn2, cleanElems_snoc _ n hn])]
  generalize hr : decide (p.data.head? = some '/') = r at hp2 ⊢
  generalize hE : cleanElems r (splitSlash p.data) [] = E at hp2 ⊢
  cases r with
  | true =>
    simp only [if_true] at hp2 ⊢
    cases E with
    | nil =>
      have h1 : p = "/" := hp2
      subst h1
      simp [joinSlash]
    | cons e es =>
      have h1 : p ≠ "." := by
        intro h
        subst h
        revert hr
        decide
      have h2 : p ≠ "/" := by
        intro h
        subst h
        have h0 : cleanElems true (splitSlash "/".data) [] = [] := by decide
        rw [h0] at hE
        exact absurd hE (by simp)
      rw [if_neg h1, if_neg h2, joinSlash_snoc _ n (by simp)]
      congr 1
      rw [hp2]
      rfl
  | false =>
    simp only [Bool.false_eq_true, if_false] at hp2 ⊢
    cases E with
    | nil =>
      have h1 : p = "." := by simpa using hp2
      subst h1
      simp [joinSlash]
    | cons e es =>
      have h1 : p ≠ "." := by
        intro h
        subst h
        have h0 : cleanElems false (splitSlash ".".data) [] = [] := by decide
        rw [h0] at hE
        exact absurd hE (by simp)
      have h2 : p ≠ "/" := by
        intro h
        subst h
        revert hr
        decide
      rw [if_neg h1, if_neg h2, if_neg (by simp), joinSlash_snoc _ n (by simp)]
      rw [if_neg (by simp)] at hp2
      congr 1
      rw [hp2]

theorem cleanElems_normal (r : Bool) : ∀ (S acc : List (List Char)),
    (∀ e ∈ S, '/' ∉ e) →
    (∃ k M, acc = M ++ List.replicate k ['.', '.'] ∧ (∀ e ∈ M, isName e = true) ∧
      (r = true → k = 0)) →
    ∃ k M, cleanElems r S acc = List.replicate k ['.', '.'] ++ M ∧
      (∀ e ∈ M, isName e = true) ∧ (r = true → k = 0) := by
  intro S
  induction S with
  | nil =>
    rintro acc - ⟨k, M, rfl, hM, hk⟩
    refine ⟨k, M.reverse, ?_, ?_, hk⟩
    · simp [cleanElems]
    · intro e he
      exact hM e (List.mem_reverse.1 he)
  | cons e es ih =>
    rintro acc hS ⟨k, M, rfl, hM, hk⟩
    have hes : ∀ x ∈ es, '/' ∉ x := fun x hx => hS x (List.mem_cons_of_mem _ hx)
    by_cases h1 : e = [] ∨ e = ['.']
    · rw [cleanElems_skip r e _ _ h1]
      exact ih _ hes ⟨k, M, rfl, hM, hk⟩
    · by_cases h2 : e = ['.', '.']
      · subst h2
        cases M with
        | nil =>
          cases k with
          | zero =>
            cases r
            · rw [List.nil_append, List.replicate_zero, cleanElems_dd_nil]
              exact ih _ hes ⟨1, [], rfl, by simp, by simp⟩
            · rw [List.nil_append, List.replicate_zero, cleanElems_dd_nil_rooted]
              exact ih _ hes ⟨0, [], rfl, by simp, by simp⟩
          | succ k =>
            rw [List.nil_append, List.replicate_succ, cleanElems_dd_dd]
            refine ih _ hes ⟨k + 2, [], rfl, by simp, ?_⟩
            intro hr
            exact absurd (hk hr) (by simp)
        | cons top M =>
          have htop : top ≠ ['.', '.'] :=
            ((isName_iff top).1 (hM top (List.mem_cons_self _ _))).2.2.2
          rw [List.cons_append, cleanElems_dd_pop r _ _ top htop]
          exact ih _ hes ⟨k, M, rfl, fun x hx => hM x (List.mem_cons_of_mem _ hx), hk⟩
      · have h1a : e ≠ [] := fun h => h1 (Or.inl h)
        have h3 : e ≠ ['.'] := fun h => h1 (Or.inr h)
        rw [cleanElems_push r e _ _ h1a h3 h2]
        refine ih _ hes ⟨k, e :: M, rfl, ?_, hk⟩
        intro x hx
        rcases List.mem_cons.1 hx with rfl | hx
        · exact (isName_iff x).2 ⟨h1a, hS x (List.mem_cons_self _ _), h3, h2⟩
        · exact hM x hx

theorem cleanElems_dots : ∀ (k j : Nat) (rest : List (List Char)),
    cleanElems false (List.replicate k ['.', '.'] ++ rest) (List.replicate j ['.', '.']) =
      cleanElems false rest (List.replicate (j + k) ['.', '.']) := by
  intro k
  induction k with
  | zero => intro j rest; rfl
  | succ k ih =>
    intro j rest
    rw [List.replicate_succ, List.cons_append]
    cases j with
    | zero =>
      rw [List.replicate_zero, cleanElems_dd_nil]
      have := ih 1 rest
      rw [List.replicate_one] at this
      rw [this]
      congr 2
      omega
    | succ j =>
      rw [List.replicate_succ, cleanElems_dd_dd, ← List.replicate_succ, ← List.replicate_succ,
        ih (j + 2) rest]
      congr 2
      omega

theorem cleanElems_fixed (r : Bool) (k : Nat) (M : List (List Char))
    (hM : ∀ e ∈ M, isName e = true) (hk : r = true → k = 0) :
    cleanElems r (List.replicate k ['.', '.'] ++ M) [] = List.replicate k ['.', '.'] ++ M := by
  cases r with
  | true =>
    rw [hk rfl, List.replicate_zero, List.nil_append, cleanElems_plain true M [] hM]
    rfl
  | false =>
    have h := cleanElems_dots k 0 M
    rw [List.replicate_zero] at h
    rw [h, cleanElems_plain false M _ hM, List.reverse_replicate, Nat.zero_add]

/-- The call `filepath.Clean` returns a path that it leaves as it is. -/
theorem Clean_Clean (x : String) : Clean (Clean x) = Clean x := by
  obtain ⟨k, M, hE, hM, hk⟩ := cleanElems_normal (decide (x.data.head? = some '/'))
    (splitSlash x.data) [] (splitSlash_no_slash x.data) ⟨0, [], rfl, by simp, by simp⟩
  have hx := Clean_eq x _ _ rfl rfl
  rw [hE] at hx
  generalize decide (x.data.head? = some '/') = r at hx hk hE
  have hslash : ∀ e ∈ List.replicate k ['.', '.'] ++ M, '/' ∉ e := by
    intro e he
    rcases List.mem_append.1 he with h | h
    · rw [(List.mem_replicate.1 h).2]
      decide
    · exact ((isName_iff e).1 (hM e h)).2.1
  cases r with
  | true =>
    have hk0 := hk rfl
    subst hk0
    simp only [if_true, List.replicate_zero, List.nil_append] at hx hslash
    rw [hx]
    cases M with
    | nil => decide
    | cons m M =>
      rw [Clean_eq (String.mk ('/' :: joinSlash (m :: M))) true (m :: M) rfl]
      · rfl
      · show m :: M = cleanElems true (splitSlash ('/' :: joinSlash (m :: M))) []
        have h0 : splitSlash ('/' :: joinSlash (m :: M)) = [] :: splitSlash (joinSlash (m :: M)) := by
          simp [splitSlash]
        rw [h0, splitSlash_joinSlash _ (by simp) hslash, cleanElems_skip true [] _ _ (Or.inl rfl),
          cleanElems_plain true _ [] hM]
        rfl
  | false =>
    simp only [Bool.false_eq_true, if_false] at hx
    rw [hx]
    by_cases hnil : List.replicate k ['.', '.'] ++ M = []
    · rw [if_pos hnil]
      decide
    · rw [if_neg hnil]
      have hhead : (joinSlash (List.replicate k ['.', '.'] ++ M)).head? ≠ some '/' := by
        generalize hL : List.replicate k ['.', '.'] ++ M = L at hnil hslash
        have hne : ∀ e ∈ L, e ≠ [] := by
          intro e he
          rw [← hL] at he
          rcases List.mem_append.1 he with h | h
          · rw [(List.mem_replicate.1 h).2]
            decide
          · exact ((isName_iff e).1 (hM e h)).1
        cases L with
        | nil => exact absurd rfl hnil
        | cons e es =>
          have he1 := hne e (List.mem_cons_self _ _)
          have he2 := hslash e (List.mem_cons_self _ _)
          cases e with
          | nil => exact absurd rfl he1
          | cons c cs =>
            have hc : c ≠ '/' := fun h => he2 (by simp [h])
            cases es with
            | nil => simpa [joinSlash] using hc
            | cons e' es' => simpa [joinSlash] using hc
      rw [Clean_eq (String.mk (joinSlash (List.replicate k ['.', '.'] ++ M))) false
        (List.replicate k ['.', '.'] ++ M) (by simpa using hhead)
        (by
          show _ = cleanElems false (splitSlash (joinSlash _)) []
          rw [splitSlash_joinSlash _ hnil hslash, cleanElems_fixed false k M hM (by simp)])]
      simp [hnil]

theorem Join_pair (p n : String) (hp : p ≠ "") :
    Join [p, n] = Clean (String.mk (p.data ++ '/' :: n.data)) := by
  have h : (p == "") = false := by simpa using hp
  simp only [Join, List.dropWhile, h]
  congr 1
  apply String.ext
  simp [String.intercalate, String.intercalate.go]

theorem ne_empty_of_Clean (p : String) (hp : Clean p = p) : p ≠ "" := by
  intro h
  subst h
  revert hp
  decide

theorem Join_child (p n : String) (hp : Clean p = p) (hn : isName n.data = true) :
    Join [p, n] =
      if p = "." then n
      else if p = "/" then String.mk ('/' :: n.data)
      else String.mk (p.data ++ '/' :: n.data) := by
  rw [Join_pair p n (ne_empty_of_Clean p hp), Clean_child p n.data hp hn]

theorem Clean_Join_child (p n : String) (hp : Clean p = p) :
    Clean (Join [p, n]) = Join [p, n] := by
  rw [Join_pair p n (ne_empty_of_Clean p hp), Clean_Clean]

theorem Clean_pkgDir (cacheDir repoName : String) :
    Clean (pkgDir cacheDir repoName) = pkgDir cacheDir repoName := by
  unfold pkgDir Join
  by_cases h : cacheDir = ""
  · subst h
    have : List.dropWhile (fun e => e == "") ["", "pkgs", repoName] = ["pkgs", repoName] := by
      simp [List.dropWhile]
    rw [this]
    exact Clean_Clean _
  · have h1 : (cacheDir == "") = false := by simpa using h
    have : List.dropWhile (fun e => e == "") [cacheDir, "pkgs", repoName] =
        [cacheDir, "pkgs", repoName] := by
      simp [List.dropWhile, h1]
    rw [this]
    exact Clean_Clean _

theorem takeWhile_append_slash : ∀ (x y : List Char),
    (x ++ '/' :: y).takeWhile (fun c => c != '/') = x.takeWhile (fun c => c != '/') := by
  intro x
  induction x with
  | nil => intro y; simp [List.takeWhile]
  | cons c cs ih =>
    intro y
    by_cases hc : c = '/'
    · simp [List.takeWhile, hc]
    · simp [List.takeWhile, hc, ih y]

theorem takeWhile_of_no_slash : ∀ (x : List Char), '/' ∉ x →
    x.takeWhile (fun c => c != '/') = x := by
  intro x h
  rw [List.takeWhile_eq_self_iff]
  intro c hc
  simp only [bne_iff_ne, ne_eq]
  intro h0
  exact h (h0 ▸ hc)

theorem dirSlash_getLast (dir : String) : (dirSlash dir).data.getLast? = some '/' := by
  unfold dirSlash
  split_ifs with h
  · exact h
  · simp

/-- What `filepath.Join(p, n)` names lies inside the clean directory `p`. -/
theorem isBelow_child (p n : String) (hp : Clean p = p) (hn : isName n.data = true) :
    isBelow p (Join [p, n]) := by
  obtain ⟨hn1, hn2, hn3, hn4⟩ := (isName_iff n.data).1 hn
  rw [Join_child p n hp hn]
  unfold isBelow
  by_cases h1 : p = "."
  · rw [if_pos h1, if_pos h1]
    unfold firstElem
    rw [takeWhile_of_no_slash _ hn2]
    exact ⟨hn1, hn3, hn4⟩
  · rw [if_neg h1, if_neg h1]
    by_cases h2 : p = "/"
    · rw [if_pos h2]
      subst h2
      have : (dirSlash "/").data = ['/'] := by decide
      rw [this]
      simp
    · rw [if_neg h2]
      unfold dirSlash
      split_ifs with h
      · exact List.prefix_append _ _
      · show p.data ++ ['/'] <+: p.data ++ '/' :: n.data
        exact ⟨n.data, by simp⟩

/-- What `filepath.Join(q, n)` names lies inside `dir` when the clean path `q` does. -/
theorem isBelow_child_of_isBelow (dir q n : String) (hq : Clean q = q)
    (hn : isName n.data = true) (hb : isBelow dir q) : isBelow dir (Join [q, n]) := by
  rw [Join_child q n hq hn]
  unfold isBelow at hb ⊢
  by_cases h1 : dir = "."
  · rw [if_pos h1] at hb ⊢
    have hq1 : q ≠ "." := by
      intro h
      subst h
      exact hb.2.1 (by decide)
    have hq2 : q ≠ "/" := by
      intro h
      subst h
      exact hb.1 (by decide)
    rw [if_neg hq1, if_neg hq2]
    unfold firstElem at hb ⊢
    show List.takeWhile _ (q.data ++ '/' :: n.data) ≠ [] ∧ _
    rw [takeWhile_append_slash]
    exact hb
  · rw [if_neg h1] at hb ⊢
    have hlast := dirSlash_getLast dir
    have hq1 : q ≠ "." := by
      intro h
      subst h
      obtain ⟨t, ht⟩ := hb
      have hd : ".".data = ['.'] := rfl
      rw [hd] at ht
      rcases List.append_eq_cons_iff.1 ht with ⟨h0, -⟩ | ⟨a, h0, h3⟩
      · rw [h0] at hlast
        simp at hlast
      · have h4 : a = [] := by
          have := h3.symm
          simp at this
          exact this.1
        rw [h0, h4] at hlast
        simp at hlast
    rw [if_neg hq1]
    by_cases hq2 : q = "/"
    · rw [if_pos hq2]
      subst hq2
      exact hb.trans ⟨n.data, rfl⟩
    · rw [if_neg hq2]
      exact hb.trans (List.prefix_append _ _)

theorem walkPathsFrom_below (dir : String) : ∀ (rest seen : List WalkEntry),
    (∀ q ∈ seen, Clean q.path = q.path ∧ (q.path = dir ∨ isBelow dir q.path)) →
    walkPathsFrom seen rest = true → ∀ e ∈ rest, isBelow dir e.path := by
  intro rest
  induction rest with
  | nil => intro _ _ _ e he; exact absurd he (List.not_mem_nil _)
  | cons x rest ih =>
    intro seen hseen hw e he
    simp only [walkPathsFrom, Bool.and_eq_true, List.any_eq_true, Bool.not_eq_true',
      decide_eq_true_eq] at hw
    obtain ⟨⟨q, hq, ⟨⟨-, -⟩, hname⟩, hpath⟩, hrest⟩ := hw
    obtain ⟨hqc, hqd⟩ := hseen q hq
    have hx : isBelow dir x.path := by
      rw [hpath]
      rcases hqd with h | h
      · have := isBelow_child q.path (Base x.path) hqc hname
        rw [h] at this ⊢
        exact this
      · exact isBelow_child_of_isBelow dir q.path (Base x.path) hqc hname h
    rcases List.mem_cons.1 he with rfl | he
    · exact hx
    · refine ih (x :: seen) ?_ hrest e he
      intro y hy
      rcases List.mem_cons.1 hy with rfl | hy
      · refine ⟨?_, Or.inr hx⟩
        rw [hpath]
        exact Clean_Join_child q.path (Base y.path) hqc
      · exact hseen y hy

/-- In a walk that `filepath.Walk` makes of a directory with a clean path, every regular file
handed over lies inside the directory. -/
theorem walkPaths_below (dir : String) (w : List WalkEntry) (hdir : Clean dir = dir)
    (hw : walkPaths dir w = true) : ∀ e ∈ w, e.regular = true → isBelow dir e.path := by
  cases w with
  | nil => intro e he; exact absurd he (List.not_mem_nil _)
  | cons r rest =>
    simp only [walkPaths, Bool.and_eq_true, decide_eq_true_eq, Bool.not_eq_true'] at hw
    obtain ⟨⟨hroot, hreg⟩, hrest⟩ := hw
    intro e he hre
    rcases List.mem_cons.1 he with rfl | he
    · rw [hreg] at hre
      exact absurd hre (by simp)
    · refine walkPathsFrom_below dir rest [r] ?_ hrest e he
      intro q hq
      rw [List.mem_singleton] at hq
      subst hq
      exact ⟨by rw [hroot]; exact hdir, Or.inl hroot⟩


/-! ## The claims -/

/-- C1: for every retention floor `keep` (so for every `keep ≥ 0`), every non-zero
`purgeFilesAfter` and every `now`, `os.Remove` is never called with the path of a file that
stands at one of the last `min(keep, n)` positions of its package group sorted by modification
time, whatever its access time; in particular no file of a group of at most `keep` files is
removed. The walk yields each path once. -/
theorem C1_protected_tail_never_removed (now : Int) (walk : String → List WalkEntry)
    (cacheDir repoName : String) (purgeFilesAfter keep : Int)
    (hpfa : purgeFilesAfter ≠ 0)
    (hpaths : ((walk (pkgDir cacheDir repoName)).map WalkEntry.path).Nodup) :
    ∃ calls num size,
      purgeStaleFiles now walk cacheDir purgeFilesAfter keep repoName =
        Outcome.done calls num size ∧
      ∀ kv ∈ Walk repoName (walk (pkgDir cacheDir repoName)) [],
        (∀ (i : Nat) (f : packageFile), (SortFunc kv.2.files)[i]? = some f →
          (kv.2.files.length : Int) - min keep kv.2.files.length ≤ i → f.path ∉ calls) ∧
        ((kv.2.files.length : Int) ≤ keep → ∀ f ∈ kv.2.files, f.path ∉ calls) := by
  refine ⟨_, _, _, purgeStaleFiles_eq now walk cacheDir purgeFilesAfter keep repoName hpfa, ?_⟩
  intro kv hkv
  have main : ∀ (i : Nat) (f : packageFile), (SortFunc kv.2.files)[i]? = some f →
      (kv.2.files.length : Int) - min keep kv.2.files.length ≤ i →
      f.path ∉ (removedFiles keep (removeIfOlder now purgeFilesAfter)
        (Walk repoName (walk (pkgDir cacheDir repoName)) [])).flatMap removeCallsOf := by
    intro i f hi hpos
    apply tail_not_removed repoName _ keep _ hpaths kv hkv
    have hm : ((kv.2.files.length : Int) - keep).toNat ≤ i := by omega
    have : ((SortFunc kv.2.files).drop ((kv.2.files.length : Int) - keep).toNat)[
        i - ((kv.2.files.length : Int) - keep).toNat]? = some f := by
      rw [List.getElem?_drop, show ((kv.2.files.length : Int) - keep).toNat +
        (i - ((kv.2.files.length : Int) - keep).toNat) = i by omega]
      exact hi
    exact List.getElem?_mem this
  refine ⟨main, ?_⟩
  intro hle f hf
  obtain ⟨i, hi⟩ := List.getElem?_of_mem ((SortFunc_perm _).symm.subset hf)
  exact main i f hi (by omega)


/-- Witness of C1 on the example walk with `keep = 1`. -/
theorem C1_protected_tail_never_removed_witness :
    (100 : Int) ≠ 0 ∧
    ((exampleWalk (pkgDir "/c" "r")).map WalkEntry.path).Nodup ∧
    ∃ calls num size,
      purgeStaleFiles 1000000000000 exampleWalk "/c" 100 1 "r" = Outcome.done calls num size ∧
      ∀ kv ∈ Walk "r" (exampleWalk (pkgDir "/c" "r")) [],
        (∀ (i : Nat) (f : packageFile), (SortFunc kv.2.files)[i]? = some f →
          (kv.2.files.length : Int) - min (1 : Int) kv.2.files.length ≤ i → f.path ∉ calls) ∧
        ((kv.2.files.length : Int) ≤ 1 → ∀ f ∈ kv.2.files, f.path ∉ calls) :=
  ⟨by decide, by decide,
    C1_protected_tail_never_removed 1000000000000 exampleWalk "/c" "r" 100 1 (by decide)
      (by decide)⟩

/-- C2, counterexample: with `purgeFilesAfter = 9223372037` the `int64` product of line 64
wraps around to a positive duration, the threshold lies after `now`, and a deletion candidate
whose access time is `now` (so not before `now` minus `purgeFilesAfter` seconds) is removed. -/
theorem C2_counterexample :
    purgeStaleFiles 0
      (fun dir => [{ path := dir ++ "/file-1.00-1-any.pkg.tar.zst", err := false, regular := true,
                     modTime := 0, accessTime := 0, size := 9 }])
      "/c" 9223372037 0 "r" =
      Outcome.done ["/c/pkgs/r/file-1.00-1-any.pkg.tar.zst",
        "/c/pkgs/r/file-1.00-1-any.pkg.tar.zst.sig"] 0 0 ∧
    ¬ ((0 : Int) < 0 - 9223372037 * 1000000000) := by
  decide

/-- C2, amended: for every `purgeFilesAfter` other than 0 whose number of nanoseconds fits a
`time.Duration` (between -9223372036 and 9223372036 seconds) and every `keep`, a file at a sorted
position strictly before the last `keep` positions has its path among the `os.Remove` arguments
if and only if its access time is strictly earlier than `now` minus `purgeFilesAfter` seconds; a
candidate whose access time equals that threshold is not removed; with `keep = 0` this holds for
every file of the group. -/
theorem C2_candidate_removed_iff_stale (now : Int) (walk : String → List WalkEntry)
    (cacheDir repoName : String) (purgeFilesAfter keep : Int)
    (hpfa : purgeFilesAfter ≠ 0)
    (hlo : -9223372036 ≤ purgeFilesAfter) (hhi : purgeFilesAfter ≤ 9223372036)
    (hpaths : ((walk (pkgDir cacheDir repoName)).map WalkEntry.path).Nodup) :
    ∃ calls num size,
      purgeStaleFiles now walk cacheDir purgeFilesAfter keep repoName =
        Outcome.done calls num size ∧
      ∀ kv ∈ Walk repoName (walk (pkgDir cacheDir repoName)) [],
        (∀ (i : Nat) (f : packageFile), (SortFunc kv.2.files)[i]? = some f →
          (i : Int) < (kv.2.files.length : Int) - keep →
          ((f.path ∈ calls ↔ f.atime < now - purgeFilesAfter * 1000000000) ∧
           (f.atime = now - purgeFilesAfter * 1000000000 → f.path ∉ calls))) ∧
        (keep = 0 → ∀ f ∈ kv.2.files,
          (f.path ∈ calls ↔ f.atime < now - purgeFilesAfter * 1000000000)) := by
  refine ⟨_, _, _, purgeStaleFiles_eq now walk cacheDir purgeFilesAfter keep repoName hpfa, ?_⟩
  intro kv hkv
  have main : ∀ (i : Nat) (f : packageFile), (SortFunc kv.2.files)[i]? = some f →
      (i : Int) < (kv.2.files.length : Int) - keep →
      (f.path ∈ (removedFiles keep (removeIfOlder now purgeFilesAfter)
        (Walk repoName (walk (pkgDir cacheDir repoName)) [])).flatMap removeCallsOf ↔
        f.atime < now - purgeFilesAfter * 1000000000) := by
    intro i f hi hpos
    rw [candidate_removed_iff repoName _ keep _ hpaths kv hkv f
      (mem_take_of_lt _ _ i f hi (by omega)), removeIfOlder_eq now purgeFilesAfter hlo hhi]
  refine ⟨fun i f hi hpos => ⟨main i f hi hpos, fun heq hmem => ?_⟩, ?_⟩
  · have := (main i f hi hpos).1 hmem
    omega
  · intro hk f hf
    obtain ⟨i, hi⟩ := List.getElem?_of_mem ((SortFunc_perm _).symm.subset hf)
    have hlt : i < (SortFunc kv.2.files).length := by
      by_contra hge
      rw [List.getElem?_eq_none (by omega)] at hi
      cases hi
    rw [SortFunc_length] at hlt
    exact main i f hi (by omega)

/-- Witness of C2 (amended) on the example walk with `keep = 1`. -/
theorem C2_candidate_removed_iff_stale_witness :
    (100 : Int) ≠ 0 ∧ (-9223372036 : Int) ≤ 100 ∧ (100 : Int) ≤ 9223372036 ∧
    ((exampleWalk (pkgDir "/c" "r")).map WalkEntry.path).Nodup ∧
    ∃ calls num size,
      purgeStaleFiles 1000000000000 exampleWalk "/c" 100 1 "r" = Outcome.done calls num size ∧
      ∀ kv ∈ Walk "r" (exampleWalk (pkgDir "/c" "r")) [],
        (∀ (i : Nat) (f : packageFile), (SortFunc kv.2.files)[i]? = some f →
          (i : Int) < (kv.2.files.length : Int) - 1 →
          ((f.path ∈ calls ↔ f.atime < 1000000000000 - 100 * 1000000000) ∧
           (f.atime = 1000000000000 - 100 * 1000000000 → f.path ∉ calls))) ∧
        ((1 : Int) = 0 → ∀ f ∈ kv.2.files,
          (f.path ∈ calls ↔ f.atime < 1000000000000 - 100 * 1000000000)) :=
  ⟨by decide, by decide, by decide, by decide,
    C2_candidate_removed_iff_stale 1000000000000 exampleWalk "/c" "r" 100 1 (by decide)
      (by decide) (by decide) (by decide)⟩


/-- C3, the code at the failing input: the name `file-1.0-1-x86_64_pkg_tar_zst`, which has no
literal dot, is classified as a package artifact (the three unescaped dots of the pattern match
`_`); a pass files it under the package `file` and, its access time being stale, removes it. -/
theorem C3_unescaped_dots_match :
    FindStringSubmatch "file-1.0-1-x86_64_pkg_tar_zst" =
      ["file-1.0-1-x86_64_pkg_tar_zst", "file", "1.0", "1", "x86_64"] ∧
    purgeStaleFiles 1000000000000
      (fun dir => [{ path := dir ++ "/file-1.0-1-x86_64_pkg_tar_zst", err := false,
                     regular := true, modTime := 0, accessTime := 0, size := 9 }])
      "/c" 100 0 "r" =
      Outcome.done ["/c/pkgs/r/file-1.0-1-x86_64_pkg_tar_zst",
        "/c/pkgs/r/file-1.0-1-x86_64_pkg_tar_zst.sig"] 0 0 := by
  decide


/-- C4, the code at the failing input: a pass over one stale file calls `os.Remove` on it and
sets both gauges to 0; when these `os.Remove` calls fail, the matching file of 9 bytes is still on
disk although the gauges say 0 files and 0 bytes. -/
theorem C4_gauges_after_failed_remove :
    purgeStaleFiles 1000000000000
      (fun dir => [{ path := dir ++ "/file-1.00-1-any.pkg.tar.zst", err := false,
                     regular := true, modTime := 0, accessTime := 0, size := 9 }])
      "/c" 100 0 "r" =
      Outcome.done ["/c/pkgs/r/file-1.00-1-any.pkg.tar.zst",
        "/c/pkgs/r/file-1.00-1-any.pkg.tar.zst.sig"] 0 0 ∧
    (diskAfter (fun _ => true)
      ["/c/pkgs/r/file-1.00-1-any.pkg.tar.zst", "/c/pkgs/r/file-1.00-1-any.pkg.tar.zst.sig"]
      [{ path := "/c/pkgs/r/file-1.00-1-any.pkg.tar.zst", err := false,
         regular := true, modTime := 0, accessTime := 0, size := 9 }]).filter isPackage =
      [{ path := "/c/pkgs/r/file-1.00-1-any.pkg.tar.zst", err := false,
         regular := true, modTime := 0, accessTime := 0, size := 9 }] := by
  decide

/-- C5, counterexample: `<cacheDir>/pkgs/<repoName>` is not a directory but a regular file
whose name has the form of a package file name; it is stale and `keep = 0`. The walk hands over
the root alone; the pass removes it and calls `os.Remove` on the root's `.sig`, a path outside
`<cacheDir>/pkgs/<repoName>`: a file of that path is gone after the pass. -/
theorem C5_counterexample :
    pkgDir "/c" "file-1.00-1-any.pkg.tar.zst" = "/c/pkgs/file-1.00-1-any.pkg.tar.zst" ∧
    purgeStaleFiles 1000000000000 fileWalk "/c" 100 0 "file-1.00-1-any.pkg.tar.zst" =
      Outcome.done ["/c/pkgs/file-1.00-1-any.pkg.tar.zst",
        "/c/pkgs/file-1.00-1-any.pkg.tar.zst.sig"] 0 0 ∧
    ¬ isBelow (pkgDir "/c" "file-1.00-1-any.pkg.tar.zst")
      "/c/pkgs/file-1.00-1-any.pkg.tar.zst.sig" ∧
    diskAfter (fun _ => false)
      ["/c/pkgs/file-1.00-1-any.pkg.tar.zst", "/c/pkgs/file-1.00-1-any.pkg.tar.zst.sig"]
      [{ path := "/c/pkgs/file-1.00-1-any.pkg.tar.zst.sig", err := false, regular := true,
         modTime := 100000000000, accessTime := 100000000000, size := 1 }] = [] := by
  decide

/-- C5, amended: every path on which a pass attempts a removal is the path `p` of an entry of
the walk of `pkgDir` that is a regular file, whose base name matches the pattern and which
stands, stale, at a sorted position before the last `keep` of its group, or is `p.sig` for such a
`p`; whatever `os.Remove` calls fail, the pass creates no file and every file whose path is not
one of these is still present afterwards; and when `pkgDir` is a directory, so that
`filepath.Walk` hands over `pkgDir` first, not as a regular file, and then only paths
`filepath.Join(d, name)` for a directory `d` handed over before and a name of its listing, every
path of a removal lies inside `pkgDir` (it starts with `pkgDir` and a slash) and every file
outside `pkgDir` is still present afterwards. -/
theorem C5_only_stale_candidates_touched (now : Int) (walk : String → List WalkEntry)
    (cacheDir repoName : String) (purgeFilesAfter keep : Int)
    (hpfa : purgeFilesAfter ≠ 0) :
    ∃ calls num size,
      purgeStaleFiles now walk cacheDir purgeFilesAfter keep repoName =
        Outcome.done calls num size ∧
      (∀ q ∈ calls, ∃ e ∈ walk (pkgDir cacheDir repoName),
        e.err = false ∧ e.regular = true ∧ (FindStringSubmatch (Base e.path)).length ≠ 0 ∧
        (∃ kv ∈ Walk repoName (walk (pkgDir cacheDir repoName)) [], ∃ i : Nat,
          (SortFunc kv.2.files)[i]? = some (toPackageFile e) ∧
          (i : Int) < (kv.2.files.length : Int) - keep ∧
          e.accessTime < removeIfOlder now purgeFilesAfter) ∧
        (q = e.path ∨ q = e.path ++ ".sig")) ∧
      (∀ (removeFails : String → Bool) (disk : List WalkEntry),
        (diskAfter removeFails calls disk).Sublist disk ∧
        ∀ e ∈ disk, e.path ∉ calls → e ∈ diskAfter removeFails calls disk) ∧
      (walkPaths (pkgDir cacheDir repoName) (walk (pkgDir cacheDir repoName)) = true →
        (∀ q ∈ calls, isBelow (pkgDir cacheDir repoName) q) ∧
        ∀ (removeFails : String → Bool) (disk : List WalkEntry),
          ∀ e ∈ disk, ¬ isBelow (pkgDir cacheDir repoName) e.path →
            e ∈ diskAfter removeFails calls disk) := by
  refine ⟨_, _, _, purgeStaleFiles_eq now walk cacheDir purgeFilesAfter keep repoName hpfa, ?_⟩
  have origin := mem_calls_origin repoName (walk (pkgDir cacheDir repoName)) keep
    (removeIfOlder now purgeFilesAfter)
  refine ⟨?_, ?_, ?_⟩
  · intro q hq
    obtain ⟨e, he, kv, hkv, i, hi, hpos, hold, hqe⟩ := origin q hq
    obtain ⟨h1, h2, h3, h4⟩ := mem_scanned _ e he
    exact ⟨e, h1, h2, h3, h4, ⟨kv, hkv, i, hi, hpos, hold⟩, hqe⟩
  · intro removeFails disk
    refine ⟨?_, ?_⟩
    · rw [diskAfter_eq_filter]
      exact List.filter_sublist _
    · intro e he hne
      rw [mem_diskAfter]
      exact ⟨he, fun h => absurd h hne⟩
  · intro hpaths
    have hbelow := walkPaths_below (pkgDir cacheDir repoName) (walk (pkgDir cacheDir repoName))
      (Clean_pkgDir cacheDir repoName) hpaths
    have hcalls := calls_below repoName (walk (pkgDir cacheDir repoName)) keep
      (removeIfOlder now purgeFilesAfter) (pkgDir cacheDir repoName) hbelow
    refine ⟨hcalls, ?_⟩
    intro removeFails disk e he hout
    rw [mem_diskAfter]
    exact ⟨he, fun h => absurd (hcalls _ h) hout⟩

/-- Witness of C5 (amended) on the example walk, with a cache directory written with a closing
slash. -/
theorem C5_only_stale_candidates_touched_witness :
    (100 : Int) ≠ 0 ∧
    pkgDir "/c/" "r" = "/c/pkgs/r" ∧
    walkPaths (pkgDir "/c/" "r") (exampleWalk (pkgDir "/c/" "r")) = true ∧
    ∃ calls num size,
      purgeStaleFiles 1000000000000 exampleWalk "/c/" 100 1 "r" = Outcome.done calls num size ∧
      (∀ q ∈ calls, ∃ e ∈ exampleWalk (pkgDir "/c/" "r"),
        e.err = false ∧ e.regular = true ∧ (FindStringSubmatch (Base e.path)).length ≠ 0 ∧
        (∃ kv ∈ Walk "r" (exampleWalk (pkgDir "/c/" "r")) [], ∃ i : Nat,
          (SortFunc kv.2.files)[i]? = some (toPackageFile e) ∧
          (i : Int) < (kv.2.files.length : Int) - 1 ∧
          e.accessTime < removeIfOlder 1000000000000 100) ∧
        (q = e.path ∨ q = e.path ++ ".sig")) ∧
      (∀ (removeFails : String → Bool) (disk : List WalkEntry),
        (diskAfter removeFails calls disk).Sublist disk ∧
        ∀ e ∈ disk, e.path ∉ calls → e ∈ diskAfter removeFails calls disk) ∧
      (walkPaths (pkgDir "/c/" "r") (exampleWalk (pkgDir "/c/" "r")) = true →
        (∀ q ∈ calls, isBelow (pkgDir "/c/" "r") q) ∧
        ∀ (removeFails : String → Bool) (disk : List WalkEntry),
          ∀ e ∈ disk, ¬ isBelow (pkgDir "/c/" "r") e.path →
            e ∈ diskAfter removeFails calls disk) :=
  ⟨by decide, by decide, by decide,
    C5_only_stale_candidates_touched 1000000000000 exampleWalk "/c/" "r" 100 1 (by decide)⟩

/-- C6, counterexample: thirteen versions of one package, version `1.09` older than the twelve
others, which share one modification time; versions `1.01` and `1.09` are stale and `keep = 4`.
The quicksort of `slices.SortFunc` puts `1.01` among the last four, so the first pass removes
`1.09` only and sets the gauges to 12 files. Of the twelve files left, sorted by insertion in
walk order, `1.01` stands second: the second pass, with the same `now` and parameters, removes it
and sets the gauges to 11 files. -/
theorem C6_counterexample :
    purgeStaleFiles 1000000000000 (tiedWalk ["01", "09"]) "/c" 100 4 "r" =
      Outcome.done ["/c/pkgs/r/file-1.09-1-any.pkg.tar.zst",
        "/c/pkgs/r/file-1.09-1-any.pkg.tar.zst.sig"] 12 12 ∧
    purgeStaleFiles 1000000000000
      (fun dir => diskAfter (fun _ => false)
        ["/c/pkgs/r/file-1.09-1-any.pkg.tar.zst", "/c/pkgs/r/file-1.09-1-any.pkg.tar.zst.sig"]
        (tiedWalk ["01", "09"] dir))
      "/c" 100 4 "r" =
      Outcome.done ["/c/pkgs/r/file-1.01-1-any.pkg.tar.zst",
        "/c/pkgs/r/file-1.01-1-any.pkg.tar.zst.sig"] 11 11 := by
  decide

/-- C6, amended: for every walk of the repository directory (pairwise distinct paths, no walk
error), every `keep ≥ 0`, every non-zero `purgeFilesAfter` and every `now`, provided that
`keep = 0` or that every package group has at most 12 files or no two files of the same
modification time: when a first pass is run, all its removals succeed, and a second pass is run
over the files that are left, with the same `now` and parameters, the second pass calls
`os.Remove` on no path and sets the count gauge and the size gauge to the values the first pass
set. -/
theorem C6_second_pass_idempotent (now : Int) (walk : String → List WalkEntry)
    (cacheDir repoName : String) (purgeFilesAfter keep : Int)
    (hpfa : purgeFilesAfter ≠ 0) (hkeep : 0 ≤ keep)
    (hpaths : ((walk (pkgDir cacheDir repoName)).map WalkEntry.path).Nodup)
    (hnoerr : ∀ e ∈ walk (pkgDir cacheDir repoName), e.err = false)
    (hties : keep = 0 ∨ ∀ kv ∈ Walk repoName (walk (pkgDir cacheDir repoName)) [],
      kv.2.files.length ≤ 12 ∨ kv.2.files.Pairwise (fun a b => a.mtime ≠ b.mtime)) :
    ∃ calls num size,
      purgeStaleFiles now walk cacheDir purgeFilesAfter keep repoName =
        Outcome.done calls num size ∧
      purgeStaleFiles now (fun dir => diskAfter (fun _ => false) calls (walk dir))
        cacheDir purgeFilesAfter keep repoName = Outcome.done [] num size := by
  refine ⟨_, _, _, purgeStaleFiles_eq now walk cacheDir purgeFilesAfter keep repoName hpfa, ?_⟩
  rw [purgeStaleFiles_eq _ _ _ _ _ _ hpfa]
  -- abbreviations
  generalize hes : walk (pkgDir cacheDir repoName) = es at hpaths hnoerr hties ⊢
  generalize hthr : removeIfOlder now purgeFilesAfter = thr
  generalize hcalls :
    (removedFiles keep thr (Walk repoName es [])).flatMap removeCallsOf = calls
  -- the second walk
  have hes2 : diskAfter (fun _ => false) calls es =
      es.filter (fun e => !decide (e.path ∈ calls)) := by
    rw [diskAfter_eq_filter]
    apply List.filter_congr
    intro e _
    simp
  have hsc2 : scanned (diskAfter (fun _ => false) calls es) =
      (scanned es).filter (fun e => !decide (e.path ∈ calls)) := by
    rw [hes2, scanned_of_no_err _ hnoerr,
      scanned_of_no_err _ (fun e he => hnoerr e (List.mem_filter.1 he).1),
      List.filter_filter, List.filter_filter]
    apply List.filter_congr
    intro e _
    exact Bool.and_comm _ _
  obtain ⟨_, hcov, hgrp⟩ := Walk_spec repoName es
  -- the second pass finds no stale candidate
  have hrem2 : removedFiles keep thr
      (Walk repoName (diskAfter (fun _ => false) calls es) []) = [] := by
    rw [removedFiles_eq_keys, List.flatMap_eq_nil_iff]
    intro k hk
    obtain ⟨e, he, hke⟩ := (mem_keys_iff repoName _ k).1 hk
    rw [hsc2] at he
    obtain ⟨kv, hkv, hkk⟩ := List.mem_map.1 (hcov e (List.mem_filter.1 he).1)
    rw [hsc2, groupFiles_filter, ← hke, ← hkk, ← (hgrp kv hkv).1, ← hcalls]
    exact staleOf_survivors repoName es keep thr hkeep hpaths kv hkv
      (hties.imp id (fun h => h kv hkv))
  -- the files of the second pass are the survivors of the first
  have hall2 : (allFiles (Walk repoName (diskAfter (fun _ => false) calls es) [])).Perm
      ((allFiles (Walk repoName es [])).filter (fun f => !decide (f.path ∈ calls))) := by
    refine (allFiles_perm repoName _).trans ?_
    rw [hsc2]
    refine List.Perm.trans (List.Perm.of_eq ?_) ((allFiles_perm repoName es).symm.filter _)
    rw [List.filter_map]
    rfl
  have hrem1 : (removedFiles keep thr (Walk repoName es [])).Perm
      ((allFiles (Walk repoName es [])).filter (fun f => decide (f.path ∈ calls))) := by
    have := removedFiles_perm repoName es keep thr hpaths
    rw [hcalls] at this
    exact this
  have hsplit := List.filter_append_perm (fun f => decide (f.path ∈ calls))
    (allFiles (Walk repoName es []))
  rw [hrem2]
  congr 1
  · rw [hall2.length_eq, hrem1.length_eq, ← hsplit.length_eq, List.length_append]
    simp
  · rw [(hall2.map _).sum_eq, (hrem1.map _).sum_eq, ← (hsplit.map _).sum_eq, List.map_append,
      List.sum_append]
    simp


/-- Witness of C6 (amended) on the example walk with `keep = 1`. -/
theorem C6_second_pass_idempotent_witness :
    (100 : Int) ≠ 0 ∧ (0 : Int) ≤ 1 ∧
    ((exampleWalk (pkgDir "/c" "r")).map WalkEntry.path).Nodup ∧
    (∀ e ∈ exampleWalk (pkgDir "/c" "r"), e.err = false) ∧
    ((1 : Int) = 0 ∨ ∀ kv ∈ Walk "r" (exampleWalk (pkgDir "/c" "r")) [],
      kv.2.files.length ≤ 12 ∨ kv.2.files.Pairwise (fun a b => a.mtime ≠ b.mtime)) ∧
    ∃ calls num size,
      purgeStaleFiles 1000000000000 exampleWalk "/c" 100 1 "r" = Outcome.done calls num size ∧
      purgeStaleFiles 1000000000000 (fun dir => diskAfter (fun _ => false) calls (exampleWalk dir))
        "/c" 100 1 "r" = Outcome.done [] num size :=
  ⟨by decide, by decide, by decide, by decide, by decide,
    C6_second_pass_idempotent 1000000000000 exampleWalk "/c" "r" 100 1 (by decide) (by decide)
      (by decide) (by decide) (by decide)⟩

/-- C7: `purgeStaleFiles` ends in the fatal configuration error exactly when `purgeFilesAfter`
is 0, for every `cacheDir`, `keep`, `repoName`, clock and directory content; the fatal outcome
carries no `os.Remove` call and no gauge value. -/
theorem C7_fatal_iff_zero (now : Int) (walk : String → List WalkEntry)
    (cacheDir repoName : String) (purgeFilesAfter keep : Int) :
    purgeStaleFiles now walk cacheDir purgeFilesAfter keep repoName = Outcome.fatal ↔
      purgeFilesAfter = 0 := by
  unfold purgeStaleFiles
  by_cases h : purgeFilesAfter = 0 <;> simp [h]

/-- C9: for every `keep ≥ 0` and every non-zero `purgeFilesAfter`, each file of a package group
whose path is among the `os.Remove` arguments has at least `keep` files at other positions of
the group whose paths are not among them and whose modification time is greater than or equal to
its own; and at least `min(keep, n)` files of a group of `n` files are not removed. -/
theorem C9_retention_floor (now : Int) (walk : String → List WalkEntry)
    (cacheDir repoName : String) (purgeFilesAfter keep : Int)
    (hpfa : purgeFilesAfter ≠ 0) (hkeep : 0 ≤ keep)
    (hpaths : ((walk (pkgDir cacheDir repoName)).map WalkEntry.path).Nodup) :
    ∃ calls num size,
      purgeStaleFiles now walk cacheDir purgeFilesAfter keep repoName =
        Outcome.done calls num size ∧
      ∀ kv ∈ Walk repoName (walk (pkgDir cacheDir repoName)) [],
        (∀ (i : Nat) (f : packageFile), (SortFunc kv.2.files)[i]? = some f → f.path ∈ calls →
          keep ≤ ((((SortFunc kv.2.files).eraseIdx i).filter
            (fun g => decide (g.path ∉ calls) && decide (f.mtime ≤ g.mtime))).length : Int)) ∧
        (min keep kv.2.files.length ≤
          ((kv.2.files.filter (fun g => decide (g.path ∉ calls))).length : Int)) := by
  refine ⟨_, _, _, purgeStaleFiles_eq now walk cacheDir purgeFilesAfter keep repoName hpfa, ?_⟩
  intro kv hkv
  have hlen := SortFunc_length kv.2.files
  have htail := tail_not_removed repoName _ keep (removeIfOlder now purgeFilesAfter)
    hpaths kv hkv
  have hnd := files_nodup repoName _ hpaths kv hkv
  constructor
  · intro i f hi hmem
    -- the removed file is a deletion candidate
    have him : i < ((kv.2.files.length : Int) - keep).toNat := by
      by_contra hge
      have hdrop : f ∈ (SortFunc kv.2.files).drop ((kv.2.files.length : Int) - keep).toNat := by
        have : ((SortFunc kv.2.files).drop ((kv.2.files.length : Int) - keep).toNat)[
            i - ((kv.2.files.length : Int) - keep).toNat]? = some f := by
          rw [List.getElem?_drop, show ((kv.2.files.length : Int) - keep).toNat +
            (i - ((kv.2.files.length : Int) - keep).toNat) = i by omega]
          exact hi
        exact List.getElem?_mem this
      exact htail f hdrop hmem
    have hftake : f ∈ (SortFunc kv.2.files).take ((kv.2.files.length : Int) - keep).toNat :=
      mem_take_of_lt _ _ i f hi him
    -- the protected tail lies within the other positions
    have hsub : ((SortFunc kv.2.files).drop ((kv.2.files.length : Int) - keep).toNat).Sublist
        ((SortFunc kv.2.files).eraseIdx i) := by
      rw [List.eraseIdx_eq_take_drop_succ]
      refine List.Sublist.trans ?_ (List.sublist_append_right _ _)
      have : (SortFunc kv.2.files).drop ((kv.2.files.length : Int) - keep).toNat =
          ((SortFunc kv.2.files).drop (i + 1)).drop
            (((kv.2.files.length : Int) - keep).toNat - (i + 1)) := by
        rw [List.drop_drop]
        congr 1
        omega
      rw [this]
      exact List.drop_sublist _ _
    have hsorted := SortFunc_sorted kv.2.files
    rw [← List.take_append_drop ((kv.2.files.length : Int) - keep).toNat (SortFunc kv.2.files),
      List.pairwise_append] at hsorted
    have hall : ((SortFunc kv.2.files).drop ((kv.2.files.length : Int) - keep).toNat).filter
        (fun g => decide (g.path ∉ (removedFiles keep (removeIfOlder now purgeFilesAfter)
          (Walk repoName (walk (pkgDir cacheDir repoName)) [])).flatMap removeCallsOf) &&
          decide (f.mtime ≤ g.mtime)) =
        (SortFunc kv.2.files).drop ((kv.2.files.length : Int) - keep).toNat := by
      rw [List.filter_eq_self]
      intro g hg
      simp only [Bool.and_eq_true, decide_eq_true_eq]
      exact ⟨htail g hg, hsorted.2.2 f hftake g hg⟩
    have hle := (hsub.filter (fun g => decide (g.path ∉ (removedFiles keep
      (removeIfOlder now purgeFilesAfter)
      (Walk repoName (walk (pkgDir cacheDir repoName)) [])).flatMap removeCallsOf) &&
      decide (f.mtime ≤ g.mtime))).length_le
    rw [hall, List.length_drop, hlen] at hle
    omega
  · have hperm : (kv.2.files.filter (fun g => decide (g.path ∉ (removedFiles keep
        (removeIfOlder now purgeFilesAfter)
        (Walk repoName (walk (pkgDir cacheDir repoName)) [])).flatMap removeCallsOf))).length =
        ((SortFunc kv.2.files).filter (fun g => decide (g.path ∉ (removedFiles keep
        (removeIfOlder now purgeFilesAfter)
        (Walk repoName (walk (pkgDir cacheDir repoName)) [])).flatMap removeCallsOf))).length :=
      ((SortFunc_perm kv.2.files).symm.filter _).length_eq
    have hall : ((SortFunc kv.2.files).drop ((kv.2.files.length : Int) - keep).toNat).filter
        (fun g => decide (g.path ∉ (removedFiles keep (removeIfOlder now purgeFilesAfter)
          (Walk repoName (walk (pkgDir cacheDir repoName)) [])).flatMap removeCallsOf)) =
        (SortFunc kv.2.files).drop ((kv.2.files.length : Int) - keep).toNat := by
      rw [List.filter_eq_self]
      intro g hg
      simp only [decide_eq_true_eq]
      exact htail g hg
    have hle := (((List.drop_sublist ((kv.2.files.length : Int) - keep).toNat
      (SortFunc kv.2.files))).filter (fun g => decide (g.path ∉ (removedFiles keep
      (removeIfOlder now purgeFilesAfter)
      (Walk repoName (walk (pkgDir cacheDir repoName)) [])).flatMap removeCallsOf))).length_le
    rw [hall, List.length_drop, hlen] at hle
    rw [hperm]
    omega


/-- Witness of C9 on the example walk with `keep = 1`. -/
theorem C9_retention_floor_witness :
    (100 : Int) ≠ 0 ∧ (0 : Int) ≤ 1 ∧
    ((exampleWalk (pkgDir "/c" "r")).map WalkEntry.path).Nodup ∧
    ∃ calls num size,
      purgeStaleFiles 1000000000000 exampleWalk "/c" 100 1 "r" = Outcome.done calls num size ∧
      ∀ kv ∈ Walk "r" (exampleWalk (pkgDir "/c" "r")) [],
        (∀ (i : Nat) (f : packageFile), (SortFunc kv.2.files)[i]? = some f → f.path ∈ calls →
          (1 : Int) ≤ ((((SortFunc kv.2.files).eraseIdx i).filter
            (fun g => decide (g.path ∉ calls) && decide (f.mtime ≤ g.mtime))).length : Int)) ∧
        (min (1 : Int) kv.2.files.length ≤
          ((kv.2.files.filter (fun g => decide (g.path ∉ calls))).length : Int)) :=
  ⟨by decide, by decide, by decide,
    C9_retention_floor 1000000000000 exampleWalk "/c" "r" 100 1 (by decide) (by decide)
      (by decide)⟩

/-- C10: for every non-empty name `n` over letters, digits, `-`, `_`, `+`, every non-empty
version `v` over letters, digits, `.`, `:`, `+`, every release `r` of one or more digits, every
non-empty arch `a` over letters, digits, `_`, and `ext` one of `zst`, `xz`, the classifier matches
`n-v-r-a.pkg.tar.ext`, capture group 1 is exactly `n` (the other groups are `v`, `r`, `a`), and
the walk function files such a file under the key `repoName/n` in a package named `n`. -/
theorem C10_name_round_trip (n v r a ext : String)
    (hn : n.data ≠ []) (hnc : ∀ c ∈ n.data, pkgnameClass c = true)
    (hv : v.data ≠ []) (hvc : ∀ c ∈ v.data, pkgverClass c = true)
    (hr : r.data ≠ []) (hrc : ∀ c ∈ r.data, pkgrelClass c = true)
    (ha : a.data ≠ []) (hac : ∀ c ∈ a.data, archClass c = true)
    (hext : ext = "zst" ∨ ext = "xz") :
    FindStringSubmatch (n ++ "-" ++ v ++ "-" ++ r ++ "-" ++ a ++ ".pkg.tar." ++ ext) =
        [n ++ "-" ++ v ++ "-" ++ r ++ "-" ++ a ++ ".pkg.tar." ++ ext, n, v, r, a] ∧
      ∀ (repoName : String) (e : WalkEntry), e.err = false → e.regular = true →
        Base e.path = n ++ "-" ++ v ++ "-" ++ r ++ "-" ++ a ++ ".pkg.tar." ++ ext →
        walkfn repoName [] e = some [(repoName ++ "/" ++ n,
          { name := n, repo := repoName, count := 1, files := [toPackageFile e] })] := by
  have hp : Parses (n ++ "-" ++ v ++ "-" ++ r ++ "-" ++ a ++ ".pkg.tar." ++ ext).data
      n.data v.data r.data a.data := by
    refine ⟨'.', '.', '.', ext.data, hn, hnc, hv, hvc, hr, hrc, ha, hac, by decide, by decide,
      by decide, ?_, ?_⟩
    · rcases hext with rfl | rfl
      · exact Or.inl rfl
      · exact Or.inr rfl
    · simp only [String.data_append, List.append_assoc]
      rfl
  have hm := re_eq_of_parses _ _ _ _ _ hp
  have hfind : FindStringSubmatch (n ++ "-" ++ v ++ "-" ++ r ++ "-" ++ a ++ ".pkg.tar." ++ ext) =
      [n ++ "-" ++ v ++ "-" ++ r ++ "-" ++ a ++ ".pkg.tar." ++ ext, n, v, r, a] := by
    unfold FindStringSubmatch
    rw [hm]
    rfl
  refine ⟨hfind, ?_⟩
  intro repoName e herr hreg hbase
  unfold walkfn
  simp [herr, hreg, hbase, hfind]


/-- Witness of C10: a name that itself contains hyphens and a version-like segment. -/
theorem C10_name_round_trip_witness :
    ("lib32-foo-2" : String).data ≠ [] ∧ (∀ c ∈ ("lib32-foo-2" : String).data, pkgnameClass c = true) ∧
    ("1.0+r5" : String).data ≠ [] ∧ (∀ c ∈ ("1.0+r5" : String).data, pkgverClass c = true) ∧
    ("3" : String).data ≠ [] ∧ (∀ c ∈ ("3" : String).data, pkgrelClass c = true) ∧
    ("any" : String).data ≠ [] ∧ (∀ c ∈ ("any" : String).data, archClass c = true) ∧
    (("xz" : String) = "zst" ∨ ("xz" : String) = "xz") ∧
    (FindStringSubmatch ("lib32-foo-2" ++ "-" ++ "1.0+r5" ++ "-" ++ "3" ++ "-" ++ "any" ++
          ".pkg.tar." ++ "xz") =
        ["lib32-foo-2" ++ "-" ++ "1.0+r5" ++ "-" ++ "3" ++ "-" ++ "any" ++ ".pkg.tar." ++ "xz",
          "lib32-foo-2", "1.0+r5", "3", "any"] ∧
      ∀ (repoName : String) (e : WalkEntry), e.err = false → e.regular = true →
        Base e.path = "lib32-foo-2" ++ "-" ++ "1.0+r5" ++ "-" ++ "3" ++ "-" ++ "any" ++
          ".pkg.tar." ++ "xz" →
        walkfn repoName [] e = some [(repoName ++ "/" ++ "lib32-foo-2",
          { name := "lib32-foo-2", repo := repoName, count := 1,
            files := [toPackageFile e] })]) :=
  ⟨by decide, by decide, by decide, by decide, by decide, by decide, by decide, by decide,
    by decide,
    C10_name_round_trip "lib32-foo-2" "1.0+r5" "3" "any" "xz" (by decide) (by decide)
      (by decide) (by decide) (by decide) (by decide) (by decide) (by decide) (by decide)⟩
/-- C11, counterexample: the walk meets a directory it cannot read before it reaches a package
file of 5 bytes. The walk function returns the error, the walk stops, no file is filed and no
removal is made (so every removal succeeds): the pass sets both gauges to 0, while one matching
file of 5 bytes is left. -/
theorem C11_counterexample :
    purgeStaleFiles 1000000000000 brokenWalk "/c" 100 1 "r" = Outcome.done [] 0 0 ∧
    (gaugesAfter (fun _ => 7) (fun _ => 7) "r"
      (purgeStaleFiles 1000000000000 brokenWalk "/c" 100 1 "r")).1 "r" = 0 ∧
    (gaugesAfter (fun _ => 7) (fun _ => 7) "r"
      (purgeStaleFiles 1000000000000 brokenWalk "/c" 100 1 "r")).2 "r" = 0 ∧
    ((diskAfter (fun _ => false) [] (brokenWalk (pkgDir "/c" "r"))).filter isPackage).map
      WalkEntry.size = [5] := by
  decide

/-- C11, amended: the values a pass sets on the two gauges of its repository do not depend on
the values the gauges had before: the count gauge is set to the number of filed entries (scanned
regular files matching the pattern) minus the number of stale deletion candidates, the size gauge
to the sum of the sizes of the filed entries minus the sum of the sizes of the stale candidates;
hence, when the walk ends without error and every removal succeeds (each path once), they are
the number and the total size of the matching regular files that are left. -/
theorem C11_gauges_from_this_pass (now : Int) (walk : String → List WalkEntry)
    (cacheDir repoName : String) (purgeFilesAfter keep : Int)
    (cachePackageGauge cacheSizeGauge : String → Int)
    (hpfa : purgeFilesAfter ≠ 0) :
    ∃ calls num size,
      purgeStaleFiles now walk cacheDir purgeFilesAfter keep repoName =
        Outcome.done calls num size ∧
      num = ((scanned (walk (pkgDir cacheDir repoName))).length : Int) -
        (removedFiles keep (removeIfOlder now purgeFilesAfter)
          (Walk repoName (walk (pkgDir cacheDir repoName)) [])).length ∧
      size = ((scanned (walk (pkgDir cacheDir repoName))).map WalkEntry.size).sum -
        ((removedFiles keep (removeIfOlder now purgeFilesAfter)
          (Walk repoName (walk (pkgDir cacheDir repoName)) [])).map packageFile.size).sum ∧
      (gaugesAfter cachePackageGauge cacheSizeGauge repoName
        (purgeStaleFiles now walk cacheDir purgeFilesAfter keep repoName)).1 repoName = num ∧
      (gaugesAfter cachePackageGauge cacheSizeGauge repoName
        (purgeStaleFiles now walk cacheDir purgeFilesAfter keep repoName)).2 repoName = size ∧
      (((walk (pkgDir cacheDir repoName)).map WalkEntry.path).Nodup →
        (∀ e ∈ walk (pkgDir cacheDir repoName), e.err = false) →
        num = (((diskAfter (fun _ => false) calls
          (walk (pkgDir cacheDir repoName))).filter isPackage).length : Int) ∧
        size = (((diskAfter (fun _ => false) calls
          (walk (pkgDir cacheDir repoName))).filter isPackage).map WalkEntry.size).sum) := by
  have heq := purgeStaleFiles_eq now walk cacheDir purgeFilesAfter keep repoName hpfa
  have hall := allFiles_perm repoName (walk (pkgDir cacheDir repoName))
  have hsize : ((scanned (walk (pkgDir cacheDir repoName))).map toPackageFile).map
      packageFile.size = (scanned (walk (pkgDir cacheDir repoName))).map WalkEntry.size := by
    rw [List.map_map]
    rfl
  refine ⟨_, _, _, heq, ?_, ?_, ?_, ?_, ?_⟩
  · rw [hall.length_eq, List.length_map]
  · rw [(hall.map _).sum_eq, hsize]
  · rw [heq]
    simp [gaugesAfter, gaugeSet]
  · rw [heq]
    simp [gaugesAfter, gaugeSet]
  · intro hnd hnoerr
    obtain ⟨h1, h2⟩ := survivors_totals repoName (walk (pkgDir cacheDir repoName)) keep
      (removeIfOlder now purgeFilesAfter) hnd
    have hf : ∀ l : List WalkEntry, ∀ calls : List String,
        l.filter (fun e => decide (e.path ∈ calls → (fun _ => false) e.path = true)) =
          l.filter (fun e => !decide (e.path ∈ calls)) := by
      intro l calls
      apply List.filter_congr
      intro e _
      simp
    rw [← scanned_of_no_err _ (fun e he => hnoerr e ((mem_diskAfter _ _ _ e).1 he).1),
      scanned_diskAfter _ _ _ hnoerr, hf, h1, h2, hall.length_eq, List.length_map,
      (hall.map _).sum_eq, hsize]
    exact ⟨rfl, rfl⟩


/-- Witness of C11 (amended) on the example walk with `keep = 1`, both gauges at 7 before the pass. -/
theorem C11_gauges_from_this_pass_witness :
    (100 : Int) ≠ 0 ∧
    ((exampleWalk (pkgDir "/c" "r")).map WalkEntry.path).Nodup ∧
    (∀ e ∈ exampleWalk (pkgDir "/c" "r"), e.err = false) ∧
    ∃ calls num size,
      purgeStaleFiles 1000000000000 exampleWalk "/c" 100 1 "r" = Outcome.done calls num size ∧
      num = ((scanned (exampleWalk (pkgDir "/c" "r"))).length : Int) -
        (removedFiles 1 (removeIfOlder 1000000000000 100)
          (Walk "r" (exampleWalk (pkgDir "/c" "r")) [])).length ∧
      size = ((scanned (exampleWalk (pkgDir "/c" "r"))).map WalkEntry.size).sum -
        ((removedFiles 1 (removeIfOlder 1000000000000 100)
          (Walk "r" (exampleWalk (pkgDir "/c" "r")) [])).map packageFile.size).sum ∧
      (gaugesAfter (fun _ => 7) (fun _ => 7) "r"
        (purgeStaleFiles 1000000000000 exampleWalk "/c" 100 1 "r")).1 "r" = num ∧
      (gaugesAfter (fun _ => 7) (fun _ => 7) "r"
        (purgeStaleFiles 1000000000000 exampleWalk "/c" 100 1 "r")).2 "r" = size ∧
      (((exampleWalk (pkgDir "/c" "r")).map WalkEntry.path).Nodup →
        (∀ e ∈ exampleWalk (pkgDir "/c" "r"), e.err = false) →
        num = (((diskAfter (fun _ => false) calls
          (exampleWalk (pkgDir "/c" "r"))).filter isPackage).length : Int) ∧
        size = (((diskAfter (fun _ => false) calls
          (exampleWalk (pkgDir "/c" "r"))).filter isPackage).map WalkEntry.size).sum) :=
  ⟨by decide, by decide, by decide,
    C11_gauges_from_this_pass 1000000000000 exampleWalk "/c" "r" 100 1 (fun _ => 7)
      (fun _ => 7) (by decide)⟩
/-- C12, counterexample to the last part: thirteen versions of one package, version `1.09`
older than the twelve others, which share one modification time; versions `1.08` and `1.09` are
stale, `keep = 4`, and `os.Remove` refuses to remove version `1.08`. The pass attempts the removal
of both (the quicksort of `slices.SortFunc` puts `1.08` ninth). Of the twelve files then left,
sorted by insertion in walk order, `1.08` is among the last four: the following pass, with the
same `now` and parameters, does not judge it a candidate and attempts no removal. -/
theorem C12_counterexample :
    purgeStaleFiles 1000000000000 (tiedWalk ["08", "09"]) "/c" 100 4 "r" =
      Outcome.done ["/c/pkgs/r/file-1.09-1-any.pkg.tar.zst",
        "/c/pkgs/r/file-1.09-1-any.pkg.tar.zst.sig",
        "/c/pkgs/r/file-1.08-1-any.pkg.tar.zst",
        "/c/pkgs/r/file-1.08-1-any.pkg.tar.zst.sig"] 11 11 ∧
    purgeStaleFiles 1000000000000
      (fun dir => diskAfter (fun p => p == "/c/pkgs/r/file-1.08-1-any.pkg.tar.zst")
        ["/c/pkgs/r/file-1.09-1-any.pkg.tar.zst", "/c/pkgs/r/file-1.09-1-any.pkg.tar.zst.sig",
          "/c/pkgs/r/file-1.08-1-any.pkg.tar.zst", "/c/pkgs/r/file-1.08-1-any.pkg.tar.zst.sig"]
        (tiedWalk ["08", "09"] dir))
      "/c" 100 4 "r" = Outcome.done [] 12 12 := by
  decide

/-- C12, amended: whatever `os.Remove` calls are refused, a pass carried out on the disk makes
the same `os.Remove` calls and sets the same gauge values as the pass in which every removal
succeeds; for every stale deletion candidate `p` the calls contain the removal of `p` immediately
followed by the removal of `p.sig`; the files left are those not successfully removed; and,
provided that `keep = 0` or that every package group has at most 12 files or no two files of the
same modification time, a stale candidate whose removal was refused is a stale deletion candidate
again, with both calls made again, in a following pass over the files left with the same
parameters and a `now` that is not earlier (walk without error, each path once). -/
theorem C12_removal_failures_absorbed (removeFails : String → Bool) (now now2 : Int)
    (walk : String → List WalkEntry) (cacheDir repoName : String)
    (purgeFilesAfter keep : Int) (hpfa : purgeFilesAfter ≠ 0) :
    ∃ calls num size,
      purgeStaleFiles now walk cacheDir purgeFilesAfter keep repoName =
        Outcome.done calls num size ∧
      (purgeStaleFilesRun removeFails now walk cacheDir purgeFilesAfter keep repoName).1 =
        Outcome.done calls num size ∧
      (purgeStaleFilesRun (fun _ => false) now walk cacheDir purgeFilesAfter keep repoName).1 =
        Outcome.done calls num size ∧
      (purgeStaleFilesRun removeFails now walk cacheDir purgeFilesAfter keep repoName).2.1 =
        diskAfter removeFails calls (walk (pkgDir cacheDir repoName)) ∧
      (∀ kv ∈ Walk repoName (walk (pkgDir cacheDir repoName)) [],
        ∀ (i : Nat) (f : packageFile), (SortFunc kv.2.files)[i]? = some f →
          (i : Int) < (kv.2.files.length : Int) - keep →
          f.atime < removeIfOlder now purgeFilesAfter →
          [f.path, f.path ++ ".sig"] <:+: calls) ∧
      (now ≤ now2 →
        ((walk (pkgDir cacheDir repoName)).map WalkEntry.path).Nodup →
        (∀ e ∈ walk (pkgDir cacheDir repoName), e.err = false) →
        (keep = 0 ∨ ∀ kv ∈ Walk repoName (walk (pkgDir cacheDir repoName)) [],
          kv.2.files.length ≤ 12 ∨ kv.2.files.Pairwise (fun a b => a.mtime ≠ b.mtime)) →
        ∃ calls2 num2 size2,
          purgeStaleFiles now2 (fun dir => diskAfter removeFails calls (walk dir))
            cacheDir purgeFilesAfter keep repoName = Outcome.done calls2 num2 size2 ∧
          ∀ kv ∈ Walk repoName (walk (pkgDir cacheDir repoName)) [],
            ∀ (i : Nat) (f : packageFile), (SortFunc kv.2.files)[i]? = some f →
              (i : Int) < (kv.2.files.length : Int) - keep →
              f.atime < removeIfOlder now purgeFilesAfter →
              removeFails f.path = true →
              f ∈ removedFiles keep (removeIfOlder now2 purgeFilesAfter)
                (Walk repoName (diskAfter removeFails calls
                  (walk (pkgDir cacheDir repoName))) []) ∧
              [f.path, f.path ++ ".sig"] <:+: calls2) := by
  have heq := purgeStaleFiles_eq now walk cacheDir purgeFilesAfter keep repoName hpfa
  have hstale : ∀ kv ∈ Walk repoName (walk (pkgDir cacheDir repoName)) [],
      ∀ (i : Nat) (f : packageFile), (SortFunc kv.2.files)[i]? = some f →
        (i : Int) < (kv.2.files.length : Int) - keep →
        f.atime < removeIfOlder now purgeFilesAfter →
        f ∈ staleOf keep (removeIfOlder now purgeFilesAfter) kv.2.files := by
    intro kv _ i f hi hpos hold
    unfold staleOf candidates
    exact List.mem_filter.2 ⟨mem_take_of_lt _ _ i f hi (by omega), by simpa using hold⟩
  refine ⟨_, _, _, heq, (purgeStaleFilesRun_eq removeFails _ _ _ _ _ _ _ _ _ heq).1,
    (purgeStaleFilesRun_eq (fun _ => false) _ _ _ _ _ _ _ _ _ heq).1,
    (purgeStaleFilesRun_eq removeFails _ _ _ _ _ _ _ _ _ heq).2, ?_, ?_⟩
  · intro kv hkv i f hi hpos hold
    exact removeCalls_infix _ f
      (List.mem_flatMap.2 ⟨kv, hkv, hstale kv hkv i f hi hpos hold⟩)
  · intro hnow hnd hnoerr hties
    refine ⟨_, _, _, purgeStaleFiles_eq now2 _ cacheDir purgeFilesAfter keep repoName hpfa, ?_⟩
    intro kv hkv i f hi hpos hold hfail
    have hagain := failed_candidate_again repoName (walk (pkgDir cacheDir repoName)) keep
      (removeIfOlder now purgeFilesAfter) (removeIfOlder now2 purgeFilesAfter) removeFails
      (removeIfOlder_mono now now2 purgeFilesAfter hnow) hnd hnoerr kv hkv
      (hties.imp id (fun h => h kv hkv)) f
      (hstale kv hkv i f hi hpos hold) hfail
    exact ⟨hagain, removeCalls_infix _ f hagain⟩

/-- Witness of C12 (amended) on the example walk: the removal of the first version is refused, the
following pass runs one second later. -/
theorem C12_removal_failures_absorbed_witness :
    (100 : Int) ≠ 0 ∧
    (1000000000000 : Int) ≤ 1001000000000 ∧
    ((exampleWalk (pkgDir "/c" "r")).map WalkEntry.path).Nodup ∧
    (∀ e ∈ exampleWalk (pkgDir "/c" "r"), e.err = false) ∧
    ((1 : Int) = 0 ∨ ∀ kv ∈ Walk "r" (exampleWalk (pkgDir "/c" "r")) [],
      kv.2.files.length ≤ 12 ∨ kv.2.files.Pairwise (fun a b => a.mtime ≠ b.mtime)) ∧
    ∃ calls num size,
      purgeStaleFiles 1000000000000 exampleWalk "/c" 100 1 "r" = Outcome.done calls num size ∧
      (purgeStaleFilesRun (fun p => p == "/c/pkgs/r/file-1.00-1-any.pkg.tar.zst")
        1000000000000 exampleWalk "/c" 100 1 "r").1 = Outcome.done calls num size ∧
      (purgeStaleFilesRun (fun _ => false) 1000000000000 exampleWalk "/c" 100 1 "r").1 =
        Outcome.done calls num size ∧
      (purgeStaleFilesRun (fun p => p == "/c/pkgs/r/file-1.00-1-any.pkg.tar.zst")
        1000000000000 exampleWalk "/c" 100 1 "r").2.1 =
        diskAfter (fun p => p == "/c/pkgs/r/file-1.00-1-any.pkg.tar.zst") calls
          (exampleWalk (pkgDir "/c" "r")) ∧
      (∀ kv ∈ Walk "r" (exampleWalk (pkgDir "/c" "r")) [],
        ∀ (i : Nat) (f : packageFile), (SortFunc kv.2.files)[i]? = some f →
          (i : Int) < (kv.2.files.length : Int) - 1 →
          f.atime < removeIfOlder 1000000000000 100 →
          [f.path, f.path ++ ".sig"] <:+: calls) ∧
      ((1000000000000 : Int) ≤ 1001000000000 →
        ((exampleWalk (pkgDir "/c" "r")).map WalkEntry.path).Nodup →
        (∀ e ∈ exampleWalk (pkgDir "/c" "r"), e.err = false) →
        ((1 : Int) = 0 ∨ ∀ kv ∈ Walk "r" (exampleWalk (pkgDir "/c" "r")) [],
          kv.2.files.length ≤ 12 ∨ kv.2.files.Pairwise (fun a b => a.mtime ≠ b.mtime)) →
        ∃ calls2 num2 size2,
          purgeStaleFiles 1001000000000
            (fun dir => diskAfter (fun p => p == "/c/pkgs/r/file-1.00-1-any.pkg.tar.zst") calls
              (exampleWalk dir))
            "/c" 100 1 "r" = Outcome.done calls2 num2 size2 ∧
          ∀ kv ∈ Walk "r" (exampleWalk (pkgDir "/c" "r")) [],
            ∀ (i : Nat) (f : packageFile), (SortFunc kv.2.files)[i]? = some f →
              (i : Int) < (kv.2.files.length : Int) - 1 →
              f.atime < removeIfOlder 1000000000000 100 →
              (fun p => p == "/c/pkgs/r/file-1.00-1-any.pkg.tar.zst") f.path = true →
              f ∈ removedFiles 1 (removeIfOlder 1001000000000 100)
                (Walk "r" (diskAfter (fun p => p == "/c/pkgs/r/file-1.00-1-any.pkg.tar.zst")
                  calls (exampleWalk (pkgDir "/c" "r"))) []) ∧
              [f.path, f.path ++ ".sig"] <:+: calls2) :=
  ⟨by decide, by decide, by decide, by decide, by decide,
    C12_removal_failures_absorbed (fun p => p == "/c/pkgs/r/file-1.00-1-any.pkg.tar.zst")
      1000000000000 1001000000000 exampleWalk "/c" "r" 100 1 (by decide)⟩


/-- C13: after the scan of a repository (a walk that yields each path once) the keys of the map
are pairwise distinct; every filed entry (a regular file reached by the walk whose base name
matches the pattern) is in the files of the package keyed by `repoName/` followed by its
extracted name, exactly once, and in the files of no other package; every file of a package has
the package's name as its extracted name, matches the pattern and comes from a regular file of
the walk; and for every package `count` equals `len(files)`. -/
theorem C13_grouping_invariant (repoName : String) (entries : List WalkEntry)
    (hpaths : (entries.map WalkEntry.path).Nodup) :
    ((Walk repoName entries []).map Prod.fst).Nodup ∧
    (∀ e ∈ scanned entries, ∃ kv ∈ Walk repoName entries [],
      kv.1 = repoName ++ "/" ++ (FindStringSubmatch (Base e.path)).getD 1 "" ∧
      kv.2.files.count (toPackageFile e) = 1 ∧
      ∀ kv' ∈ Walk repoName entries [], toPackageFile e ∈ kv'.2.files → kv' = kv) ∧
    (∀ kv ∈ Walk repoName entries [], ∀ f ∈ kv.2.files,
      (FindStringSubmatch (Base f.path)).getD 1 "" = kv.2.name ∧
      (FindStringSubmatch (Base f.path)).length ≠ 0 ∧
      ∃ e ∈ entries, e.err = false ∧ e.regular = true ∧ f = toPackageFile e) ∧
    (∀ kv ∈ Walk repoName entries [],
      kv.2.count = kv.2.files.length ∧ kv.2.repo = repoName ∧
      kv.1 = repoName ++ "/" ++ kv.2.name) := by
  obtain ⟨hnd, hcov, hgrp⟩ := Walk_spec repoName entries
  have hnd' : ((scanned entries).map WalkEntry.path).Nodup :=
    hpaths.sublist ((scanned_sublist entries).map _)
  refine ⟨hnd, ?_, ?_, ?_⟩
  · intro e he
    obtain ⟨kv, hkv, hk⟩ := List.mem_map.1 (hcov e he)
    have hmem : toPackageFile e ∈ kv.2.files := by
      rw [(hgrp kv hkv).1]
      unfold groupFiles
      exact List.mem_map_of_mem _ (List.mem_filter.2 ⟨he, by simpa using hk.symm⟩)
    refine ⟨kv, hkv, hk, ?_, ?_⟩
    · apply List.count_eq_one_of_mem _ hmem
      rw [(hgrp kv hkv).1]
      exact groupFiles_nodup _ _ _ hnd'
    · intro kv' hkv' hmem'
      rw [(hgrp kv' hkv').1] at hmem'
      obtain ⟨e', he', hk', heq⟩ := mem_groupFiles _ _ _ _ hmem'
      have hpath : e.path = e'.path := congrArg packageFile.path heq
      have hee : e = e' := List.inj_on_of_nodup_map hnd' he he' hpath
      subst hee
      exact List.inj_on_of_nodup_map hnd hkv' hkv (hk'.symm.trans hk.symm)
  · intro kv hkv f hf
    rw [(hgrp kv hkv).1] at hf
    obtain ⟨e, he, hk, rfl⟩ := mem_groupFiles _ _ _ _ hf
    obtain ⟨h1, h2, h3, h4⟩ := mem_scanned _ e he
    refine ⟨?_, h4, e, h1, h2, h3, rfl⟩
    have hkey := (hgrp kv hkv).2.2.1
    have : repoName ++ "/" ++ (FindStringSubmatch (Base e.path)).getD 1 "" =
        repoName ++ "/" ++ kv.2.name := by
      rw [← hkey, ← hk]
      rfl
    exact string_append_left_cancel _ _ _ this
  · intro kv hkv
    exact ⟨(hgrp kv hkv).2.1, (hgrp kv hkv).2.2.2.1, (hgrp kv hkv).2.2.1⟩

/-- Witness of C13 on the example walk. -/
theorem C13_grouping_invariant_witness :
    ((exampleWalk (pkgDir "/c" "r")).map WalkEntry.path).Nodup ∧
    (((Walk "r" (exampleWalk (pkgDir "/c" "r")) []).map Prod.fst).Nodup ∧
    (∀ e ∈ scanned (exampleWalk (pkgDir "/c" "r")),
      ∃ kv ∈ Walk "r" (exampleWalk (pkgDir "/c" "r")) [],
      kv.1 = "r" ++ "/" ++ (FindStringSubmatch (Base e.path)).getD 1 "" ∧
      kv.2.files.count (toPackageFile e) = 1 ∧
      ∀ kv' ∈ Walk "r" (exampleWalk (pkgDir "/c" "r")) [],
        toPackageFile e ∈ kv'.2.files → kv' = kv) ∧
    (∀ kv ∈ Walk "r" (exampleWalk (pkgDir "/c" "r")) [], ∀ f ∈ kv.2.files,
      (FindStringSubmatch (Base f.path)).getD 1 "" = kv.2.name ∧
      (FindStringSubmatch (Base f.path)).length ≠ 0 ∧
      ∃ e ∈ exampleWalk (pkgDir "/c" "r"),
        e.err = false ∧ e.regular = true ∧ f = toPackageFile e) ∧
    (∀ kv ∈ Walk "r" (exampleWalk (pkgDir "/c" "r")) [],
      kv.2.count = kv.2.files.length ∧ kv.2.repo = "r" ∧
      kv.1 = "r" ++ "/" ++ kv.2.name)) :=
  ⟨by decide, C13_grouping_invariant "r" (exampleWalk (pkgDir "/c" "r")) (by decide)⟩


/-- C15, counterexample: with `purgeFilesAfter = -1` the pass is not halted, the threshold is
one second after `now`, and a deletion candidate whose access time is `now` is removed; with
`purgeFilesAfter = 9223372037` the same happens because the `int64` product of line 64 wraps
around; and with `purgeFilesAfter = 100` a signature file accessed at `now` is removed together
with its stale package file. -/
theorem C15_counterexample :
    (purgeStaleFiles 0
        (fun dir => [{ path := dir ++ "/file-1.00-1-any.pkg.tar.zst", err := false,
                       regular := true, modTime := 0, accessTime := 0, size := 9 }])
        "/c" (-1) 0 "r" =
        Outcome.done ["/c/pkgs/r/file-1.00-1-any.pkg.tar.zst",
          "/c/pkgs/r/file-1.00-1-any.pkg.tar.zst.sig"] 0 0 ∧
      ¬ (removeIfOlder 0 (-1) < 0)) ∧
    (purgeStaleFiles 0
        (fun dir => [{ path := dir ++ "/file-1.00-1-any.pkg.tar.zst", err := false,
                       regular := true, modTime := 0, accessTime := 0, size := 9 }])
        "/c" 9223372037 0 "r" =
        Outcome.done ["/c/pkgs/r/file-1.00-1-any.pkg.tar.zst",
          "/c/pkgs/r/file-1.00-1-any.pkg.tar.zst.sig"] 0 0 ∧
      ¬ (removeIfOlder 0 9223372037 < 0)) ∧
    (purgeStaleFilesRun (fun _ => false) 1000000000000
        (fun dir => [{ path := dir ++ "/file-1.00-1-any.pkg.tar.zst", err := false,
                       regular := true, modTime := 0, accessTime := 0, size := 9 },
                     { path := dir ++ "/file-1.00-1-any.pkg.tar.zst.sig", err := false,
                       regular := true, modTime := 0, accessTime := 1000000000000, size := 1 }])
        "/c" 100 0 "r" =
        (Outcome.done ["/c/pkgs/r/file-1.00-1-any.pkg.tar.zst",
          "/c/pkgs/r/file-1.00-1-any.pkg.tar.zst.sig"] 0 0, [], [])) := by
  decide

/-- C15, amended: for every `purgeFilesAfter` from 1 to 9223372036 (positive, and its
nanoseconds fit a `time.Duration`) the pass is not halted, the threshold `removeIfOlder` is
strictly earlier than `now`, and `os.Remove` is never called with the path of a file of a package
group whose access time is equal to or later than `now` (the walk yields each path once). -/
theorem C15_threshold_before_now (now : Int) (walk : String → List WalkEntry)
    (cacheDir repoName : String) (purgeFilesAfter keep : Int)
    (hpos : 0 < purgeFilesAfter) (hhi : purgeFilesAfter ≤ 9223372036)
    (hpaths : ((walk (pkgDir cacheDir repoName)).map WalkEntry.path).Nodup) :
    removeIfOlder now purgeFilesAfter < now ∧
    ∃ calls num size,
      purgeStaleFiles now walk cacheDir purgeFilesAfter keep repoName =
        Outcome.done calls num size ∧
      ∀ kv ∈ Walk repoName (walk (pkgDir cacheDir repoName)) [], ∀ f ∈ kv.2.files,
        now ≤ f.atime → f.path ∉ calls := by
  have hthr : removeIfOlder now purgeFilesAfter < now := by
    rw [removeIfOlder_eq now purgeFilesAfter (by omega) hhi]
    omega
  refine ⟨hthr, _, _, _,
    purgeStaleFiles_eq now walk cacheDir purgeFilesAfter keep repoName (by omega), ?_⟩
  intro kv hkv f hf hat hmem
  rw [mem_calls_iff repoName _ keep _ hpaths kv hkv f hf] at hmem
  have := of_decide_eq_true (List.mem_filter.1 hmem).2
  omega

/-- Witness of C15 (amended) on the example walk. -/
theorem C15_threshold_before_now_witness :
    (0 : Int) < 100 ∧ (100 : Int) ≤ 9223372036 ∧
    ((exampleWalk (pkgDir "/c" "r")).map WalkEntry.path).Nodup ∧
    (removeIfOlder 1000000000000 100 < 1000000000000 ∧
    ∃ calls num size,
      purgeStaleFiles 1000000000000 exampleWalk "/c" 100 1 "r" = Outcome.done calls num size ∧
      ∀ kv ∈ Walk "r" (exampleWalk (pkgDir "/c" "r")) [], ∀ f ∈ kv.2.files,
        1000000000000 ≤ f.atime → f.path ∉ calls) :=
  ⟨by decide, by decide, by decide,
    C15_threshold_before_now 1000000000000 exampleWalk "/c" "r" 100 1 (by decide) (by decide)
      (by decide)⟩


end Pacoloco
